import Mathlib

/-!
# Project reader of the deployer (`deployers/projectreader.go`)

A shallow embedding of the discovery and undeploy logic of the service
deployer: the ownership annotation accessors, the resource collectors, the
dependency resolver, the undeploy orchestrator and the merge of the package
inputs.

* Go values of type `interface{}` that come out of an annotation bag are
  values of `JVal`.
* A failed type assertion or a nil dereference is a Go panic: `Res.panic`.
* Remote calls are answered by a `Client`, whose answers may depend on the
  history of the calls made so far; every call is appended to that history.
-/

namespace ProjectReader

/-! ## Annotation values -/

/-- A decoded annotation value, the dynamic content of a Go `interface{}`. -/
inductive JVal where
  | null
  | bool (b : Bool)
  | num (n : Int)
  | str (s : String)
  | arr (xs : List JVal)
  | obj (kvs : List (String × JVal))

/-- The outcome of running a piece of Go code: a value, or a run-time panic. -/
inductive Res (α : Type) where
  | val (a : α)
  | panic
  deriving DecidableEq

/-- Indexing a Go `map[string]interface{}`: the value of the first binding of
`k`, and the nil interface when `k` has no binding. -/
def mapIndex : List (String × JVal) → String → JVal
  | [], _ => JVal.null
  | (k', v) :: rest, k => if k' = k then v else mapIndex rest k

/-- Go comparison `v == s` of an interface value with a string: true exactly
when the dynamic value is that string. -/
def ifaceEqString : JVal → String → Bool
  | JVal.str s', s => decide (s' = s)
  | _, _ => false

/-- Type assertion `v.(map[string]interface{})`. -/
def assertMap : JVal → Res (List (String × JVal))
  | JVal.obj kvs => Res.val kvs
  | _ => Res.panic

/-- Type assertion `v.([]interface{})`. -/
def assertSlice : JVal → Res (List JVal)
  | JVal.arr xs => Res.val xs
  | _ => Res.panic

/-- Type assertion `v.(string)`. -/
def assertString : JVal → Res String
  | JVal.str s => Res.val s
  | _ => Res.panic

/-- Modelled from the spec: the constant `utils.MANAGED`, the reserved
annotation key holding the ownership metadata (named in the comments of
`projectreader.go`). -/
def MANAGED : String := "whisk-managed"

/-- Modelled from the spec: the constant `utils.OW_PROJECT_NAME`, the
project-name field of the ownership annotation. -/
def OW_PROJECT_NAME : String := "projectName"

/-- Modelled from the spec: the constant `utils.OW_PROJECT_DEPS`, the
dependency-list field of the ownership annotation (named in the comments of
`projectreader.go`). -/
def OW_PROJECT_DEPS : String := "projectDeps"

/-- Modelled from the spec: the constant `wski18n.KEY_KEY`, the field of a
dependency entry that holds the reference string. -/
def KEY_KEY : String := "key"

/-! ## `filterPackageName` -/

/-- Cut a string after its first `/`: the piece up to and including the
separator, and the remainder. `none` when there is no separator. -/
def cutAfterSep : List Char → Option (List Char × List Char)
  | [] => none
  | c :: cs =>
    if c = '/' then some ([c], cs)
    else match cutAfterSep cs with
      | none => none
      | some (a, b) => some (c :: a, b)

/-- The splitting loop of `strings.SplitAfterN` for the separator `/`: at most
`k` cuts, the last piece is the unsplit remainder. -/
def splitAfterLoop : Nat → List Char → List (List Char)
  | 0, s => [s]
  | k + 1, s =>
    match cutAfterSep s with
    | none => [s]
    | some (a, b) => a :: splitAfterLoop k b

/-- The library call `strings.SplitAfterN(s, "/", n)` for `n ≥ 0`: the
substrings after each `/`, at most `n` of them. -/
def SplitAfterN (s : String) (n : Nat) : List String :=
  match n with
  | 0 => []
  | k + 1 => (splitAfterLoop k s.data).map String.mk

/-- Source `filterPackageName`: the third piece of the split when there are
three pieces and the third is not empty, the empty string otherwise. -/
def filterPackageName (name : String) : String :=
  match SplitAfterN name 3 with
  | [_, _, s2] => if s2.length ≠ 0 then s2 else ""
  | _ => ""

/-- What the specification says `filterPackageName` computes: the text after
the second `/` when there are at least two, the empty string otherwise. -/
def textAfterSecondSlash (ref : String) : String :=
  if 2 ≤ ref.data.count '/' then
    String.mk (((ref.data.dropWhile (fun c => c != '/')).tail.dropWhile
      (fun c => c != '/')).tail)
  else ""

/-- The reference shape of the claim: `/`, a non-empty namespace without `/`,
`/`, a non-empty package name. -/
def WellShapedRef (ref : String) : Prop :=
  ∃ ns pkg : List Char, ns ≠ [] ∧ '/' ∉ ns ∧ pkg ≠ [] ∧
    ref.data = '/' :: (ns ++ '/' :: pkg)

/-- The shape `filterPackageName` accepts: two pieces without `/`, each
followed by `/`, and a non-empty rest. -/
def TwoSlashRef (ref : String) : Prop :=
  ∃ a b p : List Char, '/' ∉ a ∧ '/' ∉ b ∧ p ≠ [] ∧
    ref.data = a ++ '/' :: (b ++ '/' :: p)

/-! ## `isManagedEntity` -/

/-- Source `isManagedEntity`: the annotation is not nil and its project-name
entry is the given project name. A non-nil annotation that is not a mapping
fails the type assertion. -/
def isManagedEntity (a : JVal) (projectName : String) : Res Bool :=
  match a with
  | JVal.null => Res.val false
  | _ =>
    match assertMap a with
    | Res.panic => Res.panic
    | Res.val ta =>
      if ifaceEqString (mapIndex ta OW_PROJECT_NAME) projectName then Res.val true
      else Res.val false

/-! ## Data model -/

/-- The annotation bag of a resource (`whisk.KeyValueArr`). -/
abbrev KeyValueArr := List (String × JVal)

/-- The client library's `KeyValueArr.GetValue`: the value of the first entry
with the given key, nil when there is none. -/
def GetValue : KeyValueArr → String → JVal
  | [], _ => JVal.null
  | (k, v) :: rest, key => if k = key then v else GetValue rest key

/-- A package as the API returns it (`whisk.Package`). -/
structure Package where
  Name : String
  Annotations : KeyValueArr

/-- The execution descriptor of an action (`whisk.Exec`). -/
structure Exec where
  Kind : String

/-- An action as the API returns it (`whisk.Action`); `Exec` is a pointer that
may be nil. -/
structure Action where
  Name : String
  Annotations : KeyValueArr
  Exec : Option Exec

/-- A trigger as the API returns it (`whisk.Trigger`). -/
structure Trigger where
  Name : String
  Annotations : KeyValueArr

/-- A rule as the API returns it (`whisk.Rule`). -/
structure Rule where
  Name : String
  Annotations : KeyValueArr

/-- An action with the name of its owning package (`utils.ActionRecord`). -/
structure ActionRecord where
  Action : Action
  Packagename : String

/-- The part of `DeploymentPackage` the project reader touches. -/
structure DeploymentPackage where
  Package : Package
  Actions : List (String × ActionRecord)
  Sequences : List (String × ActionRecord)

/-- The part of `DeploymentProject` the project reader touches: an asset set. -/
structure DeploymentProject where
  Packages : List (String × DeploymentPackage)
  Triggers : List (String × Trigger)
  Rules : List (String × Rule)

/-- `NewDeploymentPackage()`: empty maps, the package is set by the caller. -/
def NewDeploymentPackage (p : Package) : DeploymentPackage :=
  ⟨p, [], []⟩

/-- `NewDeploymentProject()`: empty maps. -/
def NewDeploymentProject : DeploymentProject :=
  ⟨[], [], []⟩

/-- Go map assignment `m[k] = v`. -/
def mapSet {α : Type} : List (String × α) → String → α → List (String × α)
  | [], k, v => [(k, v)]
  | (k', v') :: rest, k, v =>
    if k' = k then (k, v) :: rest else (k', v') :: mapSet rest k v

/-- Go map lookup `m[k]` on a map of pointers: `none` is the nil pointer. -/
def mapGet {α : Type} : List (String × α) → String → Option α
  | [], _ => none
  | (k', v') :: rest, k => if k' = k then some v' else mapGet rest k

/-- Error of the client library (`*whisk.WskError`). -/
structure WskError where
  msg : String
  deriving DecidableEq

/-- The resource kind recorded in a client error (`parsers.YAML_KEY_PACKAGE`,
`YAML_KEY_ACTION`, `YAML_KEY_TRIGGER`, `YAML_KEY_RULE`). -/
inductive EntityKind where
  | package
  | action
  | trigger
  | rule
  deriving DecidableEq

/-- A non-nil Go `error` value. -/
inductive GoError where
  | wsk (e : WskError)
  | whiskClient (e : WskError) (kind : EntityKind)
  | other (msg : String)
  deriving DecidableEq

/-- `createWhiskClientError(err, response, kind, false)`: a structured client
error, never nil. -/
def createWhiskClientError (e : WskError) (kind : EntityKind) : GoError :=
  GoError.whiskClient e kind

/-- Modelled from the spec: the constant `parsers.PATH_SEPARATOR`. -/
def PATH_SEPARATOR : String := "/"

/-- Modelled from the spec: the constant `parsers.YAML_KEY_SEQUENCE`, the
execution kind that marks a composition. -/
def YAML_KEY_SEQUENCE : String := "sequence"

/-! ## Remote calls -/

/-- One interaction of the deployer with the outside: a call of the remote
API, or a call of the deployer's `unDeployAssets` / `printDeploymentAssets`. -/
inductive Event where
  | PackagesList
  | PackagesGet (name : String)
  | ActionsList (packageName : String)
  | ActionsGet (name : String)
  | TriggersList
  | TriggersGet (name : String)
  | RulesList
  | RulesGet (name : String)
  | unDeployAssets (p : DeploymentProject)
  | printDeploymentAssets (p : DeploymentProject)

/-- Whether an event is an invocation of `unDeployAssets`. -/
def Event.isUnDeploy : Event → Bool
  | Event.unDeployAssets _ => true
  | _ => false

/-- The remote API: each answer may depend on the calls made before. -/
structure Client where
  PackagesList : List Event → Except WskError (List Package)
  PackagesGet : List Event → String → Except WskError Package
  ActionsList : List Event → String → Except WskError (List Action)
  ActionsGet : List Event → String → Except WskError Action
  TriggersList : List Event → Except WskError (List Trigger)
  TriggersGet : List Event → String → Except WskError Trigger
  RulesList : List Event → Except WskError (List Rule)
  RulesGet : List Event → String → Except WskError Rule

/-- What the project reader runs against: the client, the retry constant
`DEFAULT_ATTEMPTS`, the order in which `range` visits the package map (Go
leaves it unspecified), and the deployer's `unDeployAssets`, which is not part
of `projectreader.go` and is taken as given. -/
structure Env where
  Client : Client
  DEFAULT_ATTEMPTS : Nat
  rangePackages : List (String × DeploymentPackage) → List (String × DeploymentPackage)
  unDeployAssets : List Event → DeploymentProject → Option GoError

/-- The command-line flags read by the project reader (`utils.Flags`). -/
structure Flags where
  ProjectName : String
  Preview : Bool

/-- A Go computation: from the history of calls to a value and the extended
history, or a panic. -/
def Go (α : Type) : Type := List Event → Res (α × List Event)

/-- Return a value without calling out. -/
def Go.pure {α : Type} (a : α) : Go α := fun t => Res.val (a, t)

/-- Sequencing: a panic stops the computation. -/
def Go.bind {α β : Type} (x : Go α) (f : α → Go β) : Go β := fun t =>
  match x t with
  | Res.panic => Res.panic
  | Res.val (a, t1) => f a t1

instance : Monad Go where
  pure := Go.pure
  bind := Go.bind

/-- Run pure code that may panic. -/
def liftRes {α : Type} : Res α → Go α
  | Res.val a => Go.pure a
  | Res.panic => fun _ => Res.panic

/-- One call: the answer is read off the history, the call is recorded. -/
def call {β : Type} (ev : Event) (answer : List Event → β) : Go β :=
  fun t => Res.val (answer t, t ++ [ev])

/-- The attempts of `retry` after the first one. -/
def retryLoop {α : Type} : Nat → Go (Except WskError α) → Go (Except WskError α)
  | 0, op => op
  | n + 1, op => do
    let r ← op
    match r with
    | Except.ok a => Go.pure (Except.ok a)
    | Except.error _ => retryLoop n op

/-- Modelled from the spec: `retry(maxAttempts, interval, operation)`, which
is not part of `projectreader.go`. The operation is invoked, and invoked again
while it fails, up to `maxAttempts` invocations; the outcome is that of the
last invocation. The operation is invoked at least once; the waiting time has
no effect on the result. -/
def retry {α : Type} (maxAttempts : Nat) (op : Go (Except WskError α)) :
    Go (Except WskError α) :=
  retryLoop (maxAttempts - 1) op

/-! ## Collectors -/

/-- Source `getPackage`: a retried `Packages.Get`; on failure a client error,
on success a fresh deployment package holding the fetched package. -/
def getPackage (env : Env) (packageName : String) :
    Go (Except GoError DeploymentPackage) := do
  let r ← retry env.DEFAULT_ATTEMPTS
    (call (Event.PackagesGet packageName) (fun t => env.Client.PackagesGet t packageName))
  match r with
  | Except.error e => Go.pure (Except.error (createWhiskClientError e EntityKind.package))
  | Except.ok p => Go.pure (Except.ok (NewDeploymentPackage p))

/-- The loop of `SetProjectPackages` over the listed packages. -/
def setProjectPackagesLoop (env : Env) (projectName : String) :
    List Package → DeploymentProject → Go (DeploymentProject × Option GoError)
  | [], d => Go.pure (d, none)
  | pkg :: rest, d => do
    let m ← liftRes (isManagedEntity (GetValue pkg.Annotations MANAGED) projectName)
    if m then do
      let r ← getPackage env pkg.Name
      match r with
      | Except.error e => Go.pure (d, some e)
      | Except.ok p =>
        setProjectPackagesLoop env projectName rest
          ⟨mapSet d.Packages pkg.Name p, d.Triggers, d.Rules⟩
    else setProjectPackagesLoop env projectName rest d

/-- Source `SetProjectPackages`: a failed listing returns nil; otherwise every
listed package of the project is fetched and stored under its listed name. -/
def SetProjectPackages (env : Env) (projectName : String) (d : DeploymentProject) :
    Go (DeploymentProject × Option GoError) := do
  let r ← call Event.PackagesList env.Client.PackagesList
  match r with
  | Except.error _ => Go.pure (d, none)
  | Except.ok listOfPackages => setProjectPackagesLoop env projectName listOfPackages d

/-- The loop of `getPackageActionsAndSequences` over the listed actions. -/
def getPackageActionsAndSequencesLoop (env : Env) (packageName projectName : String) :
    List Action → List (String × ActionRecord) → List (String × ActionRecord) →
      Go ((List (String × ActionRecord) × List (String × ActionRecord)) × Option GoError)
  | [], listOfActions, listOfSequences => Go.pure ((listOfActions, listOfSequences), none)
  | action :: rest, listOfActions, listOfSequences => do
    let m ← liftRes (isManagedEntity (GetValue action.Annotations MANAGED) projectName)
    if m then do
      let r ← retry env.DEFAULT_ATTEMPTS
        (call (Event.ActionsGet (packageName ++ PATH_SEPARATOR ++ action.Name))
          (fun t => env.Client.ActionsGet t (packageName ++ PATH_SEPARATOR ++ action.Name)))
      match r with
      | Except.error e =>
        Go.pure ((listOfActions, listOfSequences),
          some (createWhiskClientError e EntityKind.action))
      | Except.ok a =>
        match a.Exec with
        | none => fun _ => Res.panic
        | some ex =>
          if ex.Kind = YAML_KEY_SEQUENCE then
            getPackageActionsAndSequencesLoop env packageName projectName rest
              listOfActions (mapSet listOfSequences action.Name ⟨a, packageName⟩)
          else
            getPackageActionsAndSequencesLoop env packageName projectName rest
              (mapSet listOfActions action.Name ⟨a, packageName⟩) listOfSequences
    else
      getPackageActionsAndSequencesLoop env packageName projectName rest
        listOfActions listOfSequences

/-- Source `getPackageActionsAndSequences`: a failed listing returns the
listing error; otherwise every listed action of the project is fetched and
filed as a sequence or as an action by its execution kind. -/
def getPackageActionsAndSequences (env : Env) (packageName projectName : String) :
    Go ((List (String × ActionRecord) × List (String × ActionRecord)) × Option GoError) := do
  let r ← call (Event.ActionsList packageName) (fun t => env.Client.ActionsList t packageName)
  match r with
  | Except.error e => Go.pure (([], []), some (GoError.wsk e))
  | Except.ok actions =>
    getPackageActionsAndSequencesLoop env packageName projectName actions [] []

/-- Go `m[k].Actions = a; m[k].Sequences = s` on a map of pointers: a missing
key is a nil dereference. -/
def setActionsAndSequences (m : List (String × DeploymentPackage)) (k : String)
    (a s : List (String × ActionRecord)) : Res (List (String × DeploymentPackage)) :=
  match mapGet m k with
  | none => Res.panic
  | some p => Res.val (mapSet m k ⟨p.Package, a, s⟩)

/-- The loop of `SetPackageActionsAndSequences` over the package map. -/
def setPackageActionsAndSequencesLoop (env : Env) (projectName : String) :
    List (String × DeploymentPackage) → DeploymentProject →
      Go (DeploymentProject × Option GoError)
  | [], d => Go.pure (d, none)
  | (_, pkg) :: rest, d => do
    let (as, err) ← getPackageActionsAndSequences env pkg.Package.Name projectName
    match err with
    | some e => Go.pure (d, some e)
    | none => do
      let pkgs ← liftRes (setActionsAndSequences d.Packages pkg.Package.Name as.1 as.2)
      setPackageActionsAndSequencesLoop env projectName rest ⟨pkgs, d.Triggers, d.Rules⟩

/-- Source `SetPackageActionsAndSequences`. -/
def SetPackageActionsAndSequences (env : Env) (projectName : String)
    (d : DeploymentProject) : Go (DeploymentProject × Option GoError) :=
  setPackageActionsAndSequencesLoop env projectName (env.rangePackages d.Packages) d

/-- The loop of `getProjectTriggers` over the listed triggers. -/
def getProjectTriggersLoop (env : Env) (projectName : String) :
    List Trigger → List (String × Trigger) → Go (List (String × Trigger) × Option GoError)
  | [], triggers => Go.pure (triggers, none)
  | trigger :: rest, triggers => do
    let m ← liftRes (isManagedEntity (GetValue trigger.Annotations MANAGED) projectName)
    if m then do
      let r ← retry env.DEFAULT_ATTEMPTS
        (call (Event.TriggersGet trigger.Name) (fun t => env.Client.TriggersGet t trigger.Name))
      match r with
      | Except.error e =>
        Go.pure (triggers, some (createWhiskClientError e EntityKind.trigger))
      | Except.ok t =>
        getProjectTriggersLoop env projectName rest (mapSet triggers trigger.Name t)
    else getProjectTriggersLoop env projectName rest triggers

/-- Source `getProjectTriggers`: a failed listing returns the empty map and
nil. -/
def getProjectTriggers (env : Env) (projectName : String) :
    Go (List (String × Trigger) × Option GoError) := do
  let r ← call Event.TriggersList env.Client.TriggersList
  match r with
  | Except.error _ => Go.pure ([], none)
  | Except.ok listOfTriggers => getProjectTriggersLoop env projectName listOfTriggers []

/-- Source `SetProjectTriggers`. -/
def SetProjectTriggers (env : Env) (projectName : String) (d : DeploymentProject) :
    Go (DeploymentProject × Option GoError) := do
  let (t, err) ← getProjectTriggers env projectName
  match err with
  | some e => Go.pure (d, some e)
  | none => Go.pure (⟨d.Packages, t, d.Rules⟩, none)

/-- The loop of `getProjectRules` over the listed rules. -/
def getProjectRulesLoop (env : Env) (projectName : String) :
    List Rule → List (String × Rule) → Go (List (String × Rule) × Option GoError)
  | [], rules => Go.pure (rules, none)
  | rule :: rest, rules => do
    let m ← liftRes (isManagedEntity (GetValue rule.Annotations MANAGED) projectName)
    if m then do
      let r ← retry env.DEFAULT_ATTEMPTS
        (call (Event.RulesGet rule.Name) (fun t => env.Client.RulesGet t rule.Name))
      match r with
      | Except.error e =>
        Go.pure (rules, some (createWhiskClientError e EntityKind.rule))
      | Except.ok r' =>
        getProjectRulesLoop env projectName rest (mapSet rules rule.Name r')
    else getProjectRulesLoop env projectName rest rules

/-- Source `getProjectRules`: a failed listing returns the empty map and
nil. -/
def getProjectRules (env : Env) (projectName : String) :
    Go (List (String × Rule) × Option GoError) := do
  let r ← call Event.RulesList env.Client.RulesList
  match r with
  | Except.error _ => Go.pure ([], none)
  | Except.ok listOfRules => getProjectRulesLoop env projectName listOfRules []

/-- Source `SetProjectRules`. -/
def SetProjectRules (env : Env) (projectName : String) (d : DeploymentProject) :
    Go (DeploymentProject × Option GoError) := do
  let (r, err) ← getProjectRules env projectName
  match err with
  | some e => Go.pure (d, some e)
  | none => Go.pure (⟨d.Packages, d.Triggers, r⟩, none)

/-- Source `SetProjectApis`: a stub. -/
def SetProjectApis (_projectName : String) (d : DeploymentProject) :
    Go (DeploymentProject × Option GoError) :=
  Go.pure (d, none)

/-- Source `SetProjectAssets`: packages, actions and sequences, triggers,
rules, apis; the first error is returned. -/
def SetProjectAssets (env : Env) (projectName : String) (d : DeploymentProject) :
    Go (DeploymentProject × Option GoError) := do
  let (d1, err1) ← SetProjectPackages env projectName d
  match err1 with
  | some e => Go.pure (d1, some e)
  | none => do
    let (d2, err2) ← SetPackageActionsAndSequences env projectName d1
    match err2 with
    | some e => Go.pure (d2, some e)
    | none => do
      let (d3, err3) ← SetProjectTriggers env projectName d2
      match err3 with
      | some e => Go.pure (d3, some e)
      | none => do
        let (d4, err4) ← SetProjectRules env projectName d3
        match err4 with
        | some e => Go.pure (d4, some e)
        | none => SetProjectApis projectName d4

/-! ## Dependency resolver -/

/-- The reference string of one dependency entry:
`dep.(map[string]interface{})[wski18n.KEY_KEY].(string)`. -/
def depKey (dep : JVal) : Res String :=
  match assertMap dep with
  | Res.panic => Res.panic
  | Res.val m => assertString (mapIndex m KEY_KEY)

/-- The inner loop of `isPackageUsedByOtherPackages`: whether an entry of the
dependency list resolves to the given package name. -/
def depsNamePackage (depPackageName : String) : List JVal → Res Bool
  | [] => Res.val false
  | dep :: rest =>
    match depKey dep with
    | Res.panic => Res.panic
    | Res.val key =>
      if filterPackageName key = depPackageName then Res.val true
      else depsNamePackage depPackageName rest

/-- The outer loop of `isPackageUsedByOtherPackages` over the listed
packages. -/
def usedByOtherLoop (projectName depPackageName : String) : List Package → Res Bool
  | [] => Res.val false
  | pkg :: rest =>
    match GetValue pkg.Annotations MANAGED with
    | JVal.null => usedByOtherLoop projectName depPackageName rest
    | a =>
      match assertMap a with
      | Res.panic => Res.panic
      | Res.val ta =>
        if ifaceEqString (mapIndex ta OW_PROJECT_NAME) projectName then
          usedByOtherLoop projectName depPackageName rest
        else
          match assertSlice (mapIndex ta OW_PROJECT_DEPS) with
          | Res.panic => Res.panic
          | Res.val listOfDeps =>
            match depsNamePackage depPackageName listOfDeps with
            | Res.panic => Res.panic
            | Res.val true => Res.val true
            | Res.val false => usedByOtherLoop projectName depPackageName rest

/-- Source `isPackageUsedByOtherPackages`: a failed listing answers false. -/
def isPackageUsedByOtherPackages (env : Env) (projectName depPackageName : String) :
    Go Bool := do
  let r ← call Event.PackagesList env.Client.PackagesList
  match r with
  | Except.error _ => Go.pure false
  | Except.ok listOfPackages =>
    liftRes (usedByOtherLoop projectName depPackageName listOfPackages)

/-- The project name of a fetched dependency package:
`(pa.(map[string]interface{})[utils.OW_PROJECT_NAME]).(string)`. -/
def ownProjectName (pa : JVal) : Res String :=
  match assertMap pa with
  | Res.panic => Res.panic
  | Res.val m => assertString (mapIndex m OW_PROJECT_NAME)

/-- The inner loop of `SetProjectDependencies` over the dependency list of one
package of the project. -/
def setProjectDependenciesInner (env : Env) (projectName : String) :
    List JVal → List DeploymentProject → Go (List DeploymentProject × Option GoError)
  | [], projectDependencies => Go.pure (projectDependencies, none)
  | dep :: rest, projectDependencies => do
    let key ← liftRes (depKey dep)
    let name := filterPackageName key
    let used ← isPackageUsedByOtherPackages env projectName name
    if used then setProjectDependenciesInner env projectName rest projectDependencies
    else do
      let r ← getPackage env name
      match r with
      | Except.error e => Go.pure (projectDependencies, some e)
      | Except.ok p => do
        let packages0 := mapSet NewDeploymentProject.Packages p.Package.Name p
        let depProjectName ← liftRes (ownProjectName (GetValue p.Package.Annotations MANAGED))
        let (as, err) ← getPackageActionsAndSequences env p.Package.Name depProjectName
        match err with
        | some e => Go.pure (projectDependencies, some e)
        | none => do
          let packages1 ← liftRes (setActionsAndSequences packages0 p.Package.Name as.1 as.2)
          let (t, err) ← getProjectTriggers env depProjectName
          match err with
          | some e => Go.pure (projectDependencies, some e)
          | none => do
            let (rl, err) ← getProjectRules env depProjectName
            match err with
            | some e => Go.pure (projectDependencies, some e)
            | none =>
              setProjectDependenciesInner env projectName rest
                (projectDependencies ++ [⟨packages1, t, rl⟩])

/-- The outer loop of `SetProjectDependencies` over the packages of the
project. -/
def setProjectDependenciesOuter (env : Env) (projectName : String) :
    List (String × DeploymentPackage) → List DeploymentProject →
      Go (List DeploymentProject × Option GoError)
  | [], projectDependencies => Go.pure (projectDependencies, none)
  | (_, pkg) :: rest, projectDependencies =>
    match GetValue pkg.Package.Annotations MANAGED with
    | JVal.null => setProjectDependenciesOuter env projectName rest projectDependencies
    | a => do
      let ta ← liftRes (assertMap a)
      let listOfDeps ← liftRes (assertSlice (mapIndex ta OW_PROJECT_DEPS))
      let (deps, err) ← setProjectDependenciesInner env projectName listOfDeps
        projectDependencies
      match err with
      | some e => Go.pure (deps, some e)
      | none => setProjectDependenciesOuter env projectName rest deps

/-- Source `SetProjectDependencies`: one asset set for every dependency entry
of a package of the project that no package of another project refers to. -/
def SetProjectDependencies (env : Env) (projectName : String) (d : DeploymentProject) :
    Go (List DeploymentProject × Option GoError) :=
  setProjectDependenciesOuter env projectName (env.rangePackages d.Packages) []

/-! ## Undeploy -/

/-- The deployer's `unDeployAssets`, taken from the environment and recorded
in the history. -/
def unDeployAssets (env : Env) (p : DeploymentProject) : Go (Option GoError) :=
  call (Event.unDeployAssets p) (fun t => env.unDeployAssets t p)

/-- The deployer's `printDeploymentAssets`: output only. -/
def printDeploymentAssets (p : DeploymentProject) : Go Unit :=
  call (Event.printDeploymentAssets p) (fun _ => ())

/-- The preview loop of `UnDeployProjectAssets`. -/
def printDependencies : List DeploymentProject → Go Unit
  | [] => Go.pure ()
  | deps :: rest => do
    printDeploymentAssets deps
    printDependencies rest

/-- The deletion loop of `UnDeployProjectAssets` over the dependency sets. -/
def unDeployDependencies (env : Env) : List DeploymentProject → Go (Option GoError)
  | [] => Go.pure none
  | deps :: rest => do
    let err ← unDeployAssets env deps
    match err with
    | some e => Go.pure (some e)
    | none => unDeployDependencies env rest

/-- Source `UnDeployProjectAssets`. The value of `SetProjectAssets` is
dropped, as in the source. The result is the deployer's asset set after the
call and the returned error. -/
def UnDeployProjectAssets (env : Env) (flags : Flags) (d : DeploymentProject) :
    Go (DeploymentProject × Option GoError) := do
  let (d1, _) ← SetProjectAssets env flags.ProjectName d
  let (projectDeps, err) ← SetProjectDependencies env flags.ProjectName d1
  match err with
  | some e => Go.pure (d1, some e)
  | none =>
    if flags.Preview then do
      printDeploymentAssets d1
      printDependencies projectDeps
      Go.pure (d1, none)
    else do
      let err ← unDeployDependencies env projectDeps
      match err with
      | some e => Go.pure (d1, some e)
      | none => do
        let r ← unDeployAssets env d1
        Go.pure (d1, r)

/-! ## Ownership tags, as the specification describes them -/

/-- The reference string of a well-formed dependency entry: a mapping whose
`key` field is a string. -/
def depRef : JVal → Option String
  | JVal.obj dm =>
    match mapIndex dm KEY_KEY with
    | JVal.str s => some s
    | _ => none
  | _ => none

/-- The reference strings of a dependency list all of whose entries are
well-formed. -/
def depRefs : List JVal → Option (List String)
  | [] => some []
  | d :: rest =>
    match depRef d, depRefs rest with
    | some r, some rs => some (r :: rs)
    | _, _ => none

/-- The ownership tag of a well-formed ownership annotation: the project name
and the dependency references, in order. -/
def ownershipTag : JVal → Option (String × List String)
  | JVal.obj m =>
    match mapIndex m OW_PROJECT_NAME, mapIndex m OW_PROJECT_DEPS with
    | JVal.str n, JVal.arr ds =>
      match depRefs ds with
      | some refs => some (n, refs)
      | none => none
    | _, _ => none
  | _ => none

/-- An ownership annotation is well-formed when it is absent (nil) or carries
an ownership tag. -/
def WellFormedAnnotation (a : JVal) : Prop :=
  a = JVal.null ∨ ∃ tag, ownershipTag a = some tag

/-- Some listed package is tagged with a project other than `A` and has a
dependency reference that `filterPackageName` resolves to `D`. -/
def ReferencedByOtherProject (A D : String) (pkgs : List Package) : Prop :=
  ∃ pkg ∈ pkgs, ∃ (name : String) (refs : List String),
    ownershipTag (GetValue pkg.Annotations MANAGED) = some (name, refs) ∧
    name ≠ A ∧ ∃ ref ∈ refs, filterPackageName ref = D

/-- An asset set none of whose packages is referenced by a package of another
project. -/
def NotShared (A : String) (pkgs : List Package) (dp : DeploymentProject) : Prop :=
  ∀ kv ∈ dp.Packages, kv.1 = kv.2.Package.Name ∧
    ¬ ReferencedByOtherProject A kv.2.Package.Name pkgs

/-! ## Properties of the calls of a run -/

/-- Whether an event is a Get of a single resource, the calls that go through
`retry`. -/
def Event.isGet : Event → Bool
  | Event.PackagesGet _ => true
  | Event.ActionsGet _ => true
  | Event.TriggersGet _ => true
  | Event.RulesGet _ => true
  | _ => false

/-- Whether the remote answers a call with an error at a given history, for
the calls whose failure is not discarded by the caller: the Gets and the
action listing. -/
def Event.failsAt (env : Env) (h : List Event) : Event → Bool
  | Event.PackagesGet n =>
    match env.Client.PackagesGet h n with
    | Except.ok _ => false
    | Except.error _ => true
  | Event.ActionsGet n =>
    match env.Client.ActionsGet h n with
    | Except.ok _ => false
    | Except.error _ => true
  | Event.TriggersGet n =>
    match env.Client.TriggersGet h n with
    | Except.ok _ => false
    | Except.error _ => true
  | Event.RulesGet n =>
    match env.Client.RulesGet h n with
    | Except.ok _ => false
    | Except.error _ => true
  | Event.ActionsList n =>
    match env.Client.ActionsList h n with
    | Except.ok _ => false
    | Except.error _ => true
  | _ => false

/-- A call made at history `h` is settled in the run ending with history `t'`:
an action listing succeeded, and a Get succeeded at that attempt or at one of
the repetitions that follow it, fewer than `k` attempts later. -/
def Settled (env : Env) (k : Nat) (t' h : List Event) (ev : Event) : Prop :=
  if ev.isGet = true then
    ∃ j, j < k ∧ (h ++ List.replicate (j + 1) ev) <+: t' ∧
      ev.failsAt env (h ++ List.replicate j ev) = false
  else ev.failsAt env h = false

/-- Every call made by a run of `x` satisfies `Q` (given the final history,
the history at the call, and the call); in strict mode only for the runs whose
result is accepted by `good`. The history only grows. -/
def Obeys (Q : List Event → List Event → Event → Prop) (strict : Prop) {α : Type}
    (x : Go α) (good : α → Prop) : Prop :=
  ∀ t a t', x t = Res.val (a, t') →
    t <+: t' ∧ ((strict → good a) → ∀ h ev, t <+: h → (h ++ [ev]) <+: t' → Q t' h ev)

/-- What a property of calls must satisfy to hold for every call of the
collectors and of the dependency resolver. -/
structure Policy (env : Env) (Q : List Event → List Event → Event → Prop)
    (strict : Prop) : Prop where
  mono : ∀ t1 t2 h ev, t1 <+: t2 → Q t1 h ev → Q t2 h ev
  packagesList : ∀ t, Q (t ++ [Event.PackagesList]) t Event.PackagesList
  triggersList : ∀ t, Q (t ++ [Event.TriggersList]) t Event.TriggersList
  rulesList : ∀ t, Q (t ++ [Event.RulesList]) t Event.RulesList
  actionsList : ∀ t n, (strict → ∃ a, env.Client.ActionsList t n = Except.ok a) →
    Q (t ++ [Event.ActionsList n]) t (Event.ActionsList n)
  packagesGet : ∀ n, Obeys Q strict
    (retry env.DEFAULT_ATTEMPTS
      (call (Event.PackagesGet n) (fun t => env.Client.PackagesGet t n)))
    (fun r => ∃ a, r = Except.ok a)
  actionsGet : ∀ n, Obeys Q strict
    (retry env.DEFAULT_ATTEMPTS
      (call (Event.ActionsGet n) (fun t => env.Client.ActionsGet t n)))
    (fun r => ∃ a, r = Except.ok a)
  triggersGet : ∀ n, Obeys Q strict
    (retry env.DEFAULT_ATTEMPTS
      (call (Event.TriggersGet n) (fun t => env.Client.TriggersGet t n)))
    (fun r => ∃ a, r = Except.ok a)
  rulesGet : ∀ n, Obeys Q strict
    (retry env.DEFAULT_ATTEMPTS
      (call (Event.RulesGet n) (fun t => env.Client.RulesGet t n)))
    (fun r => ∃ a, r = Except.ok a)

/-! ## Sample remote states -/

/-- An ownership annotation bag for a project and its dependency references. -/
def managedBy (project : String) (refs : List String) : KeyValueArr :=
  [(MANAGED, JVal.obj [(OW_PROJECT_NAME, JVal.str project),
    (OW_PROJECT_DEPS, JVal.arr (refs.map (fun r => JVal.obj [(KEY_KEY, JVal.str r)])))])]

/-- The first package with the given name. -/
def findPackage : List Package → String → Except WskError Package
  | [], _ => Except.error ⟨"not found"⟩
  | p :: rest, n => if p.Name = n then Except.ok p else findPackage rest n

/-- A remote holding the given packages and no actions, triggers or rules,
answering every call the same way whatever the history. -/
def packagesOnly (pkgs : List Package) : Client where
  PackagesList := fun _ => Except.ok pkgs
  PackagesGet := fun _ n => findPackage pkgs n
  ActionsList := fun _ _ => Except.ok []
  ActionsGet := fun _ _ => Except.error ⟨"not found"⟩
  TriggersList := fun _ => Except.ok []
  TriggersGet := fun _ _ => Except.error ⟨"not found"⟩
  RulesList := fun _ => Except.ok []
  RulesGet := fun _ _ => Except.error ⟨"not found"⟩

/-- An environment over a client: three attempts, the package map visited in
stored order, every `unDeployAssets` succeeding. -/
def envOf (c : Client) : Env where
  Client := c
  DEFAULT_ATTEMPTS := 3
  rangePackages := fun m => m
  unDeployAssets := fun _ _ => none

/-- Package `ext-pkg` of project `EXT`, depending on `lib-pkg`. -/
def extPkg : Package := ⟨"ext-pkg", managedBy "EXT" ["/ns/lib-pkg"]⟩

/-- Package `lib-pkg` of project `LIB`, without dependencies. -/
def libPkg : Package := ⟨"lib-pkg", managedBy "LIB" []⟩

/-- Package `third-pkg` of project `THIRD`, depending on `lib-pkg` too. -/
def thirdPkg : Package := ⟨"third-pkg", managedBy "THIRD" ["/ns/lib-pkg"]⟩

/-- A package without ownership annotation. -/
def plainPkg : Package := ⟨"plain-pkg", []⟩

/-- The deployer's asset set once `ext-pkg` has been collected. -/
def extDeployment : DeploymentProject :=
  ⟨[("ext-pkg", NewDeploymentPackage extPkg)], [], []⟩

/-- The asset set of the dependency `lib-pkg`. -/
def libAssets : DeploymentProject :=
  ⟨[("lib-pkg", ⟨libPkg, [], []⟩)], [], []⟩

/-- Package `bad-pkg` of project `EXT` whose only dependency reference,
`lib-pkg` without namespace, does not parse. -/
def badRefPkg : Package := ⟨"bad-pkg", managedBy "EXT" ["lib-pkg"]⟩

/-- Package `bad-pkg` of project `EXT` with the unparsable entry removed. -/
def noRefPkg : Package := ⟨"bad-pkg", managedBy "EXT" []⟩

/-- A remote on which every package, trigger and rule listing fails while
`lib-pkg` can be fetched and has no actions. -/
def listingsDown : Client where
  PackagesList := fun _ => Except.error ⟨"unavailable"⟩
  PackagesGet := fun _ n => findPackage [libPkg] n
  ActionsList := fun _ _ => Except.ok []
  ActionsGet := fun _ _ => Except.error ⟨"not found"⟩
  TriggersList := fun _ => Except.error ⟨"unavailable"⟩
  TriggersGet := fun _ _ => Except.error ⟨"not found"⟩
  RulesList := fun _ => Except.error ⟨"unavailable"⟩
  RulesGet := fun _ _ => Except.error ⟨"not found"⟩

/-- Package `gone-pkg` of project `EXT`, listed but no longer fetchable. -/
def gonePkg : Package := ⟨"gone-pkg", managedBy "EXT" []⟩

/-- A remote that lists `ext-pkg` and `gone-pkg` of project `EXT` and
`lib-pkg`, on which every Get of `gone-pkg` fails. -/
def goneListing : Client where
  PackagesList := fun _ => Except.ok [extPkg, gonePkg, libPkg]
  PackagesGet := fun _ n => findPackage [extPkg, libPkg] n
  ActionsList := fun _ _ => Except.ok []
  ActionsGet := fun _ _ => Except.error ⟨"not found"⟩
  TriggersList := fun _ => Except.ok []
  TriggersGet := fun _ _ => Except.error ⟨"not found"⟩
  RulesList := fun _ => Except.ok []
  RulesGet := fun _ _ => Except.error ⟨"not found"⟩

/-- An environment in which every `unDeployAssets` fails. -/
def envFailingUnDeploy (c : Client) : Env where
  Client := c
  DEFAULT_ATTEMPTS := 3
  rangePackages := fun m => m
  unDeployAssets := fun _ _ => some (GoError.other "delete failed")

/-- The history of the discovery of project `EXT` on the remote holding
`ext-pkg`, `lib-pkg` and an untagged package. -/
def extDiscovery : List Event :=
  [Event.PackagesList, Event.PackagesGet "ext-pkg", Event.ActionsList "ext-pkg",
    Event.TriggersList, Event.RulesList, Event.PackagesList, Event.PackagesGet "lib-pkg",
    Event.ActionsList "lib-pkg", Event.TriggersList, Event.RulesList]

/-- The history of collecting the own assets of project `EXT` on that
remote. -/
def extOwnDiscovery : List Event :=
  [Event.PackagesList, Event.PackagesGet "ext-pkg", Event.ActionsList "ext-pkg",
    Event.TriggersList, Event.RulesList]

/-- A remote that lists and serves `ext-pkg` and on which every action listing
fails. -/
def actionsDown : Client where
  PackagesList := fun _ => Except.ok [extPkg]
  PackagesGet := fun _ n => findPackage [extPkg] n
  ActionsList := fun _ _ => Except.error ⟨"unavailable"⟩
  ActionsGet := fun _ _ => Except.error ⟨"not found"⟩
  TriggersList := fun _ => Except.ok []
  TriggersGet := fun _ _ => Except.error ⟨"not found"⟩
  RulesList := fun _ => Except.ok []
  RulesGet := fun _ _ => Except.error ⟨"not found"⟩

/-- A remote that lists an action, a trigger and a rule of project `EXT`, none
of which can be fetched. -/
def assetsGone : Client where
  PackagesList := fun _ => Except.ok [extPkg]
  PackagesGet := fun _ n => findPackage [extPkg] n
  ActionsList := fun _ _ => Except.ok [⟨"act", managedBy "EXT" [], none⟩]
  ActionsGet := fun _ _ => Except.error ⟨"not found"⟩
  TriggersList := fun _ => Except.ok [⟨"trig", managedBy "EXT" []⟩]
  TriggersGet := fun _ _ => Except.error ⟨"not found"⟩
  RulesList := fun _ => Except.ok [⟨"rule", managedBy "EXT" []⟩]
  RulesGet := fun _ _ => Except.error ⟨"not found"⟩

/-! ## Classification of actions and sequences -/

/-- A record of the action map: a fetched action whose execution kind is not
the sequence marker, filed under package `pn`. -/
def IsActionRecord (pn : String) (r : ActionRecord) : Prop :=
  (∃ ex, r.Action.Exec = some ex ∧ ex.Kind ≠ YAML_KEY_SEQUENCE) ∧ r.Packagename = pn

/-- A record of the sequence map: a fetched action whose execution kind is the
sequence marker, filed under package `pn`. -/
def IsSequenceRecord (pn : String) (r : ActionRecord) : Prop :=
  (∃ ex, r.Action.Exec = some ex ∧ ex.Kind = YAML_KEY_SEQUENCE) ∧ r.Packagename = pn

/-- The name `k` is the name of a listed action that passes `isManagedEntity`
for project `A`. -/
def ManagedActionName (A : String) (l : List Action) (k : String) : Prop :=
  ∃ a ∈ l, a.Name = k ∧ isManagedEntity (GetValue a.Annotations MANAGED) A = Res.val true

/-- The action `hello` of project `LIB`, as fetched. -/
def helloAction : Action := ⟨"hello", managedBy "LIB" [], some ⟨"nodejs:10"⟩⟩

/-- The sequence `chain` of project `LIB`, as fetched. -/
def chainAction : Action := ⟨"chain", managedBy "LIB" [], some ⟨"sequence"⟩⟩

/-- The actions listed under `lib-pkg`: `hello` and `chain` of project `LIB`
and an untagged action; the listing carries no execution descriptor. -/
def libActionListing : List Action :=
  [⟨"hello", managedBy "LIB" [], none⟩, ⟨"chain", managedBy "LIB" [], none⟩,
    ⟨"stray", [], none⟩]

/-- Trigger `lib-trigger` of project `LIB`. -/
def libTrigger : Trigger := ⟨"lib-trigger", managedBy "LIB" []⟩

/-- Trigger `ext-trigger` of project `EXT`. -/
def extTrigger : Trigger := ⟨"ext-trigger", managedBy "EXT" []⟩

/-- Rule `lib-rule` of project `LIB`. -/
def libRule : Rule := ⟨"lib-rule", managedBy "LIB" []⟩

/-- A remote holding `ext-pkg` and `lib-pkg`, the actions of `lib-pkg`, two
triggers and a rule. -/
def libRemote : Client where
  PackagesList := fun _ => Except.ok [extPkg, libPkg]
  PackagesGet := fun _ n => findPackage [extPkg, libPkg] n
  ActionsList := fun _ pn =>
    if pn = "lib-pkg" then Except.ok libActionListing else Except.ok []
  ActionsGet := fun _ n =>
    if n = "lib-pkg/hello" then Except.ok helloAction
    else if n = "lib-pkg/chain" then Except.ok chainAction
    else Except.error ⟨"not found"⟩
  TriggersList := fun _ => Except.ok [libTrigger, extTrigger]
  TriggersGet := fun _ n =>
    if n = "lib-trigger" then Except.ok libTrigger
    else if n = "ext-trigger" then Except.ok extTrigger
    else Except.error ⟨"not found"⟩
  RulesList := fun _ => Except.ok [libRule]
  RulesGet := fun _ n =>
    if n = "lib-rule" then Except.ok libRule else Except.error ⟨"not found"⟩

/-! ## `UpdatePackageInputs` -/

/-- An input parameter of a package (`parsers.Parameter`). -/
structure Parameter where
  Type_ : String
  Description : String
  Value : JVal
  Required : Bool
  Default : JVal

/-- The part of a deployment package that `UpdatePackageInputs` touches: the
map `Inputs.Inputs`, which may be nil, and `Package.Parameters`. -/
structure InputsPackage where
  Inputs : Option (List (String × Parameter))
  Parameters : KeyValueArr

/-- What `UpdatePackageInputs` reads besides the packages: the flags
`utils.Flags.Param` and `utils.Flags.Report`, the deployer's `ProjectInputs`,
and three helpers that are not part of `projectreader.go` and are taken as
given: `utils.GetJSONFromStrings(·, false)`,
`wskenv.InterpolateStringWithEnvVar` and `parsers.IsTypeDefaultValue`. -/
structure InputsEnv where
  Param : List String
  Report : Bool
  ProjectInputs : List (String × Parameter)
  GetJSONFromStrings : List String → Except GoError JVal
  InterpolateStringWithEnvVar : JVal → JVal
  IsTypeDefaultValue : String → JVal → Bool

/-- The outcome of `UpdatePackageInputs`: the packages after the call, the
messages printed, and the returned error. -/
structure InputsResult where
  Packages : List (String × InputsPackage)
  Printed : List String
  Err : Option GoError

/-- The comma-ok lookup `v, ok := m[k]` of a Go map. -/
def mapLookup {α : Type} : List (String × α) → String → Option α
  | [], _ => none
  | (k', v) :: rest, k => if k' = k then some v else mapLookup rest k

/-- The entries a `range` over a map that may be nil visits, in stored order
(Go leaves the order unspecified; it only shows in the order of the collected
names and parameters). -/
def rangeMap {α : Type} : Option (List (String × α)) → List (String × α)
  | none => []
  | some m => m

/-- The inner loop of the merge: every visited input takes the interpolated
CLI value when its name is a key of the CLI parameters and keeps its value
otherwise, and is stored back under its name. -/
def mergeInputsLoop (env : InputsEnv) (paramsCLI : JVal) :
    List (String × Parameter) → List (String × Parameter) →
      Res (List (String × Parameter))
  | [], m => Res.val m
  | (name, param) :: rest, m =>
    match assertMap paramsCLI with
    | Res.panic => Res.panic
    | Res.val cli =>
      match mapLookup cli name with
      | some v =>
        mergeInputsLoop env paramsCLI rest
          (mapSet m name ⟨param.Type_, param.Description,
            env.InterpolateStringWithEnvVar v, param.Required, param.Default⟩)
      | none =>
        mergeInputsLoop env paramsCLI rest
          (mapSet m name ⟨param.Type_, param.Description, param.Value, param.Required,
            param.Default⟩)

/-- The outer loop of the merge over the packages. -/
def mergePackagesLoop (env : InputsEnv) (paramsCLI : JVal) :
    List (String × InputsPackage) → Res (List (String × InputsPackage))
  | [] => Res.val []
  | (k, pkg) :: rest =>
    match pkg.Inputs with
    | none =>
      match mergePackagesLoop env paramsCLI rest with
      | Res.panic => Res.panic
      | Res.val r => Res.val ((k, pkg) :: r)
    | some m =>
      match mergeInputsLoop env paramsCLI m m with
      | Res.panic => Res.panic
      | Res.val m' =>
        match mergePackagesLoop env paramsCLI rest with
        | Res.panic => Res.panic
        | Res.val r => Res.val ((k, ⟨some m', pkg.Parameters⟩) :: r)

/-- The inner loop of the second pass: the names of the required inputs whose
value is the default of their type, and the parameters of the package (the
inputs that are not project inputs). -/
def collectInputsLoop (env : InputsEnv) :
    List (String × Parameter) → List String → KeyValueArr → List String × KeyValueArr
  | [], inputsWithoutValue, keyValArr => (inputsWithoutValue, keyValArr)
  | (k, v) :: rest, inputsWithoutValue, keyValArr =>
    collectInputsLoop env rest
      (if v.Required = true then
        (if env.IsTypeDefaultValue v.Type_ v.Value = true then inputsWithoutValue ++ [k]
          else inputsWithoutValue)
        else inputsWithoutValue)
      (match mapLookup env.ProjectInputs k with
        | some _ => keyValArr
        | none => keyValArr ++ [(k, v.Value)])

/-- The outer loop of the second pass over the packages. -/
def collectPackagesLoop (env : InputsEnv) :
    List (String × InputsPackage) → List String →
      List (String × InputsPackage) × List String
  | [], inputsWithoutValue => ([], inputsWithoutValue)
  | (k, pkg) :: rest, inputsWithoutValue =>
    if pkg.Inputs.isSome = true ∨ (rangeMap pkg.Inputs).length ≠ 0 then
      ((k, ⟨pkg.Inputs,
          (collectInputsLoop env (rangeMap pkg.Inputs) inputsWithoutValue []).2⟩) ::
        (collectPackagesLoop env rest
          (collectInputsLoop env (rangeMap pkg.Inputs) inputsWithoutValue []).1).1,
       (collectPackagesLoop env rest
          (collectInputsLoop env (rangeMap pkg.Inputs) inputsWithoutValue []).1).2)
    else
      ((k, ⟨pkg.Inputs, []⟩) :: (collectPackagesLoop env rest inputsWithoutValue).1,
       (collectPackagesLoop env rest inputsWithoutValue).2)

/-- The message naming the inputs without value: the names joined by a comma
(the surrounding text of the translated message is left out). -/
def missingInputsMessage (inputsWithoutValue : List String) : String :=
  String.intercalate ", " inputsWithoutValue

/-- The end of `UpdatePackageInputs`: the second pass, then the report or the
manifest-format error when required inputs have no value. -/
def checkRequiredInputs (env : InputsEnv) (pkgs : List (String × InputsPackage)) :
    InputsResult :=
  if (collectPackagesLoop env pkgs []).2.length > 0 then
    if env.Report = true then
      ⟨(collectPackagesLoop env pkgs []).1,
        [missingInputsMessage (collectPackagesLoop env pkgs []).2], none⟩
    else
      ⟨(collectPackagesLoop env pkgs []).1, [],
        some (GoError.other (missingInputsMessage (collectPackagesLoop env pkgs []).2))⟩
  else ⟨(collectPackagesLoop env pkgs []).1, [], none⟩

/-- Source `UpdatePackageInputs` on the packages of the deployment. -/
def UpdatePackageInputs (env : InputsEnv) (pkgs : List (String × InputsPackage)) :
    Res InputsResult :=
  if env.Param.length > 0 then
    match env.GetJSONFromStrings env.Param with
    | Except.error e => Res.val ⟨pkgs, [], some e⟩
    | Except.ok paramsCLI =>
      match paramsCLI with
      | JVal.null => Res.val (checkRequiredInputs env pkgs)
      | _ =>
        match mergePackagesLoop env paramsCLI pkgs with
        | Res.panic => Res.panic
        | Res.val merged => Res.val (checkRequiredInputs env merged)
  else Res.val (checkRequiredInputs env pkgs)

/-- The merge as the specification words it: the value of an input is the
interpolated CLI value when the input's name is a key of the CLI parameters
and the manifest value otherwise; the name and the other fields stay. -/
def mergedInput (env : InputsEnv) (cli : List (String × JVal))
    (kv : String × Parameter) : String × Parameter :=
  (kv.1, ⟨kv.2.Type_, kv.2.Description,
    (match mapLookup cli kv.1 with
      | some v => env.InterpolateStringWithEnvVar v
      | none => kv.2.Value),
    kv.2.Required, kv.2.Default⟩)

/-- Some package has a required input whose value is the default value of its
type. -/
def HasRequiredInputWithoutValue (env : InputsEnv)
    (pkgs : List (String × InputsPackage)) : Prop :=
  ∃ kp ∈ pkgs, ∃ kv ∈ rangeMap kp.2.Inputs,
    kv.2.Required = true ∧ env.IsTypeDefaultValue kv.2.Type_ kv.2.Value = true

/-- The names of the required inputs of one input map whose value is the
default value of their type. -/
def missingNames (env : InputsEnv) : List (String × Parameter) → List String
  | [] => []
  | (k, v) :: rest =>
    if v.Required = true ∧ env.IsTypeDefaultValue v.Type_ v.Value = true then
      k :: missingNames env rest
    else missingNames env rest

/-- The names of the required inputs without value of all packages. -/
def missingInPackages (env : InputsEnv) : List (String × InputsPackage) → List String
  | [] => []
  | (_, pkg) :: rest => missingNames env (rangeMap pkg.Inputs) ++ missingInPackages env rest

/-- Two package lists with the same keys and the same inputs, position by
position. -/
def SameInputs (old new : List (String × InputsPackage)) : Prop :=
  List.Forall₂ (fun o n => n.1 = o.1 ∧ n.2.Inputs = o.2.Inputs) old new

/-- A sample environment: the CLI parameters parse to the map with the single
key `name`, interpolation leaves values as they are, and the default value of
every type is the empty string or nil. -/
def sampleInputsEnv (report : Bool) : InputsEnv where
  Param := ["name=world"]
  Report := report
  ProjectInputs := []
  GetJSONFromStrings := fun _ => Except.ok (JVal.obj [("name", JVal.str "world")])
  InterpolateStringWithEnvVar := fun v => v
  IsTypeDefaultValue := fun _ v =>
    match v with
    | JVal.null => true
    | JVal.str s => decide (s = "")
    | _ => false

/-- A sample environment without CLI parameters. -/
def plainInputsEnv (report : Bool) : InputsEnv where
  Param := []
  Report := report
  ProjectInputs := []
  GetJSONFromStrings := fun _ => Except.ok JVal.null
  InterpolateStringWithEnvVar := fun v => v
  IsTypeDefaultValue := fun _ v =>
    match v with
    | JVal.null => true
    | JVal.str s => decide (s = "")
    | _ => false

/-- A package with a required input `name` and an optional input `greeting`,
both without value in the manifest. -/
def helloInputs : List (String × InputsPackage) :=
  [("hello-pkg", ⟨some [("name", ⟨"string", "who to greet", JVal.str "", true, JVal.null⟩),
      ("greeting", ⟨"string", "", JVal.str "", false, JVal.null⟩)], []⟩)]

/-- The same package after the merge of the CLI parameter `name=world` and the
second pass. -/
def helloInputsMerged : List (String × InputsPackage) :=
  [("hello-pkg", ⟨some [("name", ⟨"string", "who to greet", JVal.str "world", true,
        JVal.null⟩),
      ("greeting", ⟨"string", "", JVal.str "", false, JVal.null⟩)],
    [("name", JVal.str "world"), ("greeting", JVal.str "")]⟩)]

/-- The same package after a call without CLI parameters. -/
def helloInputsUnmerged : List (String × InputsPackage) :=
  [("hello-pkg", ⟨some [("name", ⟨"string", "who to greet", JVal.str "", true, JVal.null⟩),
      ("greeting", ⟨"string", "", JVal.str "", false, JVal.null⟩)],
    [("name", JVal.str ""), ("greeting", JVal.str "")]⟩)]

/-- The packages `new` are the packages `old` with every input merged with the
CLI parameters `cli`: same keys, and every input map mapped by
`mergedInput`. -/
def MergedWith (env : InputsEnv) (cli : List (String × JVal))
    (old new : List (String × InputsPackage)) : Prop :=
  List.Forall₂
    (fun o n => n.1 = o.1 ∧
      n.2.Inputs = o.2.Inputs.map (fun m => m.map (mergedInput env cli)))
    old new

/-! ## Shape of the dependency sets -/

/-- Whether an event is a package Get. -/
def Event.isPackagesGet : Event → Bool
  | Event.PackagesGet _ => true
  | _ => false

/-- What a property of calls must satisfy to hold for every call of the
still-in-use check and of the collectors of actions, triggers and rules, none
of which fetches a package. -/
structure CollectorPolicy (env : Env) (Q : List Event → List Event → Event → Prop)
    (strict : Prop) : Prop where
  mono : ∀ t1 t2 h ev, t1 <+: t2 → Q t1 h ev → Q t2 h ev
  packagesList : ∀ t, Q (t ++ [Event.PackagesList]) t Event.PackagesList
  triggersList : ∀ t, Q (t ++ [Event.TriggersList]) t Event.TriggersList
  rulesList : ∀ t, Q (t ++ [Event.RulesList]) t Event.RulesList
  actionsList : ∀ t n, (strict → ∃ a, env.Client.ActionsList t n = Except.ok a) →
    Q (t ++ [Event.ActionsList n]) t (Event.ActionsList n)
  actionsGet : ∀ n, Obeys Q strict
    (retry env.DEFAULT_ATTEMPTS
      (call (Event.ActionsGet n) (fun t => env.Client.ActionsGet t n)))
    (fun r => ∃ a, r = Except.ok a)
  triggersGet : ∀ n, Obeys Q strict
    (retry env.DEFAULT_ATTEMPTS
      (call (Event.TriggersGet n) (fun t => env.Client.TriggersGet t n)))
    (fun r => ∃ a, r = Except.ok a)
  rulesGet : ∀ n, Obeys Q strict
    (retry env.DEFAULT_ATTEMPTS
      (call (Event.RulesGet n) (fun t => env.Client.RulesGet t n)))
    (fun r => ∃ a, r = Except.ok a)

/-- The names that the entries of a dependency list resolve to, in order;
entries without a string key are left out. -/
def entryNames : List JVal → List String
  | [] => []
  | dep :: rest =>
    match depKey dep with
    | Res.val key => filterPackageName key :: entryNames rest
    | Res.panic => entryNames rest

/-- The names that the dependency entries of one package resolve to. -/
def packageDepNames (pkg : DeploymentPackage) : List String :=
  match GetValue pkg.Package.Annotations MANAGED with
  | JVal.obj ta =>
    match mapIndex ta OW_PROJECT_DEPS with
    | JVal.arr l => entryNames l
    | _ => []
  | _ => []

/-- The names that the dependency entries of the packages of the project
resolve to, in visiting order. -/
def projectDepNames : List (String × DeploymentPackage) → List String
  | [] => []
  | (_, pkg) :: rest => packageDepNames pkg ++ projectDepNames rest

/-- The name `k` is the name of a listed trigger that passes `isManagedEntity`
for project `P`. -/
def ManagedTriggerName (P : String) (l : List Trigger) (k : String) : Prop :=
  ∃ x ∈ l, x.Name = k ∧ isManagedEntity (GetValue x.Annotations MANAGED) P = Res.val true

/-- The name `k` is the name of a listed rule that passes `isManagedEntity` for
project `P`. -/
def ManagedRuleName (P : String) (l : List Rule) (k : String) : Prop :=
  ∃ x ∈ l, x.Name = k ∧ isManagedEntity (GetValue x.Annotations MANAGED) P = Res.val true

/-- The asset set `dp` was built for the dependency name `n`: it holds the one
package fetched for `n`, and the actions and sequences, triggers and rules that
the collectors returned without error for that package and its own project
name. -/
def DependencyAssets (env : Env) (n : String) (dp : DeploymentProject) : Prop :=
  ∃ (h0 : List Event) (pk : Package) (P : String)
      (as ss : List (String × ActionRecord)),
    env.Client.PackagesGet h0 n = Except.ok pk ∧
    ownProjectName (GetValue pk.Annotations MANAGED) = Res.val P ∧
    dp.Packages = [(pk.Name, ⟨pk, as, ss⟩)] ∧
    (∃ h1 t1, getPackageActionsAndSequences env pk.Name P h1 =
      Res.val (((as, ss), none), t1)) ∧
    (∃ h2 t2, getProjectTriggers env P h2 = Res.val ((dp.Triggers, none), t2)) ∧
    (∃ h3 t3, getProjectRules env P h3 = Res.val ((dp.Rules, none), t3))

/-- Package `lib-pkg` of project `LIB` that itself depends on `base-pkg`. -/
def deepLibPkg : Package := ⟨"lib-pkg", managedBy "LIB" ["/ns/base-pkg"]⟩

/-- Package `base-pkg` of project `BASE`. -/
def basePkg : Package := ⟨"base-pkg", managedBy "BASE" []⟩

/-- The asset set of the dependency `lib-pkg` when it depends on `base-pkg`. -/
def deepLibAssets : DeploymentProject :=
  ⟨[("lib-pkg", ⟨deepLibPkg, [], []⟩)], [], []⟩

/-- The asset set of the dependency `lib-pkg` on the remote that holds its
actions, triggers and rules. -/
def libFullAssets : DeploymentProject :=
  ⟨[("lib-pkg", ⟨libPkg, [("hello", ⟨helloAction, "lib-pkg"⟩)],
      [("chain", ⟨chainAction, "lib-pkg"⟩)]⟩)],
    [("lib-trigger", libTrigger)], [("lib-rule", libRule)]⟩

/-- The history of resolving the dependencies of `ext-pkg` on that remote. -/
def libFullDiscovery : List Event :=
  [Event.PackagesList, Event.PackagesGet "lib-pkg", Event.ActionsList "lib-pkg",
    Event.ActionsGet "lib-pkg/hello", Event.ActionsGet "lib-pkg/chain",
    Event.TriggersList, Event.TriggersGet "lib-trigger", Event.RulesList,
    Event.RulesGet "lib-rule"]

/-- The asset set `dp` holds exactly one package, the one fetched for the
name `n`. -/
def HoldsFetched (env : Env) (n : String) (dp : DeploymentProject) : Prop :=
  ∃ (h0 : List Event) (pk : Package) (as ss : List (String × ActionRecord)),
    env.Client.PackagesGet h0 n = Except.ok pk ∧ dp.Packages = [(pk.Name, ⟨pk, as, ss⟩)]

/-- Package `ext-pkg` of project `EXT` whose dependency list names `lib-pkg`
twice. -/
def twicePkg : Package := ⟨"ext-pkg", managedBy "EXT" ["/ns/lib-pkg", "/ns/lib-pkg"]⟩

/-- A second package of project `EXT` that depends on `lib-pkg`. -/
def ext2Pkg : Package := ⟨"ext2-pkg", managedBy "EXT" ["/ns/lib-pkg"]⟩

/-- The history of resolving one dependency entry `lib-pkg` on a remote
without actions, triggers and rules. -/
def libResolution : List Event :=
  [Event.PackagesList, Event.PackagesGet "lib-pkg", Event.ActionsList "lib-pkg",
    Event.TriggersList, Event.RulesList]

/-- The names of the packages held by an asset set. -/
def heldNames (dp : DeploymentProject) : List String :=
  dp.Packages.map Prod.fst

/-- The still-in-use check on the listing `pkgs` answers false for `n`. -/
def notInUse (A : String) (pkgs : List Package) (n : String) : Bool :=
  decide (usedByOtherLoop A n pkgs = Res.val false)

/-! ## Facts about the split -/

theorem cutAfterSep_eq (s : List Char) :
    cutAfterSep s =
      if '/' ∈ s then
        some (s.takeWhile (fun c => c != '/') ++ ['/'],
          (s.dropWhile (fun c => c != '/')).tail)
      else none := by
  induction s with
  | nil => simp [cutAfterSep]
  | cons c cs ih =>
    by_cases hc : c = '/'
    · subst hc
      simp [cutAfterSep, List.takeWhile, List.dropWhile]
    · have hc2 : ¬ ('/' = c) := fun h => hc h.symm
      have hb : (c != '/') = true := by simp [hc]
      by_cases hm : '/' ∈ cs
      · simp [cutAfterSep, hc, hc2, ih, hm, List.takeWhile_cons, List.dropWhile_cons, hb]
      · simp [cutAfterSep, hc, hc2, ih, hm]

theorem count_sep_eq (s : List Char) :
    s.count '/' =
      if '/' ∈ s then 1 + ((s.dropWhile (fun c => c != '/')).tail).count '/' else 0 := by
  induction s with
  | nil => simp
  | cons c cs ih =>
    by_cases hc : c = '/'
    · subst hc
      simp [List.dropWhile, Nat.add_comm]
    · have hc2 : ¬ ('/' = c) := fun h => hc h.symm
      have hb : (c != '/') = true := by simp [hc]
      by_cases hm : '/' ∈ cs
      · rw [List.count_cons_of_ne hc2, ih]
        simp [hc2, hm, List.dropWhile_cons, hb]
      · rw [List.count_cons_of_ne hc2, ih]
        simp [hc2, hm]

theorem filterPackageName_data (ref : String) :
    filterPackageName ref = textAfterSecondSlash ref := by
  unfold filterPackageName textAfterSecondSlash SplitAfterN
  simp only [splitAfterLoop]
  rw [cutAfterSep_eq, count_sep_eq]
  by_cases h1 : '/' ∈ ref.data
  · simp only [h1, if_true]
    rw [cutAfterSep_eq, count_sep_eq]
    by_cases h2 : '/' ∈ (ref.data.dropWhile (fun c => c != '/')).tail
    · simp only [h2, if_true, List.map]
      have hle : 2 ≤ 1 + (1 + (((ref.data.dropWhile (fun c => c != '/')).tail.dropWhile
          (fun c => c != '/')).tail).count '/') := by omega
      rw [if_pos hle]
      generalize ((ref.data.dropWhile (fun c => c != '/')).tail.dropWhile
          (fun c => c != '/')).tail = r
      cases r with
      | nil => rfl
      | cons c cs => simp [String.length]
    · simp [h2]
  · simp [h1]

theorem cutAfterSep_append (a r : List Char) (ha : '/' ∉ a) :
    cutAfterSep (a ++ '/' :: r) = some (a ++ ['/'], r) := by
  induction a with
  | nil => simp [cutAfterSep]
  | cons c cs ih =>
    have hc : ¬ c = '/' := fun h => ha (by simp [h])
    have hcs : '/' ∉ cs := fun h => ha (List.mem_cons_of_mem _ h)
    simp [cutAfterSep, hc, ih hcs]

theorem cutAfterSep_some (s x r : List Char) (h : cutAfterSep s = some (x, r)) :
    ∃ a, '/' ∉ a ∧ x = a ++ ['/'] ∧ s = a ++ '/' :: r := by
  induction s generalizing x with
  | nil => simp [cutAfterSep] at h
  | cons c cs ih =>
    by_cases hc : c = '/'
    · subst hc
      simp [cutAfterSep] at h
      exact ⟨[], by simp, by simp [h.1], by simp [h.2]⟩
    · simp only [cutAfterSep, hc, if_false] at h
      cases hcut : cutAfterSep cs with
      | none => simp [hcut] at h
      | some ab =>
        obtain ⟨a', b'⟩ := ab
        simp [hcut] at h
        obtain ⟨hx', hr'⟩ := h
        subst hr'
        obtain ⟨a, ha, hx, hs⟩ := ih a' hcut
        refine ⟨c :: a, ?_, ?_, ?_⟩
        · intro hm
          rcases List.mem_cons.mp hm with h1 | h1
          · exact hc h1.symm
          · exact ha h1
        · simp [← hx', hx]
        · simp [hs]

theorem filterPackageName_ne_empty_iff (ref : String) :
    filterPackageName ref ≠ "" ↔ TwoSlashRef ref := by
  unfold filterPackageName SplitAfterN TwoSlashRef
  simp only [splitAfterLoop]
  constructor
  · intro h
    cases h1 : cutAfterSep ref.data with
    | none => simp [h1] at h
    | some ab =>
      obtain ⟨x, r⟩ := ab
      cases h2 : cutAfterSep r with
      | none => simp [h1, h2] at h
      | some cd =>
        obtain ⟨y, q⟩ := cd
        obtain ⟨a, ha, _, hs⟩ := cutAfterSep_some _ _ _ h1
        obtain ⟨b, hb, _, hr⟩ := cutAfterSep_some _ _ _ h2
        refine ⟨a, b, q, ha, hb, ?_, by rw [hs, hr]⟩
        intro hq
        subst hq
        simp [h1, h2, String.length] at h
  · rintro ⟨a, b, q, ha, hb, hq, hs⟩
    rw [hs, cutAfterSep_append a _ ha]
    simp only [cutAfterSep_append b _ hb, List.map]
    have hlen : (String.mk q).length ≠ 0 := by
      simp [String.length, hq]
    rw [if_pos hlen]
    intro hcontra
    apply hq
    have := congrArg String.data hcontra
    simpa using this

/-! ## Running Go computations -/

theorem Go.bind_def {α β : Type} (x : Go α) (f : α → Go β) : (x >>= f) = Go.bind x f := rfl

theorem Go.bind_eq_val {α β : Type} (x : Go α) (f : α → Go β) (t t' : List Event) (b : β) :
    Go.bind x f t = Res.val (b, t') ↔
      ∃ a t1, x t = Res.val (a, t1) ∧ f a t1 = Res.val (b, t') := by
  unfold Go.bind
  cases h : x t with
  | panic => simp
  | val p =>
    obtain ⟨a, t1⟩ := p
    constructor
    · intro hf
      exact ⟨a, t1, rfl, hf⟩
    · rintro ⟨a', t1', he, hf⟩
      simp only [Res.val.injEq, Prod.mk.injEq] at he
      rw [he.1, he.2]
      exact hf

theorem Go.bind_of_val {α β : Type} (x : Go α) (f : α → Go β) (t t1 : List Event) (a : α)
    (h : x t = Res.val (a, t1)) : Go.bind x f t = f a t1 := by
  unfold Go.bind
  rw [h]

theorem Go.pure_apply {α : Type} (a : α) (t : List Event) : Go.pure a t = Res.val (a, t) := rfl

theorem liftRes_val {α : Type} (a : α) (t : List Event) :
    liftRes (Res.val a) t = Res.val (a, t) := rfl

theorem liftRes_eq_val {α : Type} (r : Res α) (t t' : List Event) (a : α) :
    liftRes r t = Res.val (a, t') ↔ r = Res.val a ∧ t' = t := by
  cases r with
  | panic => simp [liftRes]
  | val x =>
    simp only [liftRes, Go.pure_apply, Res.val.injEq, Prod.mk.injEq]
    constructor
    · rintro ⟨h1, h2⟩; exact ⟨h1, h2.symm⟩
    · rintro ⟨h1, h2⟩; exact ⟨h1, h2.symm⟩

theorem call_apply {β : Type} (ev : Event) (answer : List Event → β) (t : List Event) :
    call ev answer t = Res.val (answer t, t ++ [ev]) := rfl

/-! ## The still-in-use check -/

theorem depKey_of_depRef (d : JVal) (r : String) (h : depRef d = some r) :
    depKey d = Res.val r := by
  cases d <;> simp [depRef] at h
  rename_i dm
  simp only [depKey, assertMap]
  cases hk : mapIndex dm KEY_KEY <;> simp [hk] at h
  simp [assertString, h]

theorem depsNamePackage_of_depRefs (D : String) (ds : List JVal) (refs : List String)
    (h : depRefs ds = some refs) :
    ∃ b, depsNamePackage D ds = Res.val b ∧
      (b = true ↔ ∃ ref ∈ refs, filterPackageName ref = D) := by
  induction ds generalizing refs with
  | nil =>
    simp [depRefs] at h
    subst h
    exact ⟨false, rfl, by simp⟩
  | cons d rest ih =>
    simp only [depRefs] at h
    cases hd : depRef d with
    | none => simp [hd] at h
    | some r =>
      cases hr : depRefs rest with
      | none => simp [hd, hr] at h
      | some rs =>
        simp [hd, hr] at h
        subst h
        obtain ⟨b, hb, hiff⟩ := ih rs hr
        simp only [depsNamePackage, depKey_of_depRef d r hd]
        by_cases hf : filterPackageName r = D
        · exact ⟨true, by simp [hf], by simp [hf]⟩
        · refine ⟨b, by simp [hf, hb], ?_⟩
          rw [hiff]
          simp [hf]

theorem usedByOtherLoop_spec (A D : String) (pkgs : List Package)
    (hwf : ∀ pkg ∈ pkgs, WellFormedAnnotation (GetValue pkg.Annotations MANAGED)) :
    ∃ b, usedByOtherLoop A D pkgs = Res.val b ∧
      (b = true ↔ ReferencedByOtherProject A D pkgs) := by
  induction pkgs with
  | nil => exact ⟨false, rfl, by simp [ReferencedByOtherProject]⟩
  | cons pkg rest ih =>
    obtain ⟨b, hb, hiff⟩ := ih (fun q hq => hwf q (List.mem_cons_of_mem _ hq))
    have hstep : ∀ P : Prop, (P ↔ ReferencedByOtherProject A D rest ∨
        ∃ (name : String) (refs : List String),
          ownershipTag (GetValue pkg.Annotations MANAGED) = some (name, refs) ∧
          name ≠ A ∧ ∃ ref ∈ refs, filterPackageName ref = D) →
        (P ↔ ReferencedByOtherProject A D (pkg :: rest)) := by
      intro P hP
      rw [hP]
      unfold ReferencedByOtherProject
      constructor
      · rintro (⟨q, hq, h⟩ | h)
        · exact ⟨q, List.mem_cons_of_mem _ hq, h⟩
        · exact ⟨pkg, List.mem_cons_self _ _, h⟩
      · rintro ⟨q, hq, h⟩
        rcases List.mem_cons.mp hq with rfl | hq
        · exact Or.inr h
        · exact Or.inl ⟨q, hq, h⟩
    rcases hwf pkg (List.mem_cons_self _ _) with hnull | ⟨⟨name, refs⟩, htag⟩
    · refine ⟨b, by simp [usedByOtherLoop, hnull, hb], hstep _ ?_⟩
      rw [hiff, hnull]
      simp [ownershipTag]
    · cases ha : GetValue pkg.Annotations MANAGED <;> rw [ha] at htag <;>
        simp [ownershipTag] at htag
      rename_i m
      cases hn : mapIndex m OW_PROJECT_NAME <;> simp [hn] at htag
      rename_i n
      cases hds : mapIndex m OW_PROJECT_DEPS <;> simp [hds] at htag
      rename_i ds
      cases hrefs : depRefs ds with
      | none => simp [hrefs] at htag
      | some refs' =>
        simp [hrefs] at htag
        obtain ⟨h1, h2⟩ := htag
        subst h1 h2
        obtain ⟨b', hb', hiff'⟩ := depsNamePackage_of_depRefs D ds refs' hrefs
        have htag' : ownershipTag (JVal.obj m) = some (n, refs') := by
          simp [ownershipTag, hn, hds, hrefs]
        by_cases hA : n = A
        · refine ⟨b, by simp [usedByOtherLoop, ha, assertMap, hn, ifaceEqString, hA, hb],
            hstep _ ?_⟩
          rw [hiff, ha, htag']
          simp [hA]
        · cases b' with
          | true =>
            refine ⟨true, by simp [usedByOtherLoop, ha, assertMap, hn, ifaceEqString, hA,
              hds, assertSlice, hb'], hstep _ ?_⟩
            rw [ha, htag']
            have := hiff'.mp rfl
            simp only [true_iff]
            exact Or.inr ⟨n, refs', rfl, hA, this⟩
          | false =>
            refine ⟨b, by simp [usedByOtherLoop, ha, assertMap, hn, ifaceEqString, hA,
              hds, assertSlice, hb', hb], hstep _ ?_⟩
            rw [hiff, ha, htag']
            have hno : ¬ ∃ ref ∈ refs', filterPackageName ref = D := by
              intro h
              have := hiff'.mpr h
              simp at this
            constructor
            · intro h
              exact Or.inl h
            · rintro (h | ⟨name, refs, he, _, h⟩)
              · exact h
              · simp only [Option.some.injEq, Prod.mk.injEq] at he
                rw [← he.2] at h
                exact absurd h hno

theorem isPackageUsedByOtherPackages_ok (env : Env) (A D : String) (t : List Event)
    (pkgs : List Package) (hlist : env.Client.PackagesList t = Except.ok pkgs) :
    isPackageUsedByOtherPackages env A D t =
      liftRes (usedByOtherLoop A D pkgs) (t ++ [Event.PackagesList]) := by
  unfold isPackageUsedByOtherPackages
  rw [Go.bind_def, Go.bind_of_val _ _ t _ _ (call_apply _ _ t), hlist]

/-- C2: when the package listing succeeds and every listed ownership
annotation is well-formed, `isPackageUsedByOtherPackages(A, D)` returns a
Boolean that is true exactly when some listed package is tagged with a project
other than `A` and has a dependency entry whose key `filterPackageName`
resolves to `D`; when every listed package is untagged or tagged with `A`
itself it returns false. -/
theorem C2_isPackageUsedByOtherPackages_iff (env : Env) (A D : String) (t : List Event)
    (pkgs : List Package) (hlist : env.Client.PackagesList t = Except.ok pkgs)
    (hwf : ∀ pkg ∈ pkgs, WellFormedAnnotation (GetValue pkg.Annotations MANAGED)) :
    ∃ b : Bool,
      isPackageUsedByOtherPackages env A D t = Res.val (b, t ++ [Event.PackagesList]) ∧
      (b = true ↔ ReferencedByOtherProject A D pkgs) ∧
      ((∀ pkg ∈ pkgs, GetValue pkg.Annotations MANAGED = JVal.null ∨
          ∃ refs, ownershipTag (GetValue pkg.Annotations MANAGED) = some (A, refs)) →
        b = false) := by
  obtain ⟨b, hb, hiff⟩ := usedByOtherLoop_spec A D pkgs hwf
  refine ⟨b, ?_, hiff, ?_⟩
  · rw [isPackageUsedByOtherPackages_ok env A D t pkgs hlist, hb]
    rfl
  · intro hown
    cases b with
    | false => rfl
    | true =>
      obtain ⟨pkg, hmem, name, refs, htag, hne, _⟩ := hiff.mp rfl
      rcases hown pkg hmem with hnull | ⟨refs', htag'⟩
      · rw [hnull] at htag
        simp [ownershipTag] at htag
      · rw [htag'] at htag
        simp only [Option.some.injEq, Prod.mk.injEq] at htag
        exact absurd htag.1.symm hne

theorem samplePackages_wellFormed :
    ∀ pkg ∈ [extPkg, libPkg, thirdPkg, plainPkg],
      WellFormedAnnotation (GetValue pkg.Annotations MANAGED) := by
  intro pkg h
  simp only [List.mem_cons, List.mem_singleton, List.not_mem_nil, or_false] at h
  rcases h with rfl | rfl | rfl | rfl
  · exact Or.inr ⟨_, rfl⟩
  · exact Or.inr ⟨_, rfl⟩
  · exact Or.inr ⟨_, rfl⟩
  · exact Or.inl rfl

/-- C2 at the remote holding `ext-pkg` (project `EXT`), `lib-pkg`, `third-pkg`
(project `THIRD`, depending on `lib-pkg`) and an untagged package, for project
`EXT` and dependency `lib-pkg`. -/
theorem C2_isPackageUsedByOtherPackages_iff_witness :
    ∃ b : Bool,
      isPackageUsedByOtherPackages
          (envOf (packagesOnly [extPkg, libPkg, thirdPkg, plainPkg])) "EXT" "lib-pkg" [] =
        Res.val (b, [] ++ [Event.PackagesList]) ∧
      (b = true ↔
        ReferencedByOtherProject "EXT" "lib-pkg" [extPkg, libPkg, thirdPkg, plainPkg]) ∧
      ((∀ pkg ∈ [extPkg, libPkg, thirdPkg, plainPkg],
          GetValue pkg.Annotations MANAGED = JVal.null ∨
          ∃ refs, ownershipTag (GetValue pkg.Annotations MANAGED) = some ("EXT", refs)) →
        b = false) :=
  C2_isPackageUsedByOtherPackages_iff
    (envOf (packagesOnly [extPkg, libPkg, thirdPkg, plainPkg])) "EXT" "lib-pkg" []
    [extPkg, libPkg, thirdPkg, plainPkg] rfl samplePackages_wellFormed

/-! ## The dependency resolver never schedules a shared dependency -/

theorem retryLoop_ok {α : Type} (n : Nat) (op : Go (Except WskError α)) (t t' : List Event)
    (a : α) (h : retryLoop n op t = Res.val (Except.ok a, t')) :
    ∃ h0 h1, op h0 = Res.val (Except.ok a, h1) := by
  induction n generalizing t with
  | zero => exact ⟨t, t', h⟩
  | succ n ih =>
    simp only [retryLoop, Go.bind_def] at h
    rw [Go.bind_eq_val] at h
    obtain ⟨r, t1, h1, h2⟩ := h
    cases r with
    | ok a' =>
      simp only [Go.pure_apply, Res.val.injEq, Prod.mk.injEq, Except.ok.injEq] at h2
      rw [h2.1] at h1
      exact ⟨t, t1, h1⟩
    | error e => exact ih t1 h2

theorem getPackage_ok (env : Env) (n : String) (t t' : List Event) (p : DeploymentPackage)
    (h : getPackage env n t = Res.val (Except.ok p, t')) :
    ∃ h0 pk, env.Client.PackagesGet h0 n = Except.ok pk ∧ p = NewDeploymentPackage pk := by
  simp only [getPackage, Go.bind_def] at h
  rw [Go.bind_eq_val] at h
  obtain ⟨r, t1, h1, h2⟩ := h
  cases r with
  | error e => simp [Go.pure_apply] at h2
  | ok pk =>
    simp only [Go.pure_apply, Res.val.injEq, Prod.mk.injEq, Except.ok.injEq] at h2
    obtain ⟨h0, h1', hop⟩ := retryLoop_ok _ _ _ _ _ h1
    simp only [call_apply, Res.val.injEq, Prod.mk.injEq] at hop
    exact ⟨h0, pk, hop.1, h2.1.symm⟩

theorem setActionsAndSequences_fresh (p : DeploymentPackage)
    (a sq : List (String × ActionRecord)) :
    setActionsAndSequences (mapSet NewDeploymentProject.Packages p.Package.Name p)
        p.Package.Name a sq =
      Res.val [(p.Package.Name, ⟨p.Package, a, sq⟩)] := by
  simp [setActionsAndSequences, NewDeploymentProject, mapSet, mapGet]

theorem setProjectDependenciesInner_notShared (env : Env) (A : String) (pkgs : List Package)
    (hlist : ∀ h, env.Client.PackagesList h = Except.ok pkgs)
    (hwf : ∀ pkg ∈ pkgs, WellFormedAnnotation (GetValue pkg.Annotations MANAGED))
    (hget : ∀ h n p, env.Client.PackagesGet h n = Except.ok p → p.Name = n)
    (ds : List JVal) (acc : List DeploymentProject) (t t' : List Event)
    (deps : List DeploymentProject) (err : Option GoError)
    (hacc : ∀ dp ∈ acc, NotShared A pkgs dp)
    (hrun : setProjectDependenciesInner env A ds acc t = Res.val ((deps, err), t')) :
    ∀ dp ∈ deps, NotShared A pkgs dp := by
  induction ds generalizing acc t with
  | nil =>
    simp only [setProjectDependenciesInner, Go.pure_apply, Res.val.injEq, Prod.mk.injEq] at hrun
    rw [← hrun.1.1]
    exact hacc
  | cons dep rest ih =>
    simp only [setProjectDependenciesInner, Go.bind_def] at hrun
    rw [Go.bind_eq_val] at hrun
    obtain ⟨key, t1, -, hrun⟩ := hrun
    rw [Go.bind_eq_val] at hrun
    obtain ⟨used, t2, hused, hrun⟩ := hrun
    rw [isPackageUsedByOtherPackages_ok env A _ t1 pkgs (hlist t1)] at hused
    obtain ⟨b, hb, hiff⟩ := usedByOtherLoop_spec A (filterPackageName key) pkgs hwf
    rw [hb, liftRes_val] at hused
    simp only [Res.val.injEq, Prod.mk.injEq] at hused
    obtain ⟨hbu, -⟩ := hused
    subst hbu
    cases b with
    | true => exact ih acc t2 hacc hrun
    | false =>
      have hnot : ¬ ReferencedByOtherProject A (filterPackageName key) pkgs := by
        intro h
        have := hiff.mpr h
        simp at this
      simp only [Bool.false_eq_true, if_false] at hrun
      rw [Go.bind_eq_val] at hrun
      obtain ⟨r, t3, hr, hrun⟩ := hrun
      cases r with
      | error e =>
        simp only [Go.pure_apply, Res.val.injEq, Prod.mk.injEq] at hrun
        rw [← hrun.1.1]
        exact hacc
      | ok p =>
        obtain ⟨h0, pk, hpk, hp⟩ := getPackage_ok env _ _ _ _ hr
        have hname : p.Package.Name = filterPackageName key := by
          rw [hp]
          exact hget h0 _ pk hpk
        simp only [] at hrun
        rw [Go.bind_eq_val] at hrun
        obtain ⟨depProjectName, t4, -, hrun⟩ := hrun
        rw [Go.bind_eq_val] at hrun
        obtain ⟨⟨as, e1⟩, t5, -, hrun⟩ := hrun
        cases e1 with
        | some e =>
          simp only [Go.pure_apply, Res.val.injEq, Prod.mk.injEq] at hrun
          rw [← hrun.1.1]
          exact hacc
        | none =>
          simp only [] at hrun
          rw [Go.bind_eq_val] at hrun
          obtain ⟨packages1, t6, hp1, hrun⟩ := hrun
          rw [setActionsAndSequences_fresh, liftRes_val] at hp1
          simp only [Res.val.injEq, Prod.mk.injEq] at hp1
          rw [Go.bind_eq_val] at hrun
          obtain ⟨⟨tr, e2⟩, t7, -, hrun⟩ := hrun
          cases e2 with
          | some e =>
            simp only [Go.pure_apply, Res.val.injEq, Prod.mk.injEq] at hrun
            rw [← hrun.1.1]
            exact hacc
          | none =>
            simp only [] at hrun
            rw [Go.bind_eq_val] at hrun
            obtain ⟨⟨rl, e3⟩, t8, -, hrun⟩ := hrun
            cases e3 with
            | some e =>
              simp only [Go.pure_apply, Res.val.injEq, Prod.mk.injEq] at hrun
              rw [← hrun.1.1]
              exact hacc
            | none =>
              simp only [] at hrun
              refine ih _ t8 ?_ hrun
              intro dp hdp
              rcases List.mem_append.mp hdp with hdp | hdp
              · exact hacc dp hdp
              · simp only [List.mem_singleton] at hdp
                subst hdp
                intro kv hkv
                simp only [← hp1.1, List.mem_singleton] at hkv
                subst hkv
                simp only [true_and]
                rw [hname]
                exact hnot

theorem setProjectDependenciesOuter_notShared (env : Env) (A : String) (pkgs : List Package)
    (hlist : ∀ h, env.Client.PackagesList h = Except.ok pkgs)
    (hwf : ∀ pkg ∈ pkgs, WellFormedAnnotation (GetValue pkg.Annotations MANAGED))
    (hget : ∀ h n p, env.Client.PackagesGet h n = Except.ok p → p.Name = n)
    (ps : List (String × DeploymentPackage)) (acc : List DeploymentProject)
    (t t' : List Event) (deps : List DeploymentProject) (err : Option GoError)
    (hacc : ∀ dp ∈ acc, NotShared A pkgs dp)
    (hrun : setProjectDependenciesOuter env A ps acc t = Res.val ((deps, err), t')) :
    ∀ dp ∈ deps, NotShared A pkgs dp := by
  induction ps generalizing acc t with
  | nil =>
    simp only [setProjectDependenciesOuter, Go.pure_apply, Res.val.injEq, Prod.mk.injEq] at hrun
    rw [← hrun.1.1]
    exact hacc
  | cons kp rest ih =>
    obtain ⟨k, pkg⟩ := kp
    simp only [setProjectDependenciesOuter] at hrun
    cases ha : GetValue pkg.Package.Annotations MANAGED
    case null =>
      rw [ha] at hrun
      exact ih acc t hacc hrun
    all_goals
      rw [ha] at hrun
      simp only [Go.bind_def] at hrun
      rw [Go.bind_eq_val] at hrun
      obtain ⟨ta, t1, -, hrun⟩ := hrun
      rw [Go.bind_eq_val] at hrun
      obtain ⟨listOfDeps, t2, -, hrun⟩ := hrun
      rw [Go.bind_eq_val] at hrun
      obtain ⟨⟨deps1, e1⟩, t3, hinner, hrun⟩ := hrun
      have h1 := setProjectDependenciesInner_notShared env A pkgs hlist hwf hget
        listOfDeps acc t2 t3 deps1 e1 hacc hinner
      cases e1 with
      | some e =>
        simp only [Go.pure_apply, Res.val.injEq, Prod.mk.injEq] at hrun
        rw [← hrun.1.1]
        exact h1
      | none => exact ih deps1 t3 h1 hrun

theorem findPackage_name (pkgs : List Package) (n : String) (p : Package)
    (h : findPackage pkgs n = Except.ok p) : p.Name = n := by
  induction pkgs with
  | nil => simp [findPackage] at h
  | cons q rest ih =>
    simp only [findPackage] at h
    by_cases hq : q.Name = n
    · simp only [hq, if_true, Except.ok.injEq] at h
      rw [← h]
      exact hq
    · simp only [hq, if_false] at h
      exact ih h

theorem threePackages_wellFormed :
    ∀ pkg ∈ [extPkg, libPkg, plainPkg],
      WellFormedAnnotation (GetValue pkg.Annotations MANAGED) := by
  intro pkg h
  simp only [List.mem_cons, List.mem_singleton, List.not_mem_nil, or_false] at h
  rcases h with rfl | rfl | rfl
  · exact Or.inr ⟨_, rfl⟩
  · exact Or.inr ⟨_, rfl⟩
  · exact Or.inl rfl

/-- C1: when every package listing of the call succeeds with the same list,
the listed ownership annotations are well-formed and a package Get answers
with the package that was asked for, every asset set that
`SetProjectDependencies(A)` returns holds only packages that no listed package
of a project other than `A` refers to in its dependency list. -/
theorem C1_SetProjectDependencies_never_schedules_shared (env : Env) (A : String)
    (pkgs : List Package) (d : DeploymentProject) (t t' : List Event)
    (deps : List DeploymentProject) (err : Option GoError)
    (hlist : ∀ h, env.Client.PackagesList h = Except.ok pkgs)
    (hwf : ∀ pkg ∈ pkgs, WellFormedAnnotation (GetValue pkg.Annotations MANAGED))
    (hget : ∀ h n p, env.Client.PackagesGet h n = Except.ok p → p.Name = n)
    (hrun : SetProjectDependencies env A d t = Res.val ((deps, err), t')) :
    ∀ dp ∈ deps, ∀ kv ∈ dp.Packages, kv.1 = kv.2.Package.Name ∧
      ¬ ReferencedByOtherProject A kv.2.Package.Name pkgs :=
  setProjectDependenciesOuter_notShared env A pkgs hlist hwf hget
    (env.rangePackages d.Packages) [] t t' deps err (by simp) hrun

/-- C1 at the remote holding `ext-pkg` (project `EXT`, depending on
`lib-pkg`), `lib-pkg` and an untagged package: `lib-pkg` is scheduled and no
other project refers to it. -/
theorem C1_SetProjectDependencies_never_schedules_shared_witness :
    SetProjectDependencies (envOf (packagesOnly [extPkg, libPkg, plainPkg])) "EXT"
        extDeployment [] =
      Res.val (([libAssets], none),
        [Event.PackagesList, Event.PackagesGet "lib-pkg", Event.ActionsList "lib-pkg",
          Event.TriggersList, Event.RulesList]) ∧
    "lib-pkg" = libPkg.Name ∧
    ¬ ReferencedByOtherProject "EXT" libPkg.Name [extPkg, libPkg, plainPkg] :=
  ⟨rfl,
   C1_SetProjectDependencies_never_schedules_shared
    (envOf (packagesOnly [extPkg, libPkg, plainPkg])) "EXT" [extPkg, libPkg, plainPkg]
    extDeployment []
    [Event.PackagesList, Event.PackagesGet "lib-pkg", Event.ActionsList "lib-pkg",
      Event.TriggersList, Event.RulesList]
    [libAssets] none (fun _ => rfl) threePackages_wellFormed
    (fun _ n p h => findPackage_name _ n p h) rfl
    libAssets (List.mem_singleton.mpr rfl)
    ("lib-pkg", ⟨libPkg, [], []⟩) (List.mem_singleton.mpr rfl)⟩

/-! ## Unparsable dependency references -/

theorem retryLoop_all_fail {α : Type} (n : Nat) (ev : Event)
    (answer : List Event → Except WskError α) (e : WskError)
    (hfail : ∀ h, answer h = Except.error e) (t : List Event) :
    retryLoop n (call ev answer) t =
      Res.val (Except.error e, t ++ List.replicate (n + 1) ev) := by
  induction n generalizing t with
  | zero => simp [retryLoop, call_apply, hfail]
  | succ n ih =>
    simp only [retryLoop, Go.bind_def]
    rw [Go.bind_of_val _ _ t _ _ (call_apply _ _ t), hfail]
    simp only []
    rw [ih]
    simp [List.replicate_succ]

theorem getPackage_all_fail (env : Env) (n : String) (e : WskError)
    (hfail : ∀ h, env.Client.PackagesGet h n = Except.error e) (t : List Event) :
    getPackage env n t =
      Res.val (Except.error (createWhiskClientError e EntityKind.package),
        t ++ List.replicate (max 1 env.DEFAULT_ATTEMPTS) (Event.PackagesGet n)) := by
  simp only [getPackage, retry, Go.bind_def]
  rw [Go.bind_of_val _ _ t _ _
    (retryLoop_all_fail _ _ (fun h => env.Client.PackagesGet h n) e hfail t)]
  have : env.DEFAULT_ATTEMPTS - 1 + 1 = max 1 env.DEFAULT_ATTEMPTS := by omega
  rw [this]
  rfl

/-- C6, as stated, fails: for package `bad-pkg` of project `EXT`, whose only
dependency reference `lib-pkg` resolves to the empty name, the entry is not
skipped: a package listing and three package Gets for the empty name are
issued and `SetProjectDependencies` returns the client error, while without
the entry it issues no call and returns no error. -/
theorem C6_counterexample_empty_name_not_skipped :
    filterPackageName "lib-pkg" = "" ∧
    SetProjectDependencies (envOf (packagesOnly [badRefPkg, libPkg])) "EXT"
        ⟨[("bad-pkg", NewDeploymentPackage badRefPkg)], [], []⟩ [] =
      Res.val (([], some (GoError.whiskClient ⟨"not found"⟩ EntityKind.package)),
        [Event.PackagesList, Event.PackagesGet "", Event.PackagesGet "",
          Event.PackagesGet ""]) ∧
    SetProjectDependencies (envOf (packagesOnly [noRefPkg, libPkg])) "EXT"
        ⟨[("bad-pkg", NewDeploymentPackage noRefPkg)], [], []⟩ [] =
      Res.val (([], none), []) :=
  ⟨by decide, rfl, rfl⟩

/-- C6, amended: in the loop of `SetProjectDependencies` over a dependency
list, an entry whose reference resolves to the empty name is processed like
any other: the still-in-use check lists the packages for the empty name and,
when no package of another project has a reference resolving to the empty
name, the package Get for the empty name is issued; when that Get fails on
every attempt the loop stops with the client error and the asset sets
collected so far. -/
theorem C6_empty_name_is_checked_and_fetched (env : Env) (A : String)
    (dep : JVal) (rest : List JVal) (acc : List DeploymentProject) (t : List Event)
    (key : String) (pkgs : List Package) (e : WskError)
    (hkey : depKey dep = Res.val key) (hempty : filterPackageName key = "")
    (hlist : env.Client.PackagesList t = Except.ok pkgs)
    (hwf : ∀ pkg ∈ pkgs, WellFormedAnnotation (GetValue pkg.Annotations MANAGED))
    (hfree : ¬ ReferencedByOtherProject A "" pkgs)
    (hfail : ∀ h, env.Client.PackagesGet h "" = Except.error e) :
    setProjectDependenciesInner env A (dep :: rest) acc t =
      Res.val ((acc, some (createWhiskClientError e EntityKind.package)),
        t ++ Event.PackagesList ::
          List.replicate (max 1 env.DEFAULT_ATTEMPTS) (Event.PackagesGet "")) := by
  obtain ⟨b, hb, hiff⟩ := usedByOtherLoop_spec A "" pkgs hwf
  have hbf : b = false := by
    cases b with
    | false => rfl
    | true => exact absurd (hiff.mp rfl) hfree
  subst hbf
  simp only [setProjectDependenciesInner, Go.bind_def, hkey]
  rw [Go.bind_of_val _ _ t _ _ (liftRes_val key t), hempty]
  have hused : isPackageUsedByOtherPackages env A "" t =
      Res.val (false, t ++ [Event.PackagesList]) := by
    rw [isPackageUsedByOtherPackages_ok env A "" t pkgs hlist, hb]
    rfl
  rw [Go.bind_of_val _ _ t _ _ hused]
  simp only [Bool.false_eq_true, if_false]
  rw [Go.bind_of_val _ _ _ _ _ (getPackage_all_fail env "" e hfail _)]
  simp [Go.pure_apply]

theorem twoPackages_wellFormed :
    ∀ pkg ∈ [badRefPkg, libPkg],
      WellFormedAnnotation (GetValue pkg.Annotations MANAGED) := by
  intro pkg h
  simp only [List.mem_cons, List.mem_singleton, List.not_mem_nil, or_false] at h
  rcases h with rfl | rfl
  · exact Or.inr ⟨_, rfl⟩
  · exact Or.inr ⟨_, rfl⟩

theorem twoPackages_free : ¬ ReferencedByOtherProject "EXT" "" [badRefPkg, libPkg] := by
  rintro ⟨pkg, hmem, name, refs, htag, hne, ref, href, _⟩
  simp only [List.mem_cons, List.mem_singleton, List.not_mem_nil, or_false] at hmem
  rcases hmem with rfl | rfl
  · have h : ownershipTag (GetValue badRefPkg.Annotations MANAGED) =
        some ("EXT", ["lib-pkg"]) := rfl
    rw [h] at htag
    simp only [Option.some.injEq, Prod.mk.injEq] at htag
    exact hne htag.1.symm
  · have h : ownershipTag (GetValue libPkg.Annotations MANAGED) = some ("LIB", []) := rfl
    rw [h] at htag
    simp only [Option.some.injEq, Prod.mk.injEq] at htag
    rw [← htag.2] at href
    simp at href

/-- C6, amended, at the dependency list of `bad-pkg`. -/
theorem C6_empty_name_is_checked_and_fetched_witness :
    setProjectDependenciesInner (envOf (packagesOnly [badRefPkg, libPkg])) "EXT"
        (JVal.obj [(KEY_KEY, JVal.str "lib-pkg")] :: []) [] [] =
      Res.val (([], some (createWhiskClientError ⟨"not found"⟩ EntityKind.package)),
        [] ++ Event.PackagesList ::
          List.replicate (max 1 (envOf (packagesOnly [badRefPkg, libPkg])).DEFAULT_ATTEMPTS)
            (Event.PackagesGet "")) :=
  C6_empty_name_is_checked_and_fetched (envOf (packagesOnly [badRefPkg, libPkg])) "EXT"
    (JVal.obj [(KEY_KEY, JVal.str "lib-pkg")]) [] [] [] "lib-pkg" [badRefPkg, libPkg]
    ⟨"not found"⟩ rfl (by decide) rfl twoPackages_wellFormed twoPackages_free
    (fun _ => rfl)

/-! ## Reasoning about the calls of a run -/

theorem no_event_between (t h : List Event) (ev : Event) (h1 : t <+: h)
    (h2 : (h ++ [ev]) <+: t) : False := by
  have l1 := h1.length_le
  have l2 := h2.length_le
  simp at l2
  omega

theorem only_event (t h : List Event) (ev ev' : Event) (h1 : t <+: h)
    (h2 : (h ++ [ev']) <+: (t ++ [ev])) : h = t ∧ ev' = ev := by
  have l1 := h1.length_le
  have l2 := h2.length_le
  simp at l2
  have hlen : (h ++ [ev']).length = (t ++ [ev]).length := by simp; omega
  have heq := h2.eq_of_length hlen
  have hh : h.length = t.length := by omega
  have := List.append_inj heq hh
  exact ⟨this.1, by simpa using this.2⟩

theorem Obeys.pure {Q : List Event → List Event → Event → Prop} {strict : Prop} {α : Type}
    (a : α) (good : α → Prop) : Obeys Q strict (Go.pure a) good := by
  intro t b t' hrun
  simp only [Go.pure_apply, Res.val.injEq, Prod.mk.injEq] at hrun
  rw [← hrun.2]
  exact ⟨List.prefix_refl t, fun _ h ev h1 h2 => (no_event_between t h ev h1 h2).elim⟩

theorem Obeys.liftRes {Q : List Event → List Event → Event → Prop} {strict : Prop}
    {α : Type} (r : Res α) (good : α → Prop) : Obeys Q strict (liftRes r) good := by
  intro t b t' hrun
  rw [liftRes_eq_val] at hrun
  rw [hrun.2]
  exact ⟨List.prefix_refl t, fun _ h ev h1 h2 => (no_event_between t h ev h1 h2).elim⟩

theorem Obeys.panic {Q : List Event → List Event → Event → Prop} {strict : Prop}
    {α : Type} (good : α → Prop) : Obeys Q strict (fun _ => (Res.panic : Res (α × List Event))) good := by
  intro t b t' hrun
  simp at hrun

theorem Obeys.call {Q : List Event → List Event → Event → Prop} {strict : Prop}
    {β : Type} (ev : Event) (answer : List Event → β) (good : β → Prop)
    (hQ : ∀ t, (strict → good (answer t)) → Q (t ++ [ev]) t ev) :
    Obeys Q strict (call ev answer) good := by
  intro t b t' hrun
  simp only [call_apply, Res.val.injEq, Prod.mk.injEq] at hrun
  rw [← hrun.2, ← hrun.1]
  refine ⟨List.prefix_append t [ev], fun hg h ev' h1 h2 => ?_⟩
  obtain ⟨e1, e2⟩ := only_event t h ev ev' h1 h2
  rw [e1, e2]
  exact hQ t hg

theorem Obeys.bind {Q : List Event → List Event → Event → Prop} {strict : Prop}
    {α β : Type} {x : Go α} {f : α → Go β} {goodx : α → Prop} {goody : β → Prop}
    (hmono : ∀ t1 t2 h ev, t1 <+: t2 → Q t1 h ev → Q t2 h ev)
    (hx : Obeys Q strict x goodx) (hf : ∀ a, Obeys Q strict (f a) goody)
    (hgood : ∀ a t b t', f a t = Res.val (b, t') → goody b → goodx a) :
    Obeys Q strict (Go.bind x f) goody := by
  intro t b t' hrun
  rw [Go.bind_eq_val] at hrun
  obtain ⟨a, t1, h1, h2⟩ := hrun
  obtain ⟨p1, q1⟩ := hx t a t1 h1
  obtain ⟨p2, q2⟩ := hf a t1 b t' h2
  refine ⟨p1.trans p2, fun hg h ev hh hev => ?_⟩
  by_cases hlen : (h ++ [ev]).length ≤ t1.length
  · have hpre : (h ++ [ev]) <+: t1 := List.prefix_of_prefix_length_le hev p2 hlen
    exact hmono t1 t' h ev p2 (q1 (fun hs => hgood a t1 b t' h2 (hg hs)) h ev hh hpre)
  · have hpre : t1 <+: h := by
      have hh' : h <+: t' := (List.prefix_append h [ev]).trans hev
      apply List.prefix_of_prefix_length_le p2 hh'
      simp at hlen
      omega
    exact q2 hg h ev hpre hev

theorem isPackageUsedByOtherPackages_obeys {env : Env}
    {Q : List Event → List Event → Event → Prop} {strict : Prop}
    (pol : Policy env Q strict) (A D : String) :
    Obeys Q strict (isPackageUsedByOtherPackages env A D) (fun _ => True) := by
  simp only [isPackageUsedByOtherPackages, Go.bind_def]
  refine Obeys.bind pol.mono
    (Obeys.call Event.PackagesList _ (fun _ => True) (fun t _ => pol.packagesList t))
    (fun r => ?_) (fun _ _ _ _ _ _ => trivial)
  cases r with
  | error e => exact Obeys.pure _ _
  | ok l => exact Obeys.liftRes _ _

theorem getPackage_obeys {env : Env}
    {Q : List Event → List Event → Event → Prop} {strict : Prop}
    (pol : Policy env Q strict) (n : String) :
    Obeys Q strict (getPackage env n) (fun r => ∃ p, r = Except.ok p) := by
  simp only [getPackage, Go.bind_def]
  refine Obeys.bind pol.mono (pol.packagesGet n) (fun r => ?_) (fun r t b t' hrun hb => ?_)
  · cases r with
    | error e => exact Obeys.pure _ _
    | ok p => exact Obeys.pure _ _
  · cases r with
    | error e =>
      simp only [Go.pure_apply, Res.val.injEq, Prod.mk.injEq] at hrun
      obtain ⟨p, hp⟩ := hb
      rw [← hrun.1] at hp
      simp at hp
    | ok p => exact ⟨p, rfl⟩

theorem getProjectTriggersLoop_obeys {env : Env}
    {Q : List Event → List Event → Event → Prop} {strict : Prop}
    (pol : Policy env Q strict) (A : String) (l : List Trigger)
    (acc : List (String × Trigger)) :
    Obeys Q strict (getProjectTriggersLoop env A l acc) (fun r => r.2 = none) := by
  induction l generalizing acc with
  | nil => exact Obeys.pure _ _
  | cons tr rest ih =>
    simp only [getProjectTriggersLoop, Go.bind_def]
    refine Obeys.bind pol.mono (Obeys.liftRes _ (fun _ => True)) (fun m => ?_)
      (fun _ _ _ _ _ _ => trivial)
    cases m with
    | false => exact ih acc
    | true =>
      simp only [if_true]
      refine Obeys.bind pol.mono (pol.triggersGet tr.Name) (fun r => ?_)
        (fun r t b t' hrun hb => ?_)
      · cases r with
        | error e => exact Obeys.pure _ _
        | ok x => exact ih _
      · cases r with
        | error e =>
          simp only [Go.pure_apply, Res.val.injEq, Prod.mk.injEq] at hrun
          rw [← hrun.1] at hb
          simp at hb
        | ok x => exact ⟨x, rfl⟩

theorem getProjectTriggers_obeys {env : Env}
    {Q : List Event → List Event → Event → Prop} {strict : Prop}
    (pol : Policy env Q strict) (A : String) :
    Obeys Q strict (getProjectTriggers env A) (fun r => r.2 = none) := by
  simp only [getProjectTriggers, Go.bind_def]
  refine Obeys.bind pol.mono
    (Obeys.call Event.TriggersList _ (fun _ => True) (fun t _ => pol.triggersList t))
    (fun r => ?_) (fun _ _ _ _ _ _ => trivial)
  cases r with
  | error e => exact Obeys.pure _ _
  | ok l => exact getProjectTriggersLoop_obeys pol A l []

theorem getProjectRulesLoop_obeys {env : Env}
    {Q : List Event → List Event → Event → Prop} {strict : Prop}
    (pol : Policy env Q strict) (A : String) (l : List Rule)
    (acc : List (String × Rule)) :
    Obeys Q strict (getProjectRulesLoop env A l acc) (fun r => r.2 = none) := by
  induction l generalizing acc with
  | nil => exact Obeys.pure _ _
  | cons rl rest ih =>
    simp only [getProjectRulesLoop, Go.bind_def]
    refine Obeys.bind pol.mono (Obeys.liftRes _ (fun _ => True)) (fun m => ?_)
      (fun _ _ _ _ _ _ => trivial)
    cases m with
    | false => exact ih acc
    | true =>
      simp only [if_true]
      refine Obeys.bind pol.mono (pol.rulesGet rl.Name) (fun r => ?_)
        (fun r t b t' hrun hb => ?_)
      · cases r with
        | error e => exact Obeys.pure _ _
        | ok x => exact ih _
      · cases r with
        | error e =>
          simp only [Go.pure_apply, Res.val.injEq, Prod.mk.injEq] at hrun
          rw [← hrun.1] at hb
          simp at hb
        | ok x => exact ⟨x, rfl⟩

theorem getProjectRules_obeys {env : Env}
    {Q : List Event → List Event → Event → Prop} {strict : Prop}
    (pol : Policy env Q strict) (A : String) :
    Obeys Q strict (getProjectRules env A) (fun r => r.2 = none) := by
  simp only [getProjectRules, Go.bind_def]
  refine Obeys.bind pol.mono
    (Obeys.call Event.RulesList _ (fun _ => True) (fun t _ => pol.rulesList t))
    (fun r => ?_) (fun _ _ _ _ _ _ => trivial)
  cases r with
  | error e => exact Obeys.pure _ _
  | ok l => exact getProjectRulesLoop_obeys pol A l []

theorem getPackageActionsAndSequencesLoop_obeys {env : Env}
    {Q : List Event → List Event → Event → Prop} {strict : Prop}
    (pol : Policy env Q strict) (pn A : String) (l : List Action)
    (la ls : List (String × ActionRecord)) :
    Obeys Q strict (getPackageActionsAndSequencesLoop env pn A l la ls)
      (fun r => r.2 = none) := by
  induction l generalizing la ls with
  | nil => exact Obeys.pure _ _
  | cons ac rest ih =>
    simp only [getPackageActionsAndSequencesLoop, Go.bind_def]
    refine Obeys.bind pol.mono (Obeys.liftRes _ (fun _ => True)) (fun m => ?_)
      (fun _ _ _ _ _ _ => trivial)
    cases m with
    | false => exact ih la ls
    | true =>
      simp only [if_true]
      refine Obeys.bind pol.mono (pol.actionsGet _) (fun r => ?_)
        (fun r t b t' hrun hb => ?_)
      · cases r with
        | error e => exact Obeys.pure _ _
        | ok x =>
          simp only []
          cases hx : x.Exec with
          | none => exact Obeys.panic _
          | some ex =>
            simp only []
            by_cases hk : ex.Kind = YAML_KEY_SEQUENCE
            · simp only [hk, if_true]
              exact ih _ _
            · simp only [hk, if_false]
              exact ih _ _
      · cases r with
        | error e =>
          simp only [Go.pure_apply, Res.val.injEq, Prod.mk.injEq] at hrun
          rw [← hrun.1] at hb
          simp at hb
        | ok x => exact ⟨x, rfl⟩

theorem getPackageActionsAndSequences_obeys {env : Env}
    {Q : List Event → List Event → Event → Prop} {strict : Prop}
    (pol : Policy env Q strict) (pn A : String) :
    Obeys Q strict (getPackageActionsAndSequences env pn A) (fun r => r.2 = none) := by
  simp only [getPackageActionsAndSequences, Go.bind_def]
  refine Obeys.bind pol.mono
    (Obeys.call (Event.ActionsList pn) _ (fun r => ∃ a, r = Except.ok a)
      (fun t hg => pol.actionsList t pn hg))
    (fun r => ?_) (fun r t b t' hrun hb => ?_)
  · cases r with
    | error e => exact Obeys.pure _ _
    | ok l => exact getPackageActionsAndSequencesLoop_obeys pol pn A l [] []
  · cases r with
    | error e =>
      simp only [Go.pure_apply, Res.val.injEq, Prod.mk.injEq] at hrun
      rw [← hrun.1] at hb
      simp at hb
    | ok x => exact ⟨x, rfl⟩

theorem pure_error_not_good {α : Type} (acc : α) (e : GoError) (t : List Event)
    (b : α × Option GoError) (t' : List Event)
    (hrun : Go.pure (acc, some e) t = Res.val (b, t')) (hb : b.2 = none) : False := by
  simp only [Go.pure_apply, Res.val.injEq, Prod.mk.injEq] at hrun
  rw [← hrun.1] at hb
  simp at hb

theorem setProjectDependenciesInner_obeys {env : Env}
    {Q : List Event → List Event → Event → Prop} {strict : Prop}
    (pol : Policy env Q strict) (A : String) (ds : List JVal)
    (acc : List DeploymentProject) :
    Obeys Q strict (setProjectDependenciesInner env A ds acc) (fun r => r.2 = none) := by
  induction ds generalizing acc with
  | nil => exact Obeys.pure _ _
  | cons dep rest ih =>
    simp only [setProjectDependenciesInner, Go.bind_def]
    refine Obeys.bind pol.mono (Obeys.liftRes _ (fun _ => True)) (fun key => ?_)
      (fun _ _ _ _ _ _ => trivial)
    refine Obeys.bind pol.mono (isPackageUsedByOtherPackages_obeys pol A _) (fun used => ?_)
      (fun _ _ _ _ _ _ => trivial)
    cases used with
    | true => exact ih acc
    | false =>
      simp only [Bool.false_eq_true, if_false]
      refine Obeys.bind pol.mono (getPackage_obeys pol _) (fun r => ?_)
        (fun r t b t' hrun hb => ?_)
      · cases r with
        | error e => exact Obeys.pure _ _
        | ok p =>
          simp only []
          refine Obeys.bind pol.mono (Obeys.liftRes _ (fun _ => True)) (fun dpn => ?_)
            (fun _ _ _ _ _ _ => trivial)
          refine Obeys.bind pol.mono (getPackageActionsAndSequences_obeys pol _ _)
            (fun r1 => ?_) (fun r1 t b t' hrun hb => ?_)
          · obtain ⟨as, e1⟩ := r1
            cases e1 with
            | some e => exact Obeys.pure _ _
            | none =>
              simp only []
              refine Obeys.bind pol.mono (Obeys.liftRes _ (fun _ => True)) (fun p1 => ?_)
                (fun _ _ _ _ _ _ => trivial)
              refine Obeys.bind pol.mono (getProjectTriggers_obeys pol _)
                (fun r2 => ?_) (fun r2 t b t' hrun hb => ?_)
              · obtain ⟨tr, e2⟩ := r2
                cases e2 with
                | some e => exact Obeys.pure _ _
                | none =>
                  simp only []
                  refine Obeys.bind pol.mono (getProjectRules_obeys pol _)
                    (fun r3 => ?_) (fun r3 t b t' hrun hb => ?_)
                  · obtain ⟨rl, e3⟩ := r3
                    cases e3 with
                    | some e => exact Obeys.pure _ _
                    | none => exact ih _
                  · obtain ⟨rl, e3⟩ := r3
                    cases e3 with
                    | some e => exact (pure_error_not_good _ _ _ _ _ hrun hb).elim
                    | none => rfl
              · obtain ⟨tr, e2⟩ := r2
                cases e2 with
                | some e => exact (pure_error_not_good _ _ _ _ _ hrun hb).elim
                | none => rfl
          · obtain ⟨as, e1⟩ := r1
            cases e1 with
            | some e => exact (pure_error_not_good _ _ _ _ _ hrun hb).elim
            | none => rfl
      · cases r with
        | error e => exact (pure_error_not_good _ _ _ _ _ hrun hb).elim
        | ok p => exact ⟨p, rfl⟩

theorem setProjectDependenciesOuter_obeys {env : Env}
    {Q : List Event → List Event → Event → Prop} {strict : Prop}
    (pol : Policy env Q strict) (A : String) (ps : List (String × DeploymentPackage))
    (acc : List DeploymentProject) :
    Obeys Q strict (setProjectDependenciesOuter env A ps acc) (fun r => r.2 = none) := by
  induction ps generalizing acc with
  | nil => exact Obeys.pure _ _
  | cons kp rest ih =>
    obtain ⟨k, pkg⟩ := kp
    simp only [setProjectDependenciesOuter]
    cases ha : GetValue pkg.Package.Annotations MANAGED
    case null => exact ih acc
    all_goals
      simp only [Go.bind_def]
      refine Obeys.bind pol.mono (Obeys.liftRes _ (fun _ => True)) (fun ta => ?_)
        (fun _ _ _ _ _ _ => trivial)
      refine Obeys.bind pol.mono (Obeys.liftRes _ (fun _ => True)) (fun l => ?_)
        (fun _ _ _ _ _ _ => trivial)
      refine Obeys.bind pol.mono (setProjectDependenciesInner_obeys pol A l acc)
        (fun r => ?_) (fun r t b t' hrun hb => ?_)
      · obtain ⟨deps, e⟩ := r
        cases e with
        | some e => exact Obeys.pure _ _
        | none => exact ih deps
      · obtain ⟨deps, e⟩ := r
        cases e with
        | some e => exact (pure_error_not_good _ _ _ _ _ hrun hb).elim
        | none => rfl

theorem SetProjectDependencies_obeys {env : Env}
    {Q : List Event → List Event → Event → Prop} {strict : Prop}
    (pol : Policy env Q strict) (A : String) (d : DeploymentProject) :
    Obeys Q strict (SetProjectDependencies env A d) (fun r => r.2 = none) :=
  setProjectDependenciesOuter_obeys pol A _ []

/-! ## Retried calls -/

theorem prefix_replicate_inv (t h : List Event) (ev ev' : Event) (c : Nat)
    (h1 : t <+: h) (h2 : (h ++ [ev']) <+: (t ++ List.replicate c ev)) :
    ∃ i, i < c ∧ h = t ++ List.replicate i ev ∧ ev' = ev := by
  obtain ⟨u, rfl⟩ := h1
  rw [List.append_assoc, List.prefix_append_right_inj] at h2
  have hlen := h2.length_le
  simp only [List.length_append, List.length_singleton, List.length_replicate] at hlen
  have heq := List.prefix_iff_eq_take.mp h2
  rw [List.take_replicate] at heq
  simp only [List.length_append, List.length_singleton] at heq
  have hmin : min (u.length + 1) c = u.length + 1 := by omega
  rw [hmin, List.replicate_succ'] at heq
  have := List.append_inj heq (by simp)
  refine ⟨u.length, by omega, congrArg (fun l => t ++ l) this.1, by simpa using this.2⟩

theorem retryLoop_ok_shape {α : Type} (n : Nat) (ev : Event)
    (answer : List Event → Except WskError α) (t t' : List Event) (a : α)
    (h : retryLoop n (call ev answer) t = Res.val (Except.ok a, t')) :
    ∃ m, m ≤ n ∧ t' = t ++ List.replicate (m + 1) ev ∧
      answer (t ++ List.replicate m ev) = Except.ok a := by
  induction n generalizing t with
  | zero =>
    simp only [retryLoop, call_apply, Res.val.injEq, Prod.mk.injEq] at h
    exact ⟨0, le_refl 0, by simp [h.2], by simpa using h.1⟩
  | succ n ih =>
    simp only [retryLoop, Go.bind_def] at h
    rw [Go.bind_of_val _ _ t _ _ (call_apply _ _ t)] at h
    cases hans : answer t with
    | ok a' =>
      rw [hans] at h
      simp only [Go.pure_apply, Res.val.injEq, Prod.mk.injEq, Except.ok.injEq] at h
      exact ⟨0, Nat.zero_le _, by simp [h.2], by simpa [hans] using h.1⟩
    | error e =>
      rw [hans] at h
      obtain ⟨m, hm, ht', hok⟩ := ih (t ++ [ev]) h
      refine ⟨m + 1, by omega, ?_, ?_⟩
      · rw [ht', List.append_assoc]
        rfl
      · rw [← hok, List.append_assoc]
        rfl

theorem retryLoop_grows {α : Type} (n : Nat) (ev : Event)
    (answer : List Event → Except WskError α) (t t' : List Event)
    (r : Except WskError α) (h : retryLoop n (call ev answer) t = Res.val (r, t')) :
    ∃ c, t' = t ++ List.replicate c ev := by
  induction n generalizing t with
  | zero =>
    simp only [retryLoop, call_apply, Res.val.injEq, Prod.mk.injEq] at h
    exact ⟨1, by simp [h.2]⟩
  | succ n ih =>
    simp only [retryLoop, Go.bind_def] at h
    rw [Go.bind_of_val _ _ t _ _ (call_apply _ _ t)] at h
    cases hans : answer t with
    | ok a' =>
      rw [hans] at h
      simp only [Go.pure_apply, Res.val.injEq, Prod.mk.injEq] at h
      exact ⟨1, by simp [h.2]⟩
    | error e =>
      rw [hans] at h
      obtain ⟨c, hc⟩ := ih (t ++ [ev]) h
      refine ⟨c + 1, ?_⟩
      rw [hc, List.append_assoc]
      rfl

theorem Settled.mono (env : Env) (k : Nat) (t1 t2 h : List Event) (ev : Event)
    (h12 : t1 <+: t2) (hs : Settled env k t1 h ev) : Settled env k t2 h ev := by
  unfold Settled at *
  by_cases hg : ev.isGet = true
  · rw [if_pos hg] at hs ⊢
    obtain ⟨j, hj, hpre, hok⟩ := hs
    exact ⟨j, hj, hpre.trans h12, hok⟩
  · rw [if_neg hg] at hs ⊢
    exact hs

theorem retry_settled {α : Type} (env : Env) (ev : Event)
    (answer : List Event → Except WskError α) (hget : ev.isGet = true)
    (hfails : ∀ h a, answer h = Except.ok a → ev.failsAt env h = false) :
    Obeys (Settled env (max 1 env.DEFAULT_ATTEMPTS)) True
      (retry env.DEFAULT_ATTEMPTS (call ev answer)) (fun r => ∃ a, r = Except.ok a) := by
  intro t r t' hrun
  unfold retry at hrun
  obtain ⟨c, hc⟩ := retryLoop_grows _ _ _ _ _ _ hrun
  refine ⟨by rw [hc]; exact List.prefix_append _ _, fun hgood h ev' h1 h2 => ?_⟩
  obtain ⟨a, ha⟩ := hgood trivial
  subst ha
  obtain ⟨m, hm, ht', hok⟩ := retryLoop_ok_shape _ _ _ _ _ _ hrun
  rw [ht'] at h2
  obtain ⟨i, hi, hh, hev⟩ := prefix_replicate_inv t h ev ev' (m + 1) h1 h2
  subst hev
  unfold Settled
  rw [if_pos hget]
  refine ⟨m - i, by omega, ?_, ?_⟩
  · rw [ht', hh, List.append_assoc, ← List.replicate_add]
    have : i + (m - i + 1) = m + 1 := by omega
    rw [this]
  · rw [hh, List.append_assoc, ← List.replicate_add]
    have : i + (m - i) = m := by omega
    rw [this]
    exact hfails _ a hok

theorem settledPolicy (env : Env) :
    Policy env (Settled env (max 1 env.DEFAULT_ATTEMPTS)) True where
  mono := Settled.mono env _
  packagesList := fun t => by simp [Settled, Event.isGet, Event.failsAt]
  triggersList := fun t => by simp [Settled, Event.isGet, Event.failsAt]
  rulesList := fun t => by simp [Settled, Event.isGet, Event.failsAt]
  actionsList := fun t n hok => by
    obtain ⟨a, ha⟩ := hok trivial
    simp [Settled, Event.isGet, Event.failsAt, ha]
  packagesGet := fun n => retry_settled env _ _ rfl
    (fun h a ha => by simp [Event.failsAt, ha])
  actionsGet := fun n => retry_settled env _ _ rfl
    (fun h a ha => by simp [Event.failsAt, ha])
  triggersGet := fun n => retry_settled env _ _ rfl
    (fun h a ha => by simp [Event.failsAt, ha])
  rulesGet := fun n => retry_settled env _ _ rfl
    (fun h a ha => by simp [Event.failsAt, ha])

theorem retry_readOnly {α : Type} (n : Nat) (ev : Event)
    (answer : List Event → Except WskError α) (hev : ev.isUnDeploy = false)
    (good : Except WskError α → Prop) :
    Obeys (fun _ _ e => e.isUnDeploy = false) False (retry n (call ev answer)) good := by
  intro t r t' hrun
  unfold retry at hrun
  obtain ⟨c, hc⟩ := retryLoop_grows _ _ _ _ _ _ hrun
  refine ⟨by rw [hc]; exact List.prefix_append _ _, fun _ h ev' h1 h2 => ?_⟩
  rw [hc] at h2
  obtain ⟨i, _, _, he⟩ := prefix_replicate_inv t h ev ev' c h1 h2
  rw [he]
  exact hev

theorem readOnlyPolicy (env : Env) :
    Policy env (fun _ _ e => e.isUnDeploy = false) False where
  mono := fun _ _ _ _ _ h => h
  packagesList := fun _ => rfl
  triggersList := fun _ => rfl
  rulesList := fun _ => rfl
  actionsList := fun _ _ _ => rfl
  packagesGet := fun n => retry_readOnly _ (Event.PackagesGet n) _ rfl _
  actionsGet := fun n => retry_readOnly _ (Event.ActionsGet n) _ rfl _
  triggersGet := fun n => retry_readOnly _ (Event.TriggersGet n) _ rfl _
  rulesGet := fun n => retry_readOnly _ (Event.RulesGet n) _ rfl _

/-! ## Failures during dependency resolution -/

/-- C10, as stated, fails: with the package listing of the still-in-use check,
the trigger listing and the rule listing all failing, `SetProjectDependencies`
for `ext-pkg` still returns the asset set of `lib-pkg` and a nil error. -/
theorem C10_counterexample_listing_failures_swallowed :
    listingsDown.PackagesList [] = Except.error ⟨"unavailable"⟩ ∧
    listingsDown.TriggersList [Event.PackagesList, Event.PackagesGet "lib-pkg",
      Event.ActionsList "lib-pkg"] = Except.error ⟨"unavailable"⟩ ∧
    listingsDown.RulesList [Event.PackagesList, Event.PackagesGet "lib-pkg",
      Event.ActionsList "lib-pkg", Event.TriggersList] = Except.error ⟨"unavailable"⟩ ∧
    SetProjectDependencies (envOf listingsDown) "EXT" extDeployment [] =
      Res.val (([libAssets], none),
        [Event.PackagesList, Event.PackagesGet "lib-pkg", Event.ActionsList "lib-pkg",
          Event.TriggersList, Event.RulesList]) :=
  ⟨rfl, rfl, rfl, rfl⟩

/-- C10, amended: in every run of `SetProjectDependencies`, if an action
listing it issued failed, or if it issued the full number of attempts of a
Get (of a package, action, trigger or rule) and every one of them failed, the
returned error is not nil. (The package listing of the still-in-use check,
the trigger listing and the rule listing are not covered: their failure is
read as "not in use" and as an empty result.) -/
theorem C10_SetProjectDependencies_reports_get_and_action_list_failures (env : Env)
    (A : String) (d : DeploymentProject) (t t' : List Event)
    (deps : List DeploymentProject) (err : Option GoError)
    (hrun : SetProjectDependencies env A d t = Res.val ((deps, err), t')) :
    (∀ h n, t <+: h → (h ++ [Event.ActionsList n]) <+: t' →
      (Event.ActionsList n).failsAt env h = true → err ≠ none) ∧
    (∀ h ev, ev.isGet = true → t <+: h →
      (h ++ List.replicate (max 1 env.DEFAULT_ATTEMPTS) ev) <+: t' →
      (∀ j, j < max 1 env.DEFAULT_ATTEMPTS →
        ev.failsAt env (h ++ List.replicate j ev) = true) →
      err ≠ none) := by
  obtain ⟨-, hall⟩ := SetProjectDependencies_obeys (settledPolicy env) A d t _ t' hrun
  constructor
  · intro h n h1 h2 hfail herr
    have hs := hall (fun _ => herr) h _ h1 h2
    simp only [Settled, Event.isGet, Bool.false_eq_true, if_false] at hs
    rw [hs] at hfail
    simp at hfail
  · intro h ev hget h1 h2 hfail herr
    have hk : max 1 env.DEFAULT_ATTEMPTS = (max 1 env.DEFAULT_ATTEMPTS - 1) + 1 := by omega
    have h2' : (h ++ [ev]) <+: t' := by
      rw [hk, List.replicate_succ] at h2
      refine List.IsPrefix.trans ?_ h2
      exact (List.prefix_append_right_inj h).mpr (List.prefix_append [ev] _)
    have hs := hall (fun _ => herr) h ev h1 h2'
    simp only [Settled, hget, if_true] at hs
    obtain ⟨j, hj, -, hok⟩ := hs
    rw [hfail j hj] at hok
    simp at hok

/-- C10, amended, at the run for `bad-pkg`, in which the three attempts of the
package Get for the empty name fail. -/
theorem C10_SetProjectDependencies_reports_get_and_action_list_failures_witness :
    SetProjectDependencies (envOf (packagesOnly [badRefPkg, libPkg])) "EXT"
        ⟨[("bad-pkg", NewDeploymentPackage badRefPkg)], [], []⟩ [] =
      Res.val (([], some (GoError.whiskClient ⟨"not found"⟩ EntityKind.package)),
        [Event.PackagesList, Event.PackagesGet "", Event.PackagesGet "",
          Event.PackagesGet ""]) ∧
    some (GoError.whiskClient ⟨"not found"⟩ EntityKind.package) ≠ none :=
  ⟨rfl,
   (C10_SetProjectDependencies_reports_get_and_action_list_failures
    (envOf (packagesOnly [badRefPkg, libPkg])) "EXT"
    ⟨[("bad-pkg", NewDeploymentPackage badRefPkg)], [], []⟩ []
    [Event.PackagesList, Event.PackagesGet "", Event.PackagesGet "", Event.PackagesGet ""]
    [] (some (GoError.whiskClient ⟨"not found"⟩ EntityKind.package)) rfl).2
    [Event.PackagesList] (Event.PackagesGet "") rfl List.nil_prefix ⟨[], rfl⟩
    (fun _ _ => rfl)⟩

/-! ## Discovery of the project's own assets -/

theorem setProjectPackagesLoop_obeys {env : Env}
    {Q : List Event → List Event → Event → Prop} {strict : Prop}
    (pol : Policy env Q strict) (A : String) (l : List Package) (d : DeploymentProject) :
    Obeys Q strict (setProjectPackagesLoop env A l d) (fun r => r.2 = none) := by
  induction l generalizing d with
  | nil => exact Obeys.pure _ _
  | cons pkg rest ih =>
    simp only [setProjectPackagesLoop, Go.bind_def]
    refine Obeys.bind pol.mono (Obeys.liftRes _ (fun _ => True)) (fun m => ?_)
      (fun _ _ _ _ _ _ => trivial)
    cases m with
    | false => exact ih d
    | true =>
      simp only [if_true]
      refine Obeys.bind pol.mono (getPackage_obeys pol _) (fun r => ?_)
        (fun r t b t' hrun hb => ?_)
      · cases r with
        | error e => exact Obeys.pure _ _
        | ok x => exact ih _
      · cases r with
        | error e => exact (pure_error_not_good _ _ _ _ _ hrun hb).elim
        | ok x => exact ⟨x, rfl⟩

theorem SetProjectPackages_obeys {env : Env}
    {Q : List Event → List Event → Event → Prop} {strict : Prop}
    (pol : Policy env Q strict) (A : String) (d : DeploymentProject) :
    Obeys Q strict (SetProjectPackages env A d) (fun r => r.2 = none) := by
  simp only [SetProjectPackages, Go.bind_def]
  refine Obeys.bind pol.mono
    (Obeys.call Event.PackagesList _ (fun _ => True) (fun t _ => pol.packagesList t))
    (fun r => ?_) (fun _ _ _ _ _ _ => trivial)
  cases r with
  | error e => exact Obeys.pure _ _
  | ok l => exact setProjectPackagesLoop_obeys pol A l d

theorem setPackageActionsAndSequencesLoop_obeys {env : Env}
    {Q : List Event → List Event → Event → Prop} {strict : Prop}
    (pol : Policy env Q strict) (A : String) (l : List (String × DeploymentPackage))
    (d : DeploymentProject) :
    Obeys Q strict (setPackageActionsAndSequencesLoop env A l d) (fun r => r.2 = none) := by
  induction l generalizing d with
  | nil => exact Obeys.pure _ _
  | cons kp rest ih =>
    obtain ⟨k, pkg⟩ := kp
    simp only [setPackageActionsAndSequencesLoop, Go.bind_def]
    refine Obeys.bind pol.mono (getPackageActionsAndSequences_obeys pol _ _)
      (fun r => ?_) (fun r t b t' hrun hb => ?_)
    · obtain ⟨as, e⟩ := r
      cases e with
      | some e => exact Obeys.pure _ _
      | none =>
        simp only []
        refine Obeys.bind pol.mono (Obeys.liftRes _ (fun _ => True)) (fun m => ?_)
          (fun _ _ _ _ _ _ => trivial)
        exact ih _
    · obtain ⟨as, e⟩ := r
      cases e with
      | some e => exact (pure_error_not_good _ _ _ _ _ hrun hb).elim
      | none => rfl

theorem SetProjectTriggers_obeys {env : Env}
    {Q : List Event → List Event → Event → Prop} {strict : Prop}
    (pol : Policy env Q strict) (A : String) (d : DeploymentProject) :
    Obeys Q strict (SetProjectTriggers env A d) (fun r => r.2 = none) := by
  simp only [SetProjectTriggers, Go.bind_def]
  refine Obeys.bind pol.mono (getProjectTriggers_obeys pol A)
    (fun r => ?_) (fun r t b t' hrun hb => ?_)
  · obtain ⟨x, e⟩ := r
    cases e with
    | some e => exact Obeys.pure _ _
    | none => exact Obeys.pure _ _
  · obtain ⟨x, e⟩ := r
    cases e with
    | some e => exact (pure_error_not_good _ _ _ _ _ hrun hb).elim
    | none => rfl

theorem SetProjectRules_obeys {env : Env}
    {Q : List Event → List Event → Event → Prop} {strict : Prop}
    (pol : Policy env Q strict) (A : String) (d : DeploymentProject) :
    Obeys Q strict (SetProjectRules env A d) (fun r => r.2 = none) := by
  simp only [SetProjectRules, Go.bind_def]
  refine Obeys.bind pol.mono (getProjectRules_obeys pol A)
    (fun r => ?_) (fun r t b t' hrun hb => ?_)
  · obtain ⟨x, e⟩ := r
    cases e with
    | some e => exact Obeys.pure _ _
    | none => exact Obeys.pure _ _
  · obtain ⟨x, e⟩ := r
    cases e with
    | some e => exact (pure_error_not_good _ _ _ _ _ hrun hb).elim
    | none => rfl

theorem SetProjectAssets_obeys {env : Env}
    {Q : List Event → List Event → Event → Prop} {strict : Prop}
    (pol : Policy env Q strict) (A : String) (d : DeploymentProject) :
    Obeys Q strict (SetProjectAssets env A d) (fun r => r.2 = none) := by
  simp only [SetProjectAssets, Go.bind_def]
  refine Obeys.bind pol.mono (SetProjectPackages_obeys pol A d)
    (fun r => ?_) (fun r t b t' hrun hb => ?_)
  · obtain ⟨d1, e⟩ := r
    cases e with
    | some e => exact Obeys.pure _ _
    | none =>
      simp only []
      refine Obeys.bind pol.mono (setPackageActionsAndSequencesLoop_obeys pol A _ d1)
        (fun r => ?_) (fun r t b t' hrun hb => ?_)
      · obtain ⟨d2, e⟩ := r
        cases e with
        | some e => exact Obeys.pure _ _
        | none =>
          simp only []
          refine Obeys.bind pol.mono (SetProjectTriggers_obeys pol A d2)
            (fun r => ?_) (fun r t b t' hrun hb => ?_)
          · obtain ⟨d3, e⟩ := r
            cases e with
            | some e => exact Obeys.pure _ _
            | none =>
              simp only []
              refine Obeys.bind pol.mono (SetProjectRules_obeys pol A d3)
                (fun r => ?_) (fun r t b t' hrun hb => ?_)
              · obtain ⟨d4, e⟩ := r
                cases e with
                | some e => exact Obeys.pure _ _
                | none => exact Obeys.pure _ _
              · obtain ⟨d4, e⟩ := r
                cases e with
                | some e => exact (pure_error_not_good _ _ _ _ _ hrun hb).elim
                | none => rfl
          · obtain ⟨d3, e⟩ := r
            cases e with
            | some e => exact (pure_error_not_good _ _ _ _ _ hrun hb).elim
            | none => rfl
      · obtain ⟨d2, e⟩ := r
        cases e with
        | some e => exact (pure_error_not_good _ _ _ _ _ hrun hb).elim
        | none => rfl
  · obtain ⟨d1, e⟩ := r
    cases e with
    | some e => exact (pure_error_not_good _ _ _ _ _ hrun hb).elim
    | none => rfl

/-- Discovery calls only List and Get: the history grows by events none of
which is an `unDeployAssets`. -/
theorem discovery_readOnly {α : Type} (x : Go α) (good : α → Prop)
    (hx : Obeys (fun _ _ e => e.isUnDeploy = false) False x good)
    (t t' : List Event) (a : α) (hrun : x t = Res.val (a, t')) :
    ∃ new, t' = t ++ new ∧ ∀ ev ∈ new, ev.isUnDeploy = false := by
  obtain ⟨hpre, hall⟩ := hx t a t' hrun
  obtain ⟨new, rfl⟩ := hpre
  refine ⟨new, rfl, fun ev hev => ?_⟩
  obtain ⟨l1, l2, rfl⟩ := List.append_of_mem hev
  refine hall (fun hf => hf.elim) (t ++ l1) ev (List.prefix_append _ _) ?_
  refine ⟨l2, ?_⟩
  simp

/-! ## Undeploying a project -/

theorem printDependencies_run (l : List DeploymentProject) (t : List Event) :
    printDependencies l t = Res.val ((), t ++ l.map Event.printDeploymentAssets) := by
  induction l generalizing t with
  | nil => simp [printDependencies, Go.pure_apply]
  | cons p rest ih =>
    simp only [printDependencies, Go.bind_def, printDeploymentAssets]
    rw [Go.bind_of_val _ _ t _ _ (call_apply _ _ t), ih]
    simp

theorem unDeployDependencies_all (env : Env) (ds : List DeploymentProject) (t : List Event)
    (hall : ∀ pre x post, ds = pre ++ x :: post →
      env.unDeployAssets (t ++ pre.map Event.unDeployAssets) x = none) :
    unDeployDependencies env ds t = Res.val (none, t ++ ds.map Event.unDeployAssets) := by
  induction ds generalizing t with
  | nil => simp [unDeployDependencies, Go.pure_apply]
  | cons p rest ih =>
    simp only [unDeployDependencies, Go.bind_def, unDeployAssets]
    rw [Go.bind_of_val _ _ t _ _ (call_apply _ _ t)]
    have h0 := hall [] p rest rfl
    simp only [List.map_nil, List.append_nil] at h0
    rw [h0]
    simp only []
    rw [ih]
    · simp
    · intro pre x post hrest
      have := hall (p :: pre) x post (by rw [hrest]; rfl)
      simpa using this

theorem unDeployDependencies_first_failure (env : Env) (pre : List DeploymentProject)
    (x : DeploymentProject) (post : List DeploymentProject) (e : GoError) (t : List Event)
    (hpre : ∀ p1 y p2, pre = p1 ++ y :: p2 →
      env.unDeployAssets (t ++ p1.map Event.unDeployAssets) y = none)
    (hfail : env.unDeployAssets (t ++ pre.map Event.unDeployAssets) x = some e) :
    unDeployDependencies env (pre ++ x :: post) t =
      Res.val (some e, t ++ (pre ++ [x]).map Event.unDeployAssets) := by
  induction pre generalizing t with
  | nil =>
    simp only [List.nil_append, unDeployDependencies, Go.bind_def, unDeployAssets]
    rw [Go.bind_of_val _ _ t _ _ (call_apply _ _ t)]
    simp only [List.map_nil, List.append_nil] at hfail
    rw [hfail]
    simp [Go.pure_apply]
  | cons p rest ih =>
    simp only [List.cons_append, unDeployDependencies, Go.bind_def, unDeployAssets]
    rw [Go.bind_of_val _ _ t _ _ (call_apply _ _ t)]
    have h0 := hpre [] p rest rfl
    simp only [List.map_nil, List.append_nil] at h0
    rw [h0]
    simp only []
    have hih := ih (t ++ [Event.unDeployAssets p])
      (by
        intro p1 y p2 hrest
        have := hpre (p :: p1) y p2 (by rw [hrest]; rfl)
        simpa using this)
      (by simpa using hfail)
    refine hih.trans ?_
    simp

/-- C7: the code drops the error of `SetProjectAssets`. On a remote that
lists `ext-pkg` and `gone-pkg` for project `EXT`, with every Get of `gone-pkg`
failing, `SetProjectAssets` returns a client error, and
`UnDeployProjectAssets` nevertheless goes on, undeploys the dependency
`lib-pkg` and the partly collected project, and returns nil. -/
theorem C7_UnDeployProjectAssets_drops_SetProjectAssets_error :
    SetProjectAssets (envOf goneListing) "EXT" NewDeploymentProject [] =
      Res.val ((extDeployment,
          some (GoError.whiskClient ⟨"not found"⟩ EntityKind.package)),
        [Event.PackagesList, Event.PackagesGet "ext-pkg", Event.PackagesGet "gone-pkg",
          Event.PackagesGet "gone-pkg", Event.PackagesGet "gone-pkg"]) ∧
    UnDeployProjectAssets (envOf goneListing) ⟨"EXT", false⟩ NewDeploymentProject [] =
      Res.val ((extDeployment, none),
        [Event.PackagesList, Event.PackagesGet "ext-pkg", Event.PackagesGet "gone-pkg",
          Event.PackagesGet "gone-pkg", Event.PackagesGet "gone-pkg",
          Event.PackagesList, Event.PackagesGet "lib-pkg", Event.ActionsList "lib-pkg",
          Event.TriggersList, Event.RulesList,
          Event.unDeployAssets libAssets, Event.unDeployAssets extDeployment]) :=
  ⟨rfl, rfl⟩

/-- C8: outside preview mode, once discovery has returned the dependency sets
`deps` without error, `unDeployAssets` is invoked on them in list order; if all
invocations succeed it is then invoked on the project's own asset set and its
result is the result of `UnDeployProjectAssets`; if the invocation on one of
them fails, that error is returned and nothing is invoked after it. -/
theorem C8_UnDeployProjectAssets_deletes_in_order (env : Env) (flags : Flags)
    (d d1 : DeploymentProject) (e1 : Option GoError) (t t1 t2 : List Event)
    (deps : List DeploymentProject)
    (hprev : flags.Preview = false)
    (hassets : SetProjectAssets env flags.ProjectName d t = Res.val ((d1, e1), t1))
    (hdeps : SetProjectDependencies env flags.ProjectName d1 t1 =
      Res.val ((deps, none), t2)) :
    ((∀ pre x post, deps = pre ++ x :: post →
        env.unDeployAssets (t2 ++ pre.map Event.unDeployAssets) x = none) →
      UnDeployProjectAssets env flags d t =
        Res.val ((d1, env.unDeployAssets (t2 ++ deps.map Event.unDeployAssets) d1),
          t2 ++ deps.map Event.unDeployAssets ++ [Event.unDeployAssets d1])) ∧
    (∀ pre x post e, deps = pre ++ x :: post →
      (∀ p1 y p2, pre = p1 ++ y :: p2 →
        env.unDeployAssets (t2 ++ p1.map Event.unDeployAssets) y = none) →
      env.unDeployAssets (t2 ++ pre.map Event.unDeployAssets) x = some e →
      UnDeployProjectAssets env flags d t =
        Res.val ((d1, some e), t2 ++ (pre ++ [x]).map Event.unDeployAssets)) := by
  have hstart : UnDeployProjectAssets env flags d t =
      Go.bind (unDeployDependencies env deps) (fun err =>
        match err with
        | some e => Go.pure (d1, some e)
        | none => Go.bind (unDeployAssets env d1) (fun r => Go.pure (d1, r))) t2 := by
    simp only [UnDeployProjectAssets, Go.bind_def]
    rw [Go.bind_of_val _ _ t _ _ hassets]
    simp only []
    rw [Go.bind_of_val _ _ t1 _ _ hdeps]
    simp only [hprev, Bool.false_eq_true, if_false]
  constructor
  · intro hall
    rw [hstart, Go.bind_of_val _ _ t2 _ _ (unDeployDependencies_all env deps t2 hall)]
    rfl
  · intro pre x post e hsplit hpre hfail
    rw [hstart, hsplit,
      Go.bind_of_val _ _ t2 _ _ (unDeployDependencies_first_failure env pre x post e t2 hpre hfail)]
    rfl

/-- C9: in preview mode, once `SetProjectDependencies` has succeeded,
`UnDeployProjectAssets` returns nil after printing the project's asset set and
the dependency sets; the whole call adds no `unDeployAssets` invocation to the
history. -/
theorem C9_preview_performs_no_deletion (env : Env) (flags : Flags)
    (d d1 : DeploymentProject) (e1 : Option GoError) (t t1 t2 : List Event)
    (deps : List DeploymentProject)
    (hprev : flags.Preview = true)
    (hassets : SetProjectAssets env flags.ProjectName d t = Res.val ((d1, e1), t1))
    (hdeps : SetProjectDependencies env flags.ProjectName d1 t1 =
      Res.val ((deps, none), t2)) :
    UnDeployProjectAssets env flags d t =
        Res.val ((d1, none),
          t2 ++ Event.printDeploymentAssets d1 :: deps.map Event.printDeploymentAssets) ∧
    ∃ new, t2 ++ Event.printDeploymentAssets d1 :: deps.map Event.printDeploymentAssets =
        t ++ new ∧
      ∀ ev ∈ new, ev.isUnDeploy = false := by
  constructor
  · simp only [UnDeployProjectAssets, Go.bind_def]
    rw [Go.bind_of_val _ _ t _ _ hassets]
    simp only []
    rw [Go.bind_of_val _ _ t1 _ _ hdeps]
    simp only [hprev, if_true, printDeploymentAssets]
    rw [Go.bind_of_val _ _ t2 _ _ (call_apply _ _ t2)]
    rw [Go.bind_of_val _ _ _ _ _ (printDependencies_run deps _)]
    simp [Go.pure_apply]
  · obtain ⟨n1, h1, hn1⟩ := discovery_readOnly _ _
      (SetProjectAssets_obeys (readOnlyPolicy env) flags.ProjectName d) t t1 _ hassets
    obtain ⟨n2, h2, hn2⟩ := discovery_readOnly _ _
      (SetProjectDependencies_obeys (readOnlyPolicy env) flags.ProjectName d1) t1 t2 _ hdeps
    refine ⟨n1 ++ n2 ++ Event.printDeploymentAssets d1 ::
      deps.map Event.printDeploymentAssets, ?_, ?_⟩
    · rw [h2, h1]
      simp
    · intro ev hev
      simp only [List.mem_append, List.mem_cons, List.mem_map] at hev
      rcases hev with (hev | hev) | hev | ⟨p, -, hev⟩
      · exact hn1 ev hev
      · exact hn2 ev hev
      · rw [hev]
        rfl
      · rw [← hev]
        rfl

/-- C8 at the remote holding `ext-pkg`, `lib-pkg` and an untagged package:
when every deletion succeeds, `lib-pkg` is undeployed, then the project; when
every deletion fails, the error of the first one is returned and the project
is not undeployed. -/
theorem C8_UnDeployProjectAssets_deletes_in_order_witness :
    UnDeployProjectAssets (envOf (packagesOnly [extPkg, libPkg, plainPkg]))
        ⟨"EXT", false⟩ NewDeploymentProject [] =
      Res.val ((extDeployment,
          (envOf (packagesOnly [extPkg, libPkg, plainPkg])).unDeployAssets
            (extDiscovery ++ [libAssets].map Event.unDeployAssets) extDeployment),
        extDiscovery ++ [libAssets].map Event.unDeployAssets ++
          [Event.unDeployAssets extDeployment]) ∧
    UnDeployProjectAssets (envFailingUnDeploy (packagesOnly [extPkg, libPkg, plainPkg]))
        ⟨"EXT", false⟩ NewDeploymentProject [] =
      Res.val ((extDeployment, some (GoError.other "delete failed")),
        extDiscovery ++ ([] ++ [libAssets]).map Event.unDeployAssets) :=
  ⟨(C8_UnDeployProjectAssets_deletes_in_order
      (envOf (packagesOnly [extPkg, libPkg, plainPkg])) ⟨"EXT", false⟩
      NewDeploymentProject extDeployment none [] extOwnDiscovery extDiscovery [libAssets]
      rfl rfl rfl).1 (fun _ _ _ _ => rfl),
   (C8_UnDeployProjectAssets_deletes_in_order
      (envFailingUnDeploy (packagesOnly [extPkg, libPkg, plainPkg])) ⟨"EXT", false⟩
      NewDeploymentProject extDeployment none [] extOwnDiscovery extDiscovery [libAssets]
      rfl rfl rfl).2 [] libAssets [] (GoError.other "delete failed") rfl
      (fun _ _ _ h => absurd h (by simp)) rfl⟩

/-- C9 at the remote holding `ext-pkg`, `lib-pkg` and an untagged package, in
preview mode. -/
theorem C9_preview_performs_no_deletion_witness :
    UnDeployProjectAssets (envOf (packagesOnly [extPkg, libPkg, plainPkg]))
        ⟨"EXT", true⟩ NewDeploymentProject [] =
      Res.val ((extDeployment, none),
        extDiscovery ++ Event.printDeploymentAssets extDeployment ::
          [libAssets].map Event.printDeploymentAssets) ∧
    ∃ new, extDiscovery ++ Event.printDeploymentAssets extDeployment ::
          [libAssets].map Event.printDeploymentAssets = [] ++ new ∧
      ∀ ev ∈ new, ev.isUnDeploy = false :=
  C9_preview_performs_no_deletion (envOf (packagesOnly [extPkg, libPkg, plainPkg]))
    ⟨"EXT", true⟩ NewDeploymentProject extDeployment none [] extOwnDiscovery extDiscovery
    [libAssets] rfl rfl rfl

/-! ## Membership filter and reference parser -/

theorem isManagedEntity_obj (m : List (String × JVal)) (X : String) :
    (isManagedEntity (JVal.obj m) X = Res.val true ∧
        mapIndex m OW_PROJECT_NAME = JVal.str X) ∨
    (isManagedEntity (JVal.obj m) X = Res.val false ∧
        mapIndex m OW_PROJECT_NAME ≠ JVal.str X) := by
  simp only [isManagedEntity, assertMap]
  cases h : mapIndex m OW_PROJECT_NAME <;> simp [ifaceEqString]
  rename_i s'
  by_cases hs : s' = X <;> simp [hs]

/-- C3: for an annotation that is nil or a mapping, `isManagedEntity` answers
true exactly when the annotation is a mapping whose project-name entry is the
string `X` itself, and false otherwise; it answers false for the nil
annotation, for a mapping without the project-name key (also for the empty
project name), for any other project name, and the comparison is
case-sensitive. -/
theorem C3_isManagedEntity_iff :
    (∀ X : String, isManagedEntity JVal.null X = Res.val false) ∧
    (∀ (m : List (String × JVal)) (X : String),
      isManagedEntity (JVal.obj m) X = Res.val true ↔
        mapIndex m OW_PROJECT_NAME = JVal.str X) ∧
    (∀ (m : List (String × JVal)) (X : String),
      isManagedEntity (JVal.obj m) X = Res.val false ↔
        mapIndex m OW_PROJECT_NAME ≠ JVal.str X) ∧
    (∀ (m : List (String × JVal)) (X : String),
      mapIndex m OW_PROJECT_NAME = JVal.null →
        isManagedEntity (JVal.obj m) X = Res.val false) ∧
    (∀ (m : List (String × JVal)) (X Y : String),
      mapIndex m OW_PROJECT_NAME = JVal.str Y → Y ≠ X →
        isManagedEntity (JVal.obj m) X = Res.val false) ∧
    isManagedEntity (JVal.obj []) "" = Res.val false ∧
    isManagedEntity (JVal.obj [("projectName", JVal.str "Proj")]) "proj" = Res.val false ∧
    isManagedEntity (JVal.obj [("projectName", JVal.str "Proj")]) "Proj" = Res.val true := by
  have hT : ∀ (m : List (String × JVal)) (X : String),
      isManagedEntity (JVal.obj m) X = Res.val true ↔
        mapIndex m OW_PROJECT_NAME = JVal.str X := by
    intro m X
    rcases isManagedEntity_obj m X with ⟨h1, h2⟩ | ⟨h1, h2⟩
    · simp [h1, h2]
    · simp [h1, h2]
  have hF : ∀ (m : List (String × JVal)) (X : String),
      isManagedEntity (JVal.obj m) X = Res.val false ↔
        mapIndex m OW_PROJECT_NAME ≠ JVal.str X := by
    intro m X
    rcases isManagedEntity_obj m X with ⟨h1, h2⟩ | ⟨h1, h2⟩
    · simp [h1, h2]
    · simp [h1, h2]
  refine ⟨fun _ => rfl, hT, hF, ?_, ?_, ?_, ?_, ?_⟩
  · intro m X h
    rw [hF, h]
    simp
  · intro m X Y h hne
    rw [hF, h]
    simp [hne]
  · rw [hF]; simp [mapIndex]
  · rw [hF]; simp [mapIndex, OW_PROJECT_NAME]
  · rw [hT]; simp [mapIndex, OW_PROJECT_NAME]

/-- C4: `filterPackageName` returns the text after the second `/` of the
reference when it has at least two `/`, and the empty string otherwise; so
`/ns/pkg` gives `pkg`, `ns/pkg` and `/ns/` give the empty string, and `/a/b/c`
gives `b/c`. -/
theorem C4_filterPackageName_after_second_slash :
    (∀ ref : String, filterPackageName ref = textAfterSecondSlash ref) ∧
    filterPackageName "/ns/pkg" = "pkg" ∧
    filterPackageName "ns/pkg" = "" ∧
    filterPackageName "/ns/" = "" ∧
    filterPackageName "/a/b/c" = "b/c" :=
  ⟨filterPackageName_data, by decide, by decide, by decide, by decide⟩

/-- C5, as stated, fails: `ns/x/pkg` does not start with `/` and `//pkg` has
an empty namespace segment, neither has the shape `/namespace/packageName`,
and both resolve to `pkg`. -/
theorem C5_counterexample_unshaped_refs_resolve :
    ¬ WellShapedRef "ns/x/pkg" ∧ filterPackageName "ns/x/pkg" = "pkg" ∧
    ¬ WellShapedRef "//pkg" ∧ filterPackageName "//pkg" = "pkg" := by
  refine ⟨?_, by decide, ?_, by decide⟩
  · rintro ⟨ns, pkg, _, _, _, h⟩
    have h0 := congrArg List.head? h
    simp at h0
  · rintro ⟨ns, pkg, hns, hno, _, h⟩
    cases ns with
    | nil => exact hns rfl
    | cons c cs =>
      have h1 : ("//pkg" : String).data = ['/', '/', 'p', 'k', 'g'] := by decide
      rw [h1] at h
      simp only [List.cons_append, List.cons.injEq, true_and] at h
      exact hno (by simp [← h.1])

/-- C5, amended: `filterPackageName` returns the empty string exactly for the
references that are not of the shape `a/b/p` with `a` and `b` free of `/`
(either may be empty) and `p` not empty. -/
theorem C5_filterPackageName_empty_iff (ref : String) :
    filterPackageName ref = "" ↔ ¬ TwoSlashRef ref := by
  rw [← filterPackageName_ne_empty_iff]
  simp

/-- C5, amended, at the reference `ns/pkg`, which has a single `/`. -/
theorem C5_filterPackageName_empty_iff_witness :
    filterPackageName "ns/pkg" = "" ∧ ¬ TwoSlashRef "ns/pkg" :=
  ⟨by decide, (C5_filterPackageName_empty_iff "ns/pkg").mp (by decide)⟩

/-! ## Listing failures in the collectors -/

/-- C11: when the trigger listing fails, `getProjectTriggers` returns the empty
map and no error, and `SetProjectTriggers` returns nil and sets the project's
triggers to the empty map; likewise for the rule listing, `getProjectRules`
and `SetProjectRules`. -/
theorem C11_trigger_and_rule_listing_failure_reads_as_empty (env : Env) (A : String)
    (d : DeploymentProject) (t : List Event) :
    (∀ e, env.Client.TriggersList t = Except.error e →
      getProjectTriggers env A t = Res.val (([], none), t ++ [Event.TriggersList]) ∧
      SetProjectTriggers env A d t =
        Res.val ((⟨d.Packages, [], d.Rules⟩, none), t ++ [Event.TriggersList])) ∧
    (∀ e, env.Client.RulesList t = Except.error e →
      getProjectRules env A t = Res.val (([], none), t ++ [Event.RulesList]) ∧
      SetProjectRules env A d t =
        Res.val ((⟨d.Packages, d.Triggers, []⟩, none), t ++ [Event.RulesList])) := by
  constructor
  · intro e he
    have h1 : getProjectTriggers env A t = Res.val (([], none), t ++ [Event.TriggersList]) := by
      simp only [getProjectTriggers, Go.bind_def]
      rw [Go.bind_of_val _ _ t _ _ (call_apply _ _ t), he]
      rfl
    refine ⟨h1, ?_⟩
    simp only [SetProjectTriggers, Go.bind_def]
    rw [Go.bind_of_val _ _ t _ _ h1]
    rfl
  · intro e he
    have h1 : getProjectRules env A t = Res.val (([], none), t ++ [Event.RulesList]) := by
      simp only [getProjectRules, Go.bind_def]
      rw [Go.bind_of_val _ _ t _ _ (call_apply _ _ t), he]
      rfl
    refine ⟨h1, ?_⟩
    simp only [SetProjectRules, Go.bind_def]
    rw [Go.bind_of_val _ _ t _ _ h1]
    rfl

/-- C11 on the remote whose listings all fail, for the project `EXT` with
`ext-pkg` collected. -/
theorem C11_trigger_and_rule_listing_failure_reads_as_empty_witness :
    (getProjectTriggers (envOf listingsDown) "EXT" [] =
        Res.val (([], none), [] ++ [Event.TriggersList]) ∧
      SetProjectTriggers (envOf listingsDown) "EXT" extDeployment [] =
        Res.val ((⟨extDeployment.Packages, [], extDeployment.Rules⟩, none),
          [] ++ [Event.TriggersList])) ∧
    (getProjectRules (envOf listingsDown) "EXT" [] =
        Res.val (([], none), [] ++ [Event.RulesList]) ∧
      SetProjectRules (envOf listingsDown) "EXT" extDeployment [] =
        Res.val ((⟨extDeployment.Packages, extDeployment.Triggers, []⟩, none),
          [] ++ [Event.RulesList])) :=
  ⟨(C11_trigger_and_rule_listing_failure_reads_as_empty (envOf listingsDown) "EXT"
      extDeployment []).1 ⟨"unavailable"⟩ rfl,
   (C11_trigger_and_rule_listing_failure_reads_as_empty (envOf listingsDown) "EXT"
      extDeployment []).2 ⟨"unavailable"⟩ rfl⟩

/-- C12, as stated, fails: when the action listing of `ext-pkg` fails,
`getPackageActionsAndSequences` returns the listing error and
`SetPackageActionsAndSequences` returns it too. -/
theorem C12_counterexample_action_listing_failure_is_returned :
    actionsDown.ActionsList [] "ext-pkg" = Except.error ⟨"unavailable"⟩ ∧
    getPackageActionsAndSequences (envOf actionsDown) "ext-pkg" "EXT" [] =
      Res.val ((([], []), some (GoError.wsk ⟨"unavailable"⟩)),
        [Event.ActionsList "ext-pkg"]) ∧
    SetPackageActionsAndSequences (envOf actionsDown) "EXT" extDeployment [] =
      Res.val ((extDeployment, some (GoError.wsk ⟨"unavailable"⟩)),
        [Event.ActionsList "ext-pkg"]) :=
  ⟨rfl, rfl, rfl⟩

/-- C12, amended: a failed package listing makes `SetProjectPackages` return
nil with the project unchanged; a failed action listing makes
`getPackageActionsAndSequences` return empty maps together with the listing
error, the loop of `SetPackageActionsAndSequences` stops with that error at
the package whose listing failed, and a run of `SetPackageActionsAndSequences`
in which an action listing failed returns a non-nil error. -/
theorem C12_package_listing_swallowed_action_listing_returned (env : Env) (A : String)
    (d : DeploymentProject) (t : List Event) :
    (∀ e, env.Client.PackagesList t = Except.error e →
      SetProjectPackages env A d t = Res.val ((d, none), t ++ [Event.PackagesList])) ∧
    (∀ pn e, env.Client.ActionsList t pn = Except.error e →
      getPackageActionsAndSequences env pn A t =
        Res.val ((([], []), some (GoError.wsk e)), t ++ [Event.ActionsList pn])) ∧
    (∀ k pkg rest e, env.Client.ActionsList t pkg.Package.Name = Except.error e →
      setPackageActionsAndSequencesLoop env A ((k, pkg) :: rest) d t =
        Res.val ((d, some (GoError.wsk e)), t ++ [Event.ActionsList pkg.Package.Name])) ∧
    (∀ d' err t', SetPackageActionsAndSequences env A d t = Res.val ((d', err), t') →
      ∀ h n, t <+: h → (h ++ [Event.ActionsList n]) <+: t' →
        (Event.ActionsList n).failsAt env h = true → err ≠ none) := by
  have hget : ∀ pn e, env.Client.ActionsList t pn = Except.error e →
      getPackageActionsAndSequences env pn A t =
        Res.val ((([], []), some (GoError.wsk e)), t ++ [Event.ActionsList pn]) := by
    intro pn e he
    simp only [getPackageActionsAndSequences, Go.bind_def]
    rw [Go.bind_of_val _ _ t _ _ (call_apply _ _ t), he]
    rfl
  refine ⟨?_, hget, ?_, ?_⟩
  · intro e he
    simp only [SetProjectPackages, Go.bind_def]
    rw [Go.bind_of_val _ _ t _ _ (call_apply _ _ t), he]
    rfl
  · intro k pkg rest e he
    simp only [setPackageActionsAndSequencesLoop, Go.bind_def]
    rw [Go.bind_of_val _ _ t _ _ (hget _ e he)]
    rfl
  · intro d' err t' hrun h n h1 h2 hfail herr
    obtain ⟨-, hall⟩ := setPackageActionsAndSequencesLoop_obeys (settledPolicy env) A
      (env.rangePackages d.Packages) d t _ t' hrun
    have hs := hall (fun _ => herr) h _ h1 h2
    simp only [Settled, Event.isGet, Bool.false_eq_true, if_false] at hs
    rw [hs] at hfail
    simp at hfail

/-- C12, amended, on the remote whose package listing fails and on the remote
whose action listing fails. -/
theorem C12_package_listing_swallowed_action_listing_returned_witness :
    SetProjectPackages (envOf listingsDown) "EXT" NewDeploymentProject [] =
      Res.val ((NewDeploymentProject, none), [] ++ [Event.PackagesList]) ∧
    getPackageActionsAndSequences (envOf actionsDown) "ext-pkg" "EXT" [] =
      Res.val ((([], []), some (GoError.wsk ⟨"unavailable"⟩)),
        [] ++ [Event.ActionsList "ext-pkg"]) :=
  ⟨(C12_package_listing_swallowed_action_listing_returned (envOf listingsDown) "EXT"
      NewDeploymentProject []).1 ⟨"unavailable"⟩ rfl,
   (C12_package_listing_swallowed_action_listing_returned (envOf actionsDown) "EXT"
      NewDeploymentProject []).2.1 "ext-pkg" ⟨"unavailable"⟩ rfl⟩

/-! ## A Get that fails on every attempt stops the collector -/

theorem retryLoop_fail_shape {α : Type} (n : Nat) (ev : Event)
    (answer : List Event → Except WskError α) (t : List Event)
    (hfail : ∀ j, j < n + 1 → ∃ e, answer (t ++ List.replicate j ev) = Except.error e) :
    ∃ e, answer (t ++ List.replicate n ev) = Except.error e ∧
      retryLoop n (call ev answer) t =
        Res.val (Except.error e, t ++ List.replicate (n + 1) ev) := by
  induction n generalizing t with
  | zero =>
    obtain ⟨e, he⟩ := hfail 0 (by omega)
    simp only [List.replicate_zero, List.append_nil] at he
    exact ⟨e, by simpa using he, by simp [retryLoop, call_apply, he]⟩
  | succ n ih =>
    obtain ⟨e0, he0⟩ := hfail 0 (by omega)
    simp only [List.replicate_zero, List.append_nil] at he0
    have hrest : ∀ j, j < n + 1 →
        ∃ e, answer ((t ++ [ev]) ++ List.replicate j ev) = Except.error e := by
      intro j hj
      obtain ⟨e, he⟩ := hfail (j + 1) (by omega)
      refine ⟨e, ?_⟩
      rw [List.append_assoc]
      exact he
    obtain ⟨e, he, hrun⟩ := ih (t ++ [ev]) hrest
    refine ⟨e, ?_, ?_⟩
    · rw [List.append_assoc] at he
      exact he
    · simp only [retryLoop, Go.bind_def]
      rw [Go.bind_of_val _ _ t _ _ (call_apply _ _ t), he0]
      simp only []
      rw [hrun, List.append_assoc]
      rfl

theorem retry_fail_shape {α : Type} (k : Nat) (ev : Event)
    (answer : List Event → Except WskError α) (t : List Event)
    (hfail : ∀ j, j < max 1 k → ∃ e, answer (t ++ List.replicate j ev) = Except.error e) :
    ∃ e, answer (t ++ List.replicate (max 1 k - 1) ev) = Except.error e ∧
      retry k (call ev answer) t =
        Res.val (Except.error e, t ++ List.replicate (max 1 k) ev) := by
  have h1 : k - 1 + 1 = max 1 k := by omega
  have h2 : max 1 k - 1 = k - 1 := by omega
  obtain ⟨e, he, hrun⟩ := retryLoop_fail_shape (k - 1) ev answer t
    (fun j hj => hfail j (by omega))
  refine ⟨e, by rw [h2]; exact he, ?_⟩
  unfold retry
  rw [hrun, h1]

theorem getProjectTriggersLoop_append (env : Env) (A : String) (pre rest : List Trigger)
    (acc acc1 : List (String × Trigger)) (t t1 : List Event)
    (h : getProjectTriggersLoop env A pre acc t = Res.val ((acc1, none), t1)) :
    getProjectTriggersLoop env A (pre ++ rest) acc t =
      getProjectTriggersLoop env A rest acc1 t1 := by
  induction pre generalizing acc t with
  | nil =>
    simp only [getProjectTriggersLoop, Go.pure_apply, Res.val.injEq, Prod.mk.injEq] at h
    rw [List.nil_append, h.1.1, h.2]
  | cons p pre ih =>
    simp only [List.cons_append, getProjectTriggersLoop, Go.bind_def] at h ⊢
    rw [Go.bind_eq_val] at h
    obtain ⟨m, t0, hm, h⟩ := h
    rw [Go.bind_of_val _ _ _ _ _ hm]
    cases m with
    | false => exact ih _ _ h
    | true =>
      simp only [if_true] at h ⊢
      rw [Go.bind_eq_val] at h
      obtain ⟨r, t2, hr, h⟩ := h
      rw [Go.bind_of_val _ _ _ _ _ hr]
      cases r with
      | error e => simp [Go.pure_apply] at h
      | ok x => exact ih _ _ h

theorem getProjectTriggersLoop_head_fails (env : Env) (A : String) (x : Trigger)
    (post : List Trigger) (acc : List (String × Trigger)) (t : List Event)
    (hm : isManagedEntity (GetValue x.Annotations MANAGED) A = Res.val true)
    (hfail : ∀ j, j < max 1 env.DEFAULT_ATTEMPTS →
      ∃ e, env.Client.TriggersGet (t ++ List.replicate j (Event.TriggersGet x.Name)) x.Name =
        Except.error e) :
    ∃ e, env.Client.TriggersGet
        (t ++ List.replicate (max 1 env.DEFAULT_ATTEMPTS - 1) (Event.TriggersGet x.Name))
        x.Name = Except.error e ∧
      getProjectTriggersLoop env A (x :: post) acc t =
        Res.val ((acc, some (createWhiskClientError e EntityKind.trigger)),
          t ++ List.replicate (max 1 env.DEFAULT_ATTEMPTS) (Event.TriggersGet x.Name)) := by
  obtain ⟨e, he, hrun⟩ := retry_fail_shape env.DEFAULT_ATTEMPTS (Event.TriggersGet x.Name)
    (fun h => env.Client.TriggersGet h x.Name) t hfail
  refine ⟨e, he, ?_⟩
  simp only [getProjectTriggersLoop, Go.bind_def, hm]
  rw [Go.bind_of_val _ _ t _ _ (liftRes_val true t)]
  simp only [if_true]
  rw [Go.bind_of_val _ _ t _ _ hrun]
  rfl

theorem getProjectRulesLoop_append (env : Env) (A : String) (pre rest : List Rule)
    (acc acc1 : List (String × Rule)) (t t1 : List Event)
    (h : getProjectRulesLoop env A pre acc t = Res.val ((acc1, none), t1)) :
    getProjectRulesLoop env A (pre ++ rest) acc t =
      getProjectRulesLoop env A rest acc1 t1 := by
  induction pre generalizing acc t with
  | nil =>
    simp only [getProjectRulesLoop, Go.pure_apply, Res.val.injEq, Prod.mk.injEq] at h
    rw [List.nil_append, h.1.1, h.2]
  | cons p pre ih =>
    simp only [List.cons_append, getProjectRulesLoop, Go.bind_def] at h ⊢
    rw [Go.bind_eq_val] at h
    obtain ⟨m, t0, hm, h⟩ := h
    rw [Go.bind_of_val _ _ _ _ _ hm]
    cases m with
    | false => exact ih _ _ h
    | true =>
      simp only [if_true] at h ⊢
      rw [Go.bind_eq_val] at h
      obtain ⟨r, t2, hr, h⟩ := h
      rw [Go.bind_of_val _ _ _ _ _ hr]
      cases r with
      | error e => simp [Go.pure_apply] at h
      | ok x => exact ih _ _ h

theorem getProjectRulesLoop_head_fails (env : Env) (A : String) (x : Rule)
    (post : List Rule) (acc : List (String × Rule)) (t : List Event)
    (hm : isManagedEntity (GetValue x.Annotations MANAGED) A = Res.val true)
    (hfail : ∀ j, j < max 1 env.DEFAULT_ATTEMPTS →
      ∃ e, env.Client.RulesGet (t ++ List.replicate j (Event.RulesGet x.Name)) x.Name =
        Except.error e) :
    ∃ e, env.Client.RulesGet
        (t ++ List.replicate (max 1 env.DEFAULT_ATTEMPTS - 1) (Event.RulesGet x.Name))
        x.Name = Except.error e ∧
      getProjectRulesLoop env A (x :: post) acc t =
        Res.val ((acc, some (createWhiskClientError e EntityKind.rule)),
          t ++ List.replicate (max 1 env.DEFAULT_ATTEMPTS) (Event.RulesGet x.Name)) := by
  obtain ⟨e, he, hrun⟩ := retry_fail_shape env.DEFAULT_ATTEMPTS (Event.RulesGet x.Name)
    (fun h => env.Client.RulesGet h x.Name) t hfail
  refine ⟨e, he, ?_⟩
  simp only [getProjectRulesLoop, Go.bind_def, hm]
  rw [Go.bind_of_val _ _ t _ _ (liftRes_val true t)]
  simp only [if_true]
  rw [Go.bind_of_val _ _ t _ _ hrun]
  rfl

theorem getPackageActionsAndSequencesLoop_append (env : Env) (pn A : String)
    (pre rest : List Action) (la ls la1 ls1 : List (String × ActionRecord))
    (t t1 : List Event)
    (h : getPackageActionsAndSequencesLoop env pn A pre la ls t =
      Res.val (((la1, ls1), none), t1)) :
    getPackageActionsAndSequencesLoop env pn A (pre ++ rest) la ls t =
      getPackageActionsAndSequencesLoop env pn A rest la1 ls1 t1 := by
  induction pre generalizing la ls t with
  | nil =>
    simp only [getPackageActionsAndSequencesLoop, Go.pure_apply, Res.val.injEq,
      Prod.mk.injEq] at h
    rw [List.nil_append, h.1.1.1, h.1.1.2, h.2]
  | cons p pre ih =>
    simp only [List.cons_append, getPackageActionsAndSequencesLoop, Go.bind_def] at h ⊢
    rw [Go.bind_eq_val] at h
    obtain ⟨m, t0, hm, h⟩ := h
    rw [Go.bind_of_val _ _ _ _ _ hm]
    cases m with
    | false => exact ih _ _ _ h
    | true =>
      simp only [if_true] at h ⊢
      rw [Go.bind_eq_val] at h
      obtain ⟨r, t2, hr, h⟩ := h
      rw [Go.bind_of_val _ _ _ _ _ hr]
      cases r with
      | error e => simp [Go.pure_apply] at h
      | ok x =>
        simp only [] at h ⊢
        cases hx : x.Exec with
        | none => simp [hx] at h
        | some ex =>
          simp only [hx] at h ⊢
          by_cases hk : ex.Kind = YAML_KEY_SEQUENCE
          · simp only [hk, if_true] at h ⊢
            exact ih _ _ _ h
          · simp only [hk, if_false] at h ⊢
            exact ih _ _ _ h

theorem getPackageActionsAndSequencesLoop_head_fails (env : Env) (pn A : String)
    (x : Action) (post : List Action) (la ls : List (String × ActionRecord))
    (t : List Event)
    (hm : isManagedEntity (GetValue x.Annotations MANAGED) A = Res.val true)
    (hfail : ∀ j, j < max 1 env.DEFAULT_ATTEMPTS →
      ∃ e, env.Client.ActionsGet
        (t ++ List.replicate j (Event.ActionsGet (pn ++ PATH_SEPARATOR ++ x.Name)))
        (pn ++ PATH_SEPARATOR ++ x.Name) = Except.error e) :
    ∃ e, env.Client.ActionsGet
        (t ++ List.replicate (max 1 env.DEFAULT_ATTEMPTS - 1)
          (Event.ActionsGet (pn ++ PATH_SEPARATOR ++ x.Name)))
        (pn ++ PATH_SEPARATOR ++ x.Name) = Except.error e ∧
      getPackageActionsAndSequencesLoop env pn A (x :: post) la ls t =
        Res.val (((la, ls), some (createWhiskClientError e EntityKind.action)),
          t ++ List.replicate (max 1 env.DEFAULT_ATTEMPTS)
            (Event.ActionsGet (pn ++ PATH_SEPARATOR ++ x.Name))) := by
  obtain ⟨e, he, hrun⟩ := retry_fail_shape env.DEFAULT_ATTEMPTS
    (Event.ActionsGet (pn ++ PATH_SEPARATOR ++ x.Name))
    (fun h => env.Client.ActionsGet h (pn ++ PATH_SEPARATOR ++ x.Name)) t hfail
  refine ⟨e, he, ?_⟩
  simp only [getPackageActionsAndSequencesLoop, Go.bind_def, hm]
  rw [Go.bind_of_val _ _ t _ _ (liftRes_val true t)]
  simp only [if_true]
  rw [Go.bind_of_val _ _ t _ _ hrun]
  rfl

theorem setProjectPackagesLoop_append (env : Env) (A : String) (pre rest : List Package)
    (d d1 : DeploymentProject) (t t1 : List Event)
    (h : setProjectPackagesLoop env A pre d t = Res.val ((d1, none), t1)) :
    setProjectPackagesLoop env A (pre ++ rest) d t =
      setProjectPackagesLoop env A rest d1 t1 := by
  induction pre generalizing d t with
  | nil =>
    simp only [setProjectPackagesLoop, Go.pure_apply, Res.val.injEq, Prod.mk.injEq] at h
    rw [List.nil_append, h.1.1, h.2]
  | cons p pre ih =>
    simp only [List.cons_append, setProjectPackagesLoop, Go.bind_def] at h ⊢
    rw [Go.bind_eq_val] at h
    obtain ⟨m, t0, hm, h⟩ := h
    rw [Go.bind_of_val _ _ _ _ _ hm]
    cases m with
    | false => exact ih _ _ h
    | true =>
      simp only [if_true] at h ⊢
      rw [Go.bind_eq_val] at h
      obtain ⟨r, t2, hr, h⟩ := h
      rw [Go.bind_of_val _ _ _ _ _ hr]
      cases r with
      | error e => simp [Go.pure_apply] at h
      | ok x => exact ih _ _ h

theorem getPackage_fail_shape (env : Env) (n : String) (t : List Event)
    (hfail : ∀ j, j < max 1 env.DEFAULT_ATTEMPTS →
      ∃ e, env.Client.PackagesGet (t ++ List.replicate j (Event.PackagesGet n)) n =
        Except.error e) :
    ∃ e, env.Client.PackagesGet
        (t ++ List.replicate (max 1 env.DEFAULT_ATTEMPTS - 1) (Event.PackagesGet n)) n =
          Except.error e ∧
      getPackage env n t =
        Res.val (Except.error (createWhiskClientError e EntityKind.package),
          t ++ List.replicate (max 1 env.DEFAULT_ATTEMPTS) (Event.PackagesGet n)) := by
  obtain ⟨e, he, hrun⟩ := retry_fail_shape env.DEFAULT_ATTEMPTS (Event.PackagesGet n)
    (fun h => env.Client.PackagesGet h n) t hfail
  refine ⟨e, he, ?_⟩
  simp only [getPackage, Go.bind_def]
  rw [Go.bind_of_val _ _ t _ _ hrun]
  rfl

theorem setProjectPackagesLoop_head_fails (env : Env) (A : String) (x : Package)
    (post : List Package) (d : DeploymentProject) (t : List Event)
    (hm : isManagedEntity (GetValue x.Annotations MANAGED) A = Res.val true)
    (hfail : ∀ j, j < max 1 env.DEFAULT_ATTEMPTS →
      ∃ e, env.Client.PackagesGet (t ++ List.replicate j (Event.PackagesGet x.Name)) x.Name =
        Except.error e) :
    ∃ e, env.Client.PackagesGet
        (t ++ List.replicate (max 1 env.DEFAULT_ATTEMPTS - 1) (Event.PackagesGet x.Name))
        x.Name = Except.error e ∧
      setProjectPackagesLoop env A (x :: post) d t =
        Res.val ((d, some (createWhiskClientError e EntityKind.package)),
          t ++ List.replicate (max 1 env.DEFAULT_ATTEMPTS) (Event.PackagesGet x.Name)) := by
  obtain ⟨e, he, hrun⟩ := getPackage_fail_shape env x.Name t hfail
  refine ⟨e, he, ?_⟩
  simp only [setProjectPackagesLoop, Go.bind_def, hm]
  rw [Go.bind_of_val _ _ t _ _ (liftRes_val true t)]
  simp only [if_true]
  rw [Go.bind_of_val _ _ t _ _ hrun]
  rfl

/-- C13: in each collector, when the listing succeeds, the resources listed
before `x` have been processed without error, `x` passes `isManagedEntity` and
every attempt of the retried Get of `x` fails, the collector returns the
client error built from the last attempt together with what it had collected,
and the history ends with these attempts: nothing listed after `x` is
fetched. -/
theorem C13_collectors_stop_at_failed_get (env : Env) (A : String) :
    (∀ (d d1 : DeploymentProject) (t t1 : List Event) (pre post : List Package)
        (x : Package),
      env.Client.PackagesList t = Except.ok (pre ++ x :: post) →
      setProjectPackagesLoop env A pre d (t ++ [Event.PackagesList]) =
        Res.val ((d1, none), t1) →
      isManagedEntity (GetValue x.Annotations MANAGED) A = Res.val true →
      (∀ j, j < max 1 env.DEFAULT_ATTEMPTS →
        ∃ e, env.Client.PackagesGet
          (t1 ++ List.replicate j (Event.PackagesGet x.Name)) x.Name = Except.error e) →
      ∃ e, env.Client.PackagesGet
          (t1 ++ List.replicate (max 1 env.DEFAULT_ATTEMPTS - 1) (Event.PackagesGet x.Name))
          x.Name = Except.error e ∧
        SetProjectPackages env A d t =
          Res.val ((d1, some (createWhiskClientError e EntityKind.package)),
            t1 ++ List.replicate (max 1 env.DEFAULT_ATTEMPTS) (Event.PackagesGet x.Name))) ∧
    (∀ (pn : String) (la ls : List (String × ActionRecord)) (t t1 : List Event)
        (pre post : List Action) (x : Action),
      env.Client.ActionsList t pn = Except.ok (pre ++ x :: post) →
      getPackageActionsAndSequencesLoop env pn A pre [] [] (t ++ [Event.ActionsList pn]) =
        Res.val (((la, ls), none), t1) →
      isManagedEntity (GetValue x.Annotations MANAGED) A = Res.val true →
      (∀ j, j < max 1 env.DEFAULT_ATTEMPTS →
        ∃ e, env.Client.ActionsGet
          (t1 ++ List.replicate j (Event.ActionsGet (pn ++ PATH_SEPARATOR ++ x.Name)))
          (pn ++ PATH_SEPARATOR ++ x.Name) = Except.error e) →
      ∃ e, env.Client.ActionsGet
          (t1 ++ List.replicate (max 1 env.DEFAULT_ATTEMPTS - 1)
            (Event.ActionsGet (pn ++ PATH_SEPARATOR ++ x.Name)))
          (pn ++ PATH_SEPARATOR ++ x.Name) = Except.error e ∧
        getPackageActionsAndSequences env pn A t =
          Res.val (((la, ls), some (createWhiskClientError e EntityKind.action)),
            t1 ++ List.replicate (max 1 env.DEFAULT_ATTEMPTS)
              (Event.ActionsGet (pn ++ PATH_SEPARATOR ++ x.Name)))) ∧
    (∀ (acc : List (String × Trigger)) (t t1 : List Event) (pre post : List Trigger)
        (x : Trigger),
      env.Client.TriggersList t = Except.ok (pre ++ x :: post) →
      getProjectTriggersLoop env A pre [] (t ++ [Event.TriggersList]) =
        Res.val ((acc, none), t1) →
      isManagedEntity (GetValue x.Annotations MANAGED) A = Res.val true →
      (∀ j, j < max 1 env.DEFAULT_ATTEMPTS →
        ∃ e, env.Client.TriggersGet
          (t1 ++ List.replicate j (Event.TriggersGet x.Name)) x.Name = Except.error e) →
      ∃ e, env.Client.TriggersGet
          (t1 ++ List.replicate (max 1 env.DEFAULT_ATTEMPTS - 1) (Event.TriggersGet x.Name))
          x.Name = Except.error e ∧
        getProjectTriggers env A t =
          Res.val ((acc, some (createWhiskClientError e EntityKind.trigger)),
            t1 ++ List.replicate (max 1 env.DEFAULT_ATTEMPTS) (Event.TriggersGet x.Name))) ∧
    (∀ (acc : List (String × Rule)) (t t1 : List Event) (pre post : List Rule)
        (x : Rule),
      env.Client.RulesList t = Except.ok (pre ++ x :: post) →
      getProjectRulesLoop env A pre [] (t ++ [Event.RulesList]) =
        Res.val ((acc, none), t1) →
      isManagedEntity (GetValue x.Annotations MANAGED) A = Res.val true →
      (∀ j, j < max 1 env.DEFAULT_ATTEMPTS →
        ∃ e, env.Client.RulesGet
          (t1 ++ List.replicate j (Event.RulesGet x.Name)) x.Name = Except.error e) →
      ∃ e, env.Client.RulesGet
          (t1 ++ List.replicate (max 1 env.DEFAULT_ATTEMPTS - 1) (Event.RulesGet x.Name))
          x.Name = Except.error e ∧
        getProjectRules env A t =
          Res.val ((acc, some (createWhiskClientError e EntityKind.rule)),
            t1 ++ List.replicate (max 1 env.DEFAULT_ATTEMPTS) (Event.RulesGet x.Name))) := by
  refine ⟨?_, ?_, ?_, ?_⟩
  · intro d d1 t t1 pre post x hlist hpre hm hfail
    obtain ⟨e, he, hrun⟩ := setProjectPackagesLoop_head_fails env A x post d1 t1 hm hfail
    refine ⟨e, he, ?_⟩
    simp only [SetProjectPackages, Go.bind_def]
    rw [Go.bind_of_val _ _ t _ _ (call_apply _ _ t), hlist]
    simp only []
    rw [setProjectPackagesLoop_append env A pre (x :: post) d d1 _ t1 hpre, hrun]
  · intro pn la ls t t1 pre post x hlist hpre hm hfail
    obtain ⟨e, he, hrun⟩ :=
      getPackageActionsAndSequencesLoop_head_fails env pn A x post la ls t1 hm hfail
    refine ⟨e, he, ?_⟩
    simp only [getPackageActionsAndSequences, Go.bind_def]
    rw [Go.bind_of_val _ _ t _ _ (call_apply _ _ t), hlist]
    simp only []
    rw [getPackageActionsAndSequencesLoop_append env pn A pre (x :: post) [] [] la ls _ t1
      hpre, hrun]
  · intro acc t t1 pre post x hlist hpre hm hfail
    obtain ⟨e, he, hrun⟩ := getProjectTriggersLoop_head_fails env A x post acc t1 hm hfail
    refine ⟨e, he, ?_⟩
    simp only [getProjectTriggers, Go.bind_def]
    rw [Go.bind_of_val _ _ t _ _ (call_apply _ _ t), hlist]
    simp only []
    rw [getProjectTriggersLoop_append env A pre (x :: post) [] acc _ t1 hpre, hrun]
  · intro acc t t1 pre post x hlist hpre hm hfail
    obtain ⟨e, he, hrun⟩ := getProjectRulesLoop_head_fails env A x post acc t1 hm hfail
    refine ⟨e, he, ?_⟩
    simp only [getProjectRules, Go.bind_def]
    rw [Go.bind_of_val _ _ t _ _ (call_apply _ _ t), hlist]
    simp only []
    rw [getProjectRulesLoop_append env A pre (x :: post) [] acc _ t1 hpre, hrun]

/-- C13 on the remote where `gone-pkg`, listed between `ext-pkg` and
`lib-pkg`, cannot be fetched, and on the remote where the listed action,
trigger and rule cannot be fetched. -/
theorem C13_collectors_stop_at_failed_get_witness :
    (∃ e, goneListing.PackagesGet
          ([Event.PackagesList, Event.PackagesGet "ext-pkg"] ++
            List.replicate (max 1 (envOf goneListing).DEFAULT_ATTEMPTS - 1)
              (Event.PackagesGet gonePkg.Name))
          gonePkg.Name = Except.error e ∧
        SetProjectPackages (envOf goneListing) "EXT" NewDeploymentProject [] =
          Res.val ((extDeployment, some (createWhiskClientError e EntityKind.package)),
            [Event.PackagesList, Event.PackagesGet "ext-pkg"] ++
              List.replicate (max 1 (envOf goneListing).DEFAULT_ATTEMPTS)
                (Event.PackagesGet gonePkg.Name))) ∧
    (∃ e, assetsGone.TriggersGet
          ([Event.TriggersList] ++
            List.replicate (max 1 (envOf assetsGone).DEFAULT_ATTEMPTS - 1)
              (Event.TriggersGet "trig"))
          "trig" = Except.error e ∧
        getProjectTriggers (envOf assetsGone) "EXT" [] =
          Res.val (([], some (createWhiskClientError e EntityKind.trigger)),
            [Event.TriggersList] ++
              List.replicate (max 1 (envOf assetsGone).DEFAULT_ATTEMPTS)
                (Event.TriggersGet "trig"))) :=
  ⟨(C13_collectors_stop_at_failed_get (envOf goneListing) "EXT").1
      NewDeploymentProject extDeployment [] [Event.PackagesList, Event.PackagesGet "ext-pkg"]
      [extPkg] [libPkg] gonePkg rfl rfl rfl (fun _ _ => ⟨⟨"not found"⟩, rfl⟩),
   (C13_collectors_stop_at_failed_get (envOf assetsGone) "EXT").2.2.1
      [] [] [Event.TriggersList] [] [] ⟨"trig", managedBy "EXT" []⟩ rfl rfl rfl
      (fun _ _ => ⟨⟨"not found"⟩, rfl⟩)⟩

/-! ## Actions and sequences -/

theorem mem_keys_mapSet {α : Type} (m : List (String × α)) (k : String) (v : α)
    (k' : String) :
    k' ∈ (mapSet m k v).map Prod.fst ↔ k' ∈ m.map Prod.fst ∨ k' = k := by
  induction m with
  | nil => simp [mapSet]
  | cons kv rest ih =>
    obtain ⟨k0, v0⟩ := kv
    by_cases h : k0 = k
    · subst h
      simp only [mapSet, if_true, List.map_cons, List.mem_cons]
      tauto
    · simp only [mapSet, h, if_false, List.map_cons, List.mem_cons, ih]
      tauto

theorem mem_mapSet {α : Type} (m : List (String × α)) (k : String) (v : α)
    (kv : String × α) (h : kv ∈ mapSet m k v) : kv = (k, v) ∨ kv ∈ m := by
  induction m with
  | nil =>
    simp only [mapSet, List.mem_singleton] at h
    exact Or.inl h
  | cons kv0 rest ih =>
    obtain ⟨k0, v0⟩ := kv0
    by_cases hk : k0 = k
    · simp only [mapSet, hk, if_true, List.mem_cons] at h
      rcases h with h | h
      · exact Or.inl h
      · exact Or.inr (List.mem_cons_of_mem _ h)
    · simp only [mapSet, hk, if_false, List.mem_cons] at h
      rcases h with h | h
      · exact Or.inr (by rw [h]; exact List.mem_cons_self _ _)
      · rcases ih h with h' | h'
        · exact Or.inl h'
        · exact Or.inr (List.mem_cons_of_mem _ h')

theorem getPackageActionsAndSequencesLoop_inv (env : Env) (pn A : String)
    (l : List Action) (la ls la' ls' : List (String × ActionRecord))
    (err : Option GoError) (t t' : List Event)
    (hrun : getPackageActionsAndSequencesLoop env pn A l la ls t =
      Res.val (((la', ls'), err), t')) :
    ((∀ kv ∈ la, IsActionRecord pn kv.2) → ∀ kv ∈ la', IsActionRecord pn kv.2) ∧
    ((∀ kv ∈ ls, IsSequenceRecord pn kv.2) → ∀ kv ∈ ls', IsSequenceRecord pn kv.2) ∧
    (∀ k, (k ∈ la'.map Prod.fst ∨ k ∈ ls'.map Prod.fst) →
      (k ∈ la.map Prod.fst ∨ k ∈ ls.map Prod.fst) ∨ ManagedActionName A l k) ∧
    (err = none → ∀ k,
      ((k ∈ la.map Prod.fst ∨ k ∈ ls.map Prod.fst) ∨ ManagedActionName A l k) →
      (k ∈ la'.map Prod.fst ∨ k ∈ ls'.map Prod.fst)) ∧
    ((l.map Action.Name).Nodup →
      (∀ k, k ∈ la.map Prod.fst → k ∉ ls.map Prod.fst) →
      (∀ a ∈ l, a.Name ∉ la.map Prod.fst ∧ a.Name ∉ ls.map Prod.fst) →
      ∀ k, k ∈ la'.map Prod.fst → k ∉ ls'.map Prod.fst) := by
  induction l generalizing la ls t with
  | nil =>
    simp only [getPackageActionsAndSequencesLoop, Go.pure_apply, Res.val.injEq,
      Prod.mk.injEq] at hrun
    obtain ⟨⟨⟨h1, h2⟩, h3⟩, -⟩ := hrun
    subst h1 h2
    refine ⟨fun h => h, fun h => h, fun k hk => Or.inl hk, fun _ k hk => ?_,
      fun _ h _ => h⟩
    rcases hk with hk | ⟨a, ha, -⟩
    · exact hk
    · simp at ha
  | cons x rest ih =>
    simp only [getPackageActionsAndSequencesLoop, Go.bind_def] at hrun
    rw [Go.bind_eq_val] at hrun
    obtain ⟨m, t0, hm, hrun⟩ := hrun
    rw [liftRes_eq_val] at hm
    obtain ⟨hm, -⟩ := hm
    have hcons : ∀ k, ManagedActionName A (x :: rest) k ↔
        ((x.Name = k ∧ m = true) ∨ ManagedActionName A rest k) := by
      intro k
      unfold ManagedActionName
      constructor
      · rintro ⟨a, ha, hn, hma⟩
        rcases List.mem_cons.mp ha with rfl | ha
        · rw [hm] at hma
          simp only [Res.val.injEq] at hma
          exact Or.inl ⟨hn, hma⟩
        · exact Or.inr ⟨a, ha, hn, hma⟩
      · rintro (⟨hn, hmt⟩ | ⟨a, ha, hn, hma⟩)
        · exact ⟨x, List.mem_cons_self _ _, hn, by rw [hm, hmt]⟩
        · exact ⟨a, List.mem_cons_of_mem _ ha, hn, hma⟩
    cases m with
    | false =>
      obtain ⟨i1, i2, i3, i4, i5⟩ := ih la ls t0 hrun
      refine ⟨i1, i2, ?_, ?_, ?_⟩
      · intro k hk
        rcases i3 k hk with h | h
        · exact Or.inl h
        · exact Or.inr ((hcons k).mpr (Or.inr h))
      · intro he k hk
        apply i4 he k
        rcases hk with h | h
        · exact Or.inl h
        · rcases (hcons k).mp h with ⟨-, hf⟩ | h
          · simp at hf
          · exact Or.inr h
      · intro hnd hdis hfresh
        simp only [List.map_cons, List.nodup_cons] at hnd
        exact i5 hnd.2 hdis (fun a ha => hfresh a (List.mem_cons_of_mem _ ha))
    | true =>
      simp only [if_true] at hrun
      rw [Go.bind_eq_val] at hrun
      obtain ⟨r, t1, -, hrun⟩ := hrun
      cases r with
      | error e =>
        simp only [Go.pure_apply, Res.val.injEq, Prod.mk.injEq] at hrun
        obtain ⟨⟨⟨h1, h2⟩, h3⟩, -⟩ := hrun
        subst h1 h2
        refine ⟨fun h => h, fun h => h, fun k hk => Or.inl hk, fun he => ?_,
          fun _ h _ => h⟩
        rw [← h3] at he
        simp at he
      | ok a =>
        simp only [] at hrun
        cases hx : a.Exec with
        | none => simp [hx] at hrun
        | some ex =>
          simp only [hx] at hrun
          by_cases hk : ex.Kind = YAML_KEY_SEQUENCE
          · simp only [hk, if_true] at hrun
            obtain ⟨i1, i2, i3, i4, i5⟩ := ih _ _ t1 hrun
            refine ⟨i1, ?_, ?_, ?_, ?_⟩
            · intro hls
              apply i2
              intro kv hkv
              rcases mem_mapSet _ _ _ _ hkv with h | h
              · rw [h]
                exact ⟨⟨ex, hx, hk⟩, rfl⟩
              · exact hls kv h
            · intro k hk'
              rcases i3 k hk' with (h | h) | h
              · exact Or.inl (Or.inl h)
              · rcases (mem_keys_mapSet _ _ _ _).mp h with h | h
                · exact Or.inl (Or.inr h)
                · exact Or.inr ((hcons k).mpr (Or.inl ⟨h.symm, rfl⟩))
              · exact Or.inr ((hcons k).mpr (Or.inr h))
            · intro he k hk'
              apply i4 he k
              rcases hk' with (h | h) | h
              · exact Or.inl (Or.inl h)
              · exact Or.inl (Or.inr ((mem_keys_mapSet _ _ _ _).mpr (Or.inl h)))
              · rcases (hcons k).mp h with ⟨hn, -⟩ | h
                · exact Or.inl (Or.inr ((mem_keys_mapSet _ _ _ _).mpr (Or.inr hn.symm)))
                · exact Or.inr h
            · intro hnd hdis hfresh
              simp only [List.map_cons, List.nodup_cons] at hnd
              apply i5 hnd.2
              · intro k hk1 hk2
                rcases (mem_keys_mapSet _ _ _ _).mp hk2 with h | h
                · exact hdis k hk1 h
                · rw [h] at hk1
                  exact (hfresh x (List.mem_cons_self _ _)).1 hk1
              · intro b hb
                refine ⟨(hfresh b (List.mem_cons_of_mem _ hb)).1, fun h => ?_⟩
                rcases (mem_keys_mapSet _ _ _ _).mp h with h | h
                · exact (hfresh b (List.mem_cons_of_mem _ hb)).2 h
                · apply hnd.1
                  rw [← h]
                  exact List.mem_map_of_mem _ hb
          · simp only [hk, if_false] at hrun
            obtain ⟨i1, i2, i3, i4, i5⟩ := ih _ _ t1 hrun
            refine ⟨?_, i2, ?_, ?_, ?_⟩
            · intro hla
              apply i1
              intro kv hkv
              rcases mem_mapSet _ _ _ _ hkv with h | h
              · rw [h]
                exact ⟨⟨ex, hx, hk⟩, rfl⟩
              · exact hla kv h
            · intro k hk'
              rcases i3 k hk' with (h | h) | h
              · rcases (mem_keys_mapSet _ _ _ _).mp h with h | h
                · exact Or.inl (Or.inl h)
                · exact Or.inr ((hcons k).mpr (Or.inl ⟨h.symm, rfl⟩))
              · exact Or.inl (Or.inr h)
              · exact Or.inr ((hcons k).mpr (Or.inr h))
            · intro he k hk'
              apply i4 he k
              rcases hk' with (h | h) | h
              · exact Or.inl (Or.inl ((mem_keys_mapSet _ _ _ _).mpr (Or.inl h)))
              · exact Or.inl (Or.inr h)
              · rcases (hcons k).mp h with ⟨hn, -⟩ | h
                · exact Or.inl (Or.inl ((mem_keys_mapSet _ _ _ _).mpr (Or.inr hn.symm)))
                · exact Or.inr h
            · intro hnd hdis hfresh
              simp only [List.map_cons, List.nodup_cons] at hnd
              apply i5 hnd.2
              · intro k hk1 hk2
                rcases (mem_keys_mapSet _ _ _ _).mp hk1 with h | h
                · exact hdis k h hk2
                · rw [h] at hk2
                  exact (hfresh x (List.mem_cons_self _ _)).2 hk2
              · intro b hb
                refine ⟨fun h => ?_, (hfresh b (List.mem_cons_of_mem _ hb)).2⟩
                rcases (mem_keys_mapSet _ _ _ _).mp h with h | h
                · exact (hfresh b (List.mem_cons_of_mem _ hb)).1 h
                · apply hnd.1
                  rw [← h]
                  exact List.mem_map_of_mem _ hb

/-- C14: when `getPackageActionsAndSequences` returns without error on a
listing with pairwise distinct action names, every record of the sequence map
has the sequence marker as execution kind, every record of the action map has
another execution kind, no name is a key of both maps, the keys of the two
maps together are exactly the names of the listed actions that pass
`isManagedEntity` for the project, and every record carries the given package
name. -/
theorem C14_actions_and_sequences_classified (env : Env) (pn A : String)
    (actions : List Action) (la ls : List (String × ActionRecord)) (t t' : List Event)
    (hlist : env.Client.ActionsList t pn = Except.ok actions)
    (hnodup : (actions.map Action.Name).Nodup)
    (hrun : getPackageActionsAndSequences env pn A t = Res.val (((la, ls), none), t')) :
    (∀ kv ∈ ls, ∃ ex, kv.2.Action.Exec = some ex ∧ ex.Kind = YAML_KEY_SEQUENCE) ∧
    (∀ kv ∈ la, ∃ ex, kv.2.Action.Exec = some ex ∧ ex.Kind ≠ YAML_KEY_SEQUENCE) ∧
    (∀ k, k ∈ la.map Prod.fst → k ∉ ls.map Prod.fst) ∧
    (∀ k, (k ∈ la.map Prod.fst ∨ k ∈ ls.map Prod.fst) ↔
      ∃ a ∈ actions, a.Name = k ∧
        isManagedEntity (GetValue a.Annotations MANAGED) A = Res.val true) ∧
    (∀ kv ∈ la ++ ls, kv.2.Packagename = pn) := by
  simp only [getPackageActionsAndSequences, Go.bind_def] at hrun
  rw [Go.bind_of_val _ _ t _ _ (call_apply _ _ t), hlist] at hrun
  obtain ⟨i1, i2, i3, i4, i5⟩ :=
    getPackageActionsAndSequencesLoop_inv env pn A actions [] [] la ls none _ t' hrun
  have h1 := i1 (by simp)
  have h2 := i2 (by simp)
  refine ⟨fun kv hkv => (h2 kv hkv).1, fun kv hkv => (h1 kv hkv).1,
    i5 hnodup (by simp) (by simp), fun k => ⟨fun hk => ?_, fun hk => ?_⟩, ?_⟩
  · rcases i3 k hk with h | h
    · simp at h
    · exact h
  · exact i4 rfl k (Or.inr hk)
  · intro kv hkv
    rcases List.mem_append.mp hkv with h | h
    · exact (h1 kv h).2
    · exact (h2 kv h).2

/-- C14 for the actions of `lib-pkg` and project `LIB`: `hello` is filed as an
action, `chain` as a sequence, the untagged action is left out. -/
theorem C14_actions_and_sequences_classified_witness :
    (∀ kv ∈ [("chain", (⟨chainAction, "lib-pkg"⟩ : ActionRecord))],
      ∃ ex, kv.2.Action.Exec = some ex ∧ ex.Kind = YAML_KEY_SEQUENCE) ∧
    (∀ kv ∈ [("hello", (⟨helloAction, "lib-pkg"⟩ : ActionRecord))],
      ∃ ex, kv.2.Action.Exec = some ex ∧ ex.Kind ≠ YAML_KEY_SEQUENCE) ∧
    (∀ k, k ∈ [("hello", (⟨helloAction, "lib-pkg"⟩ : ActionRecord))].map Prod.fst →
      k ∉ [("chain", (⟨chainAction, "lib-pkg"⟩ : ActionRecord))].map Prod.fst) ∧
    (∀ k, (k ∈ [("hello", (⟨helloAction, "lib-pkg"⟩ : ActionRecord))].map Prod.fst ∨
        k ∈ [("chain", (⟨chainAction, "lib-pkg"⟩ : ActionRecord))].map Prod.fst) ↔
      ∃ a ∈ libActionListing, a.Name = k ∧
        isManagedEntity (GetValue a.Annotations MANAGED) "LIB" = Res.val true) ∧
    (∀ kv ∈ [("hello", (⟨helloAction, "lib-pkg"⟩ : ActionRecord))] ++
        [("chain", (⟨chainAction, "lib-pkg"⟩ : ActionRecord))],
      kv.2.Packagename = "lib-pkg") :=
  C14_actions_and_sequences_classified (envOf libRemote) "lib-pkg" "LIB" libActionListing
    [("hello", ⟨helloAction, "lib-pkg"⟩)] [("chain", ⟨chainAction, "lib-pkg"⟩)] []
    [Event.ActionsList "lib-pkg", Event.ActionsGet "lib-pkg/hello",
      Event.ActionsGet "lib-pkg/chain"]
    rfl (by decide) rfl

/-! ## Package inputs -/

theorem collectInputsLoop_fst (env : InputsEnv) (l : List (String × Parameter))
    (w : List String) (kv : KeyValueArr) :
    (collectInputsLoop env l w kv).1 = w ++ missingNames env l := by
  induction l generalizing w kv with
  | nil => simp [collectInputsLoop, missingNames]
  | cons x rest ih =>
    obtain ⟨k, v⟩ := x
    simp only [collectInputsLoop, missingNames]
    rw [ih]
    by_cases h1 : v.Required = true
    · by_cases h2 : env.IsTypeDefaultValue v.Type_ v.Value = true
      · simp [h1, h2]
      · simp [h1, h2]
    · simp [h1]

theorem collectPackagesLoop_eq (env : InputsEnv) (k : String) (pkg : InputsPackage)
    (rest : List (String × InputsPackage)) (w : List String) :
    collectPackagesLoop env ((k, pkg) :: rest) w =
      ((k, ⟨pkg.Inputs, (collectInputsLoop env (rangeMap pkg.Inputs) w []).2⟩) ::
        (collectPackagesLoop env rest
          (collectInputsLoop env (rangeMap pkg.Inputs) w []).1).1,
       (collectPackagesLoop env rest
          (collectInputsLoop env (rangeMap pkg.Inputs) w []).1).2) := by
  by_cases h : pkg.Inputs.isSome = true ∨ (rangeMap pkg.Inputs).length ≠ 0
  · simp only [collectPackagesLoop, h, if_true]
  · simp only [collectPackagesLoop, h, if_false]
    have hnone : pkg.Inputs = none := by
      cases hi : pkg.Inputs with
      | none => rfl
      | some m => exact absurd (Or.inl (by simp [hi])) h
    simp [hnone, rangeMap, collectInputsLoop]

theorem collectPackagesLoop_snd (env : InputsEnv) (pkgs : List (String × InputsPackage))
    (w : List String) :
    (collectPackagesLoop env pkgs w).2 = w ++ missingInPackages env pkgs := by
  induction pkgs generalizing w with
  | nil => simp [collectPackagesLoop, missingInPackages]
  | cons x rest ih =>
    obtain ⟨k, pkg⟩ := x
    rw [collectPackagesLoop_eq]
    simp only [missingInPackages]
    rw [ih, collectInputsLoop_fst, List.append_assoc]

theorem collectPackagesLoop_sameInputs (env : InputsEnv)
    (pkgs : List (String × InputsPackage)) (w : List String) :
    SameInputs pkgs (collectPackagesLoop env pkgs w).1 := by
  induction pkgs generalizing w with
  | nil => exact List.Forall₂.nil
  | cons x rest ih =>
    obtain ⟨k, pkg⟩ := x
    rw [collectPackagesLoop_eq]
    exact List.Forall₂.cons ⟨rfl, rfl⟩ (ih _)

theorem missingNames_ne_nil_iff (env : InputsEnv) (l : List (String × Parameter)) :
    missingNames env l ≠ [] ↔
      ∃ kv ∈ l, kv.2.Required = true ∧ env.IsTypeDefaultValue kv.2.Type_ kv.2.Value = true := by
  induction l with
  | nil => simp [missingNames]
  | cons x rest ih =>
    obtain ⟨k, v⟩ := x
    by_cases h : v.Required = true ∧ env.IsTypeDefaultValue v.Type_ v.Value = true
    · simp only [missingNames, h, and_self, if_true, ne_eq, reduceCtorEq, not_false_eq_true,
        true_iff]
      exact ⟨(k, v), List.mem_cons_self _ _, h⟩
    · simp only [missingNames, h, if_false, ih, List.mem_cons]
      constructor
      · rintro ⟨kv, hkv, hp⟩
        exact ⟨kv, Or.inr hkv, hp⟩
      · rintro ⟨kv, hkv | hkv, hp⟩
        · rw [hkv] at hp
          exact absurd hp h
        · exact ⟨kv, hkv, hp⟩

theorem missingInPackages_ne_nil_iff (env : InputsEnv)
    (pkgs : List (String × InputsPackage)) :
    missingInPackages env pkgs ≠ [] ↔ HasRequiredInputWithoutValue env pkgs := by
  unfold HasRequiredInputWithoutValue
  induction pkgs with
  | nil => simp [missingInPackages]
  | cons x rest ih =>
    obtain ⟨k, pkg⟩ := x
    simp only [missingInPackages, ne_eq, List.append_eq_nil, not_and_or, List.mem_cons]
    rw [← ne_eq, ← ne_eq, missingNames_ne_nil_iff, ih]
    constructor
    · rintro (⟨kv, hkv, hp⟩ | ⟨kp, hkp, h⟩)
      · exact ⟨(k, pkg), Or.inl rfl, kv, hkv, hp⟩
      · exact ⟨kp, Or.inr hkp, h⟩
    · rintro ⟨kp, hkp | hkp, kv, hkv, hp⟩
      · rw [hkp] at hkv
        exact Or.inl ⟨kv, hkv, hp⟩
      · exact Or.inr ⟨kp, hkp, kv, hkv, hp⟩

theorem SameInputs.hasRequired_iff (env : InputsEnv)
    (old new : List (String × InputsPackage)) (h : SameInputs old new) :
    HasRequiredInputWithoutValue env old ↔ HasRequiredInputWithoutValue env new := by
  unfold SameInputs at h
  induction h with
  | nil => simp [HasRequiredInputWithoutValue]
  | cons hab _ ih =>
    rename_i a b l1 l2
    unfold HasRequiredInputWithoutValue at ih ⊢
    simp only [List.mem_cons, exists_eq_or_imp]
    rw [ih, hab.2]

theorem checkRequiredInputs_err (env : InputsEnv) (pkgs : List (String × InputsPackage)) :
    ((checkRequiredInputs env pkgs).Err ≠ none ↔
      env.Report = false ∧
        HasRequiredInputWithoutValue env (checkRequiredInputs env pkgs).Packages) ∧
    SameInputs pkgs (checkRequiredInputs env pkgs).Packages := by
  have hsame := collectPackagesLoop_sameInputs env pkgs []
  have hpk : (checkRequiredInputs env pkgs).Packages = (collectPackagesLoop env pkgs []).1 := by
    unfold checkRequiredInputs
    split
    · split <;> rfl
    · rfl
  rw [hpk]
  refine ⟨?_, hsame⟩
  rw [← SameInputs.hasRequired_iff env _ _ hsame, ← missingInPackages_ne_nil_iff]
  have hlen : (collectPackagesLoop env pkgs []).2 = missingInPackages env pkgs := by
    rw [collectPackagesLoop_snd]
    rfl
  unfold checkRequiredInputs
  rw [hlen]
  by_cases hm : missingInPackages env pkgs = []
  · simp [hm]
  · have hpos : (missingInPackages env pkgs).length > 0 := List.length_pos.mpr hm
    cases hr : env.Report with
    | true => simp [hpos, hm]
    | false => simp [hpos, hm]

theorem mergeInputsLoop_total (env : InputsEnv) (cli : List (String × JVal))
    (es m : List (String × Parameter)) :
    ∃ m', mergeInputsLoop env (JVal.obj cli) es m = Res.val m' := by
  induction es generalizing m with
  | nil => exact ⟨m, rfl⟩
  | cons x rest ih =>
    obtain ⟨n, p⟩ := x
    simp only [mergeInputsLoop, assertMap]
    cases mapLookup cli n with
    | none => exact ih _
    | some v => exact ih _

theorem mergePackagesLoop_total (env : InputsEnv) (cli : List (String × JVal))
    (pkgs : List (String × InputsPackage)) :
    ∃ r, mergePackagesLoop env (JVal.obj cli) pkgs = Res.val r := by
  induction pkgs with
  | nil => exact ⟨[], rfl⟩
  | cons x rest ih =>
    obtain ⟨k, pkg⟩ := x
    obtain ⟨r, hr⟩ := ih
    simp only [mergePackagesLoop]
    cases hi : pkg.Inputs with
    | none => exact ⟨(k, pkg) :: r, by simp [hr]⟩
    | some m =>
      obtain ⟨m', hm'⟩ := mergeInputsLoop_total env cli m m
      exact ⟨(k, ⟨some m', pkg.Parameters⟩) :: r, by simp [hm', hr]⟩

theorem mapSet_append_fresh {α : Type} (pre rest : List (String × α)) (k : String)
    (v0 v : α) (hk : k ∉ pre.map Prod.fst) :
    mapSet (pre ++ (k, v0) :: rest) k v = pre ++ (k, v) :: rest := by
  induction pre with
  | nil => simp [mapSet]
  | cons x pre ih =>
    obtain ⟨k1, v1⟩ := x
    simp only [List.map_cons, List.mem_cons, not_or] at hk
    have hne : ¬ k1 = k := fun h => hk.1 h.symm
    simp only [List.cons_append, mapSet, hne, if_false]
    exact congrArg (fun l => (k1, v1) :: l) (ih hk.2)

theorem mergeInputsLoop_nodup (env : InputsEnv) (cli : List (String × JVal))
    (es pre : List (String × Parameter)) (hnd : (es.map Prod.fst).Nodup)
    (hpre : ∀ k, k ∈ pre.map Prod.fst → k ∉ es.map Prod.fst) :
    mergeInputsLoop env (JVal.obj cli) es (pre ++ es) =
      Res.val (pre ++ es.map (mergedInput env cli)) := by
  induction es generalizing pre with
  | nil => simp [mergeInputsLoop]
  | cons x rest ih =>
    obtain ⟨n, p⟩ := x
    simp only [List.map_cons, List.nodup_cons] at hnd
    have hfresh : n ∉ pre.map Prod.fst := fun h => hpre n h (by simp)
    have hnext : ∀ v : Parameter,
        mergeInputsLoop env (JVal.obj cli) rest ((pre ++ [(n, v)]) ++ rest) =
          Res.val ((pre ++ [(n, v)]) ++ rest.map (mergedInput env cli)) := by
      intro v
      apply ih _ hnd.2
      intro k hk
      simp only [List.map_append, List.map_cons, List.map_nil, List.mem_append,
        List.mem_singleton] at hk
      rcases hk with hk | hk
      · intro hk'
        exact hpre k hk (by simp [hk'])
      · rw [hk]
        exact hnd.1
    simp only [mergeInputsLoop, assertMap]
    cases hl : mapLookup cli n with
    | none =>
      simp only []
      rw [mapSet_append_fresh pre rest n p _ hfresh]
      have := hnext ⟨p.Type_, p.Description, p.Value, p.Required, p.Default⟩
      simp only [List.append_assoc, List.singleton_append] at this
      rw [this]
      simp [mergedInput, hl]
    | some v =>
      simp only []
      rw [mapSet_append_fresh pre rest n p _ hfresh]
      have := hnext ⟨p.Type_, p.Description, env.InterpolateStringWithEnvVar v, p.Required,
        p.Default⟩
      simp only [List.append_assoc, List.singleton_append] at this
      rw [this]
      simp [mergedInput, hl]

theorem mergePackagesLoop_merged (env : InputsEnv) (cli : List (String × JVal))
    (pkgs : List (String × InputsPackage))
    (hmaps : ∀ kp ∈ pkgs, ((rangeMap kp.2.Inputs).map Prod.fst).Nodup) :
    ∃ r, mergePackagesLoop env (JVal.obj cli) pkgs = Res.val r ∧
      MergedWith env cli pkgs r := by
  induction pkgs with
  | nil => exact ⟨[], rfl, List.Forall₂.nil⟩
  | cons x rest ih =>
    obtain ⟨k, pkg⟩ := x
    obtain ⟨r, hr, hmr⟩ := ih (fun kp hkp => hmaps kp (List.mem_cons_of_mem _ hkp))
    simp only [mergePackagesLoop]
    cases hi : pkg.Inputs with
    | none =>
      refine ⟨(k, pkg) :: r, by simp [hr], ?_⟩
      exact List.Forall₂.cons ⟨rfl, by simp [hi]⟩ hmr
    | some m =>
      have hnd : (m.map Prod.fst).Nodup := by
        have := hmaps (k, pkg) (List.mem_cons_self _ _)
        simpa [hi, rangeMap] using this
      have hm := mergeInputsLoop_nodup env cli m [] hnd (by simp)
      simp only [List.nil_append] at hm
      refine ⟨(k, ⟨some (m.map (mergedInput env cli)), pkg.Parameters⟩) :: r,
        by simp [hm, hr], ?_⟩
      exact List.Forall₂.cons ⟨rfl, by simp [hi]⟩ hmr

theorem MergedWith.trans_same (env : InputsEnv) (cli : List (String × JVal))
    (a b c : List (String × InputsPackage)) (hab : MergedWith env cli a b)
    (hbc : SameInputs b c) : MergedWith env cli a c := by
  unfold MergedWith at *
  unfold SameInputs at hbc
  induction hab generalizing c with
  | nil =>
    cases hbc
    exact List.Forall₂.nil
  | cons h _ ih =>
    cases hbc with
    | cons h' hrest =>
      exact List.Forall₂.cons ⟨h'.1.trans h.1, h'.2.trans h.2⟩ (ih _ hrest)

/-- C15: when the CLI parameters parse (or there are none),
`UpdatePackageInputs` returns, and it returns an error exactly when report
mode is off and some package has, after the merge, a required input whose
value is the default value of its type; in report mode it returns nil. -/
theorem C15_UpdatePackageInputs_error_iff (env : InputsEnv)
    (pkgs : List (String × InputsPackage))
    (hparse : env.Param = [] ∨
      ∃ cli, env.GetJSONFromStrings env.Param = Except.ok (JVal.obj cli)) :
    ∃ r, UpdatePackageInputs env pkgs = Res.val r ∧
      (r.Err ≠ none ↔
        env.Report = false ∧ HasRequiredInputWithoutValue env r.Packages) ∧
      (env.Report = true → r.Err = none) := by
  have hfin : ∀ merged, ∃ r, Res.val (checkRequiredInputs env merged) = Res.val r ∧
      (r.Err ≠ none ↔
        env.Report = false ∧ HasRequiredInputWithoutValue env r.Packages) ∧
      (env.Report = true → r.Err = none) := by
    intro merged
    refine ⟨_, rfl, (checkRequiredInputs_err env merged).1, fun hrep => ?_⟩
    by_contra hne
    have := ((checkRequiredInputs_err env merged).1.mp hne).1
    rw [hrep] at this
    simp at this
  by_cases hp : env.Param.length > 0
  · rcases hparse with h0 | ⟨cli, hcli⟩
    · rw [h0] at hp
      simp at hp
    · obtain ⟨merged, hmerged⟩ := mergePackagesLoop_total env cli pkgs
      have hrun : UpdatePackageInputs env pkgs = Res.val (checkRequiredInputs env merged) := by
        simp only [UpdatePackageInputs, hp, if_true, hcli, hmerged]
      rw [hrun]
      exact hfin merged
  · have hrun : UpdatePackageInputs env pkgs = Res.val (checkRequiredInputs env pkgs) := by
      simp only [UpdatePackageInputs, hp, if_false]
    rw [hrun]
    exact hfin pkgs

/-- C15 for a package whose required input `name` has no value in the
manifest: with the CLI parameter `name=world` no error is returned; without
CLI parameters the error is returned, and in report mode it is not. -/
theorem C15_UpdatePackageInputs_error_iff_witness :
    (∃ r, UpdatePackageInputs (sampleInputsEnv false) helloInputs = Res.val r ∧
      (r.Err ≠ none ↔ (sampleInputsEnv false).Report = false ∧
        HasRequiredInputWithoutValue (sampleInputsEnv false) r.Packages) ∧
      ((sampleInputsEnv false).Report = true → r.Err = none)) ∧
    UpdatePackageInputs (sampleInputsEnv false) helloInputs =
      Res.val ⟨helloInputsMerged, [], none⟩ ∧
    UpdatePackageInputs (plainInputsEnv false) helloInputs =
      Res.val ⟨helloInputsUnmerged, [], some (GoError.other "name")⟩ ∧
    UpdatePackageInputs (plainInputsEnv true) helloInputs =
      Res.val ⟨helloInputsUnmerged, ["name"], none⟩ :=
  ⟨C15_UpdatePackageInputs_error_iff (sampleInputsEnv false) helloInputs
      (Or.inr ⟨[("name", JVal.str "world")], rfl⟩),
    rfl, rfl, rfl⟩

/-- C16: for input maps with distinct names, after `UpdatePackageInputs` with
CLI parameters that parse to the map `cli` every package has the same key and
its inputs are the manifest inputs mapped by `mergedInput`: the value is the
interpolated CLI value when the name is a key of `cli` and the manifest value
otherwise, names and other fields are unchanged, and keys of `cli` naming no
input add nothing; without CLI parameters the inputs are the manifest inputs,
and merging the empty map changes no input. -/
theorem C16_UpdatePackageInputs_merges_cli_values (env : InputsEnv)
    (pkgs : List (String × InputsPackage))
    (hmaps : ∀ kp ∈ pkgs, ((rangeMap kp.2.Inputs).map Prod.fst).Nodup) :
    (∀ cli, env.Param ≠ [] →
      env.GetJSONFromStrings env.Param = Except.ok (JVal.obj cli) →
      ∃ r, UpdatePackageInputs env pkgs = Res.val r ∧ MergedWith env cli pkgs r.Packages) ∧
    (env.Param = [] →
      ∃ r, UpdatePackageInputs env pkgs = Res.val r ∧ SameInputs pkgs r.Packages) ∧
    (∀ kv, mergedInput env [] kv = kv) := by
  refine ⟨?_, ?_, ?_⟩
  · intro cli hne hcli
    have hp : env.Param.length > 0 := List.length_pos.mpr hne
    obtain ⟨merged, hmerged, hmw⟩ := mergePackagesLoop_merged env cli pkgs hmaps
    refine ⟨checkRequiredInputs env merged, ?_, ?_⟩
    · simp only [UpdatePackageInputs, hp, if_true, hcli, hmerged]
    · exact MergedWith.trans_same env cli _ _ _ hmw (checkRequiredInputs_err env merged).2
  · intro h0
    refine ⟨checkRequiredInputs env pkgs, ?_, (checkRequiredInputs_err env pkgs).2⟩
    simp [UpdatePackageInputs, h0]
  · intro kv
    simp [mergedInput, mapLookup]

/-- C16 for the package with the inputs `name` and `greeting` and the CLI
parameter `name=world`. -/
theorem C16_UpdatePackageInputs_merges_cli_values_witness :
    ∃ r, UpdatePackageInputs (sampleInputsEnv false) helloInputs = Res.val r ∧
      MergedWith (sampleInputsEnv false) [("name", JVal.str "world")] helloInputs
        r.Packages :=
  (C16_UpdatePackageInputs_merges_cli_values (sampleInputsEnv false) helloInputs
    (by decide)).1 [("name", JVal.str "world")] (by decide) rfl

/-! ## Calls of the collectors that fetch no package -/

theorem isPackageUsedByOtherPackages_scoped {env : Env}
    {Q : List Event → List Event → Event → Prop} {strict : Prop}
    (pol : CollectorPolicy env Q strict) (A D : String) :
    Obeys Q strict (isPackageUsedByOtherPackages env A D) (fun _ => True) := by
  simp only [isPackageUsedByOtherPackages, Go.bind_def]
  refine Obeys.bind pol.mono
    (Obeys.call Event.PackagesList _ (fun _ => True) (fun t _ => pol.packagesList t))
    (fun r => ?_) (fun _ _ _ _ _ _ => trivial)
  cases r with
  | error e => exact Obeys.pure _ _
  | ok l => exact Obeys.liftRes _ _

theorem getProjectTriggersLoop_scoped {env : Env}
    {Q : List Event → List Event → Event → Prop} {strict : Prop}
    (pol : CollectorPolicy env Q strict) (A : String) (l : List Trigger)
    (acc : List (String × Trigger)) :
    Obeys Q strict (getProjectTriggersLoop env A l acc) (fun r => r.2 = none) := by
  induction l generalizing acc with
  | nil => exact Obeys.pure _ _
  | cons tr rest ih =>
    simp only [getProjectTriggersLoop, Go.bind_def]
    refine Obeys.bind pol.mono (Obeys.liftRes _ (fun _ => True)) (fun m => ?_)
      (fun _ _ _ _ _ _ => trivial)
    cases m with
    | false => exact ih acc
    | true =>
      simp only [if_true]
      refine Obeys.bind pol.mono (pol.triggersGet tr.Name) (fun r => ?_)
        (fun r t b t' hrun hb => ?_)
      · cases r with
        | error e => exact Obeys.pure _ _
        | ok x => exact ih _
      · cases r with
        | error e =>
          simp only [Go.pure_apply, Res.val.injEq, Prod.mk.injEq] at hrun
          rw [← hrun.1] at hb
          simp at hb
        | ok x => exact ⟨x, rfl⟩

theorem getProjectTriggers_scoped {env : Env}
    {Q : List Event → List Event → Event → Prop} {strict : Prop}
    (pol : CollectorPolicy env Q strict) (A : String) :
    Obeys Q strict (getProjectTriggers env A) (fun r => r.2 = none) := by
  simp only [getProjectTriggers, Go.bind_def]
  refine Obeys.bind pol.mono
    (Obeys.call Event.TriggersList _ (fun _ => True) (fun t _ => pol.triggersList t))
    (fun r => ?_) (fun _ _ _ _ _ _ => trivial)
  cases r with
  | error e => exact Obeys.pure _ _
  | ok l => exact getProjectTriggersLoop_scoped pol A l []

theorem getProjectRulesLoop_scoped {env : Env}
    {Q : List Event → List Event → Event → Prop} {strict : Prop}
    (pol : CollectorPolicy env Q strict) (A : String) (l : List Rule)
    (acc : List (String × Rule)) :
    Obeys Q strict (getProjectRulesLoop env A l acc) (fun r => r.2 = none) := by
  induction l generalizing acc with
  | nil => exact Obeys.pure _ _
  | cons rl rest ih =>
    simp only [getProjectRulesLoop, Go.bind_def]
    refine Obeys.bind pol.mono (Obeys.liftRes _ (fun _ => True)) (fun m => ?_)
      (fun _ _ _ _ _ _ => trivial)
    cases m with
    | false => exact ih acc
    | true =>
      simp only [if_true]
      refine Obeys.bind pol.mono (pol.rulesGet rl.Name) (fun r => ?_)
        (fun r t b t' hrun hb => ?_)
      · cases r with
        | error e => exact Obeys.pure _ _
        | ok x => exact ih _
      · cases r with
        | error e =>
          simp only [Go.pure_apply, Res.val.injEq, Prod.mk.injEq] at hrun
          rw [← hrun.1] at hb
          simp at hb
        | ok x => exact ⟨x, rfl⟩

theorem getProjectRules_scoped {env : Env}
    {Q : List Event → List Event → Event → Prop} {strict : Prop}
    (pol : CollectorPolicy env Q strict) (A : String) :
    Obeys Q strict (getProjectRules env A) (fun r => r.2 = none) := by
  simp only [getProjectRules, Go.bind_def]
  refine Obeys.bind pol.mono
    (Obeys.call Event.RulesList _ (fun _ => True) (fun t _ => pol.rulesList t))
    (fun r => ?_) (fun _ _ _ _ _ _ => trivial)
  cases r with
  | error e => exact Obeys.pure _ _
  | ok l => exact getProjectRulesLoop_scoped pol A l []

theorem getPackageActionsAndSequencesLoop_scoped {env : Env}
    {Q : List Event → List Event → Event → Prop} {strict : Prop}
    (pol : CollectorPolicy env Q strict) (pn A : String) (l : List Action)
    (la ls : List (String × ActionRecord)) :
    Obeys Q strict (getPackageActionsAndSequencesLoop env pn A l la ls)
      (fun r => r.2 = none) := by
  induction l generalizing la ls with
  | nil => exact Obeys.pure _ _
  | cons ac rest ih =>
    simp only [getPackageActionsAndSequencesLoop, Go.bind_def]
    refine Obeys.bind pol.mono (Obeys.liftRes _ (fun _ => True)) (fun m => ?_)
      (fun _ _ _ _ _ _ => trivial)
    cases m with
    | false => exact ih la ls
    | true =>
      simp only [if_true]
      refine Obeys.bind pol.mono (pol.actionsGet _) (fun r => ?_)
        (fun r t b t' hrun hb => ?_)
      · cases r with
        | error e => exact Obeys.pure _ _
        | ok x =>
          simp only []
          cases hx : x.Exec with
          | none => exact Obeys.panic _
          | some ex =>
            simp only []
            by_cases hk : ex.Kind = YAML_KEY_SEQUENCE
            · simp only [hk, if_true]
              exact ih _ _
            · simp only [hk, if_false]
              exact ih _ _
      · cases r with
        | error e =>
          simp only [Go.pure_apply, Res.val.injEq, Prod.mk.injEq] at hrun
          rw [← hrun.1] at hb
          simp at hb
        | ok x => exact ⟨x, rfl⟩

theorem getPackageActionsAndSequences_scoped {env : Env}
    {Q : List Event → List Event → Event → Prop} {strict : Prop}
    (pol : CollectorPolicy env Q strict) (pn A : String) :
    Obeys Q strict (getPackageActionsAndSequences env pn A) (fun r => r.2 = none) := by
  simp only [getPackageActionsAndSequences, Go.bind_def]
  refine Obeys.bind pol.mono
    (Obeys.call (Event.ActionsList pn) _ (fun r => ∃ a, r = Except.ok a)
      (fun t hg => pol.actionsList t pn hg))
    (fun r => ?_) (fun r t b t' hrun hb => ?_)
  · cases r with
    | error e => exact Obeys.pure _ _
    | ok l => exact getPackageActionsAndSequencesLoop_scoped pol pn A l [] []
  · cases r with
    | error e =>
      simp only [Go.pure_apply, Res.val.injEq, Prod.mk.injEq] at hrun
      rw [← hrun.1] at hb
      simp at hb
    | ok x => exact ⟨x, rfl⟩

theorem retry_all_events {α : Type} (P : Event → Prop) (n : Nat) (ev : Event)
    (answer : List Event → Except WskError α) (hev : P ev)
    (good : Except WskError α → Prop) :
    Obeys (fun _ _ e => P e) False (retry n (call ev answer)) good := by
  intro t r t' hrun
  unfold retry at hrun
  obtain ⟨c, hc⟩ := retryLoop_grows _ _ _ _ _ _ hrun
  refine ⟨by rw [hc]; exact List.prefix_append _ _, fun _ h ev' h1 h2 => ?_⟩
  rw [hc] at h2
  obtain ⟨i, _, _, he⟩ := prefix_replicate_inv t h ev ev' c h1 h2
  rw [he]
  exact hev

theorem obeys_events {α : Type} (P : Event → Prop) (x : Go α) (good : α → Prop)
    (hx : Obeys (fun _ _ e => P e) False x good)
    (t t' : List Event) (a : α) (hrun : x t = Res.val (a, t')) :
    ∃ new, t' = t ++ new ∧ ∀ ev ∈ new, P ev := by
  obtain ⟨hpre, hall⟩ := hx t a t' hrun
  obtain ⟨new, rfl⟩ := hpre
  refine ⟨new, rfl, fun ev hev => ?_⟩
  obtain ⟨l1, l2, rfl⟩ := List.append_of_mem hev
  refine hall (fun hf => hf.elim) (t ++ l1) ev (List.prefix_append _ _) ?_
  refine ⟨l2, ?_⟩
  simp

theorem noPackagesGetPolicy (env : Env) :
    CollectorPolicy env (fun _ _ e => e.isPackagesGet = false) False where
  mono := fun _ _ _ _ _ h => h
  packagesList := fun _ => rfl
  triggersList := fun _ => rfl
  rulesList := fun _ => rfl
  actionsList := fun _ _ _ => rfl
  actionsGet := fun n =>
    retry_all_events (fun e => e.isPackagesGet = false) _ (Event.ActionsGet n) _ rfl _
  triggersGet := fun n =>
    retry_all_events (fun e => e.isPackagesGet = false) _ (Event.TriggersGet n) _ rfl _
  rulesGet := fun n =>
    retry_all_events (fun e => e.isPackagesGet = false) _ (Event.RulesGet n) _ rfl _

theorem isPackageUsedByOtherPackages_history (env : Env) (A D : String)
    (t t' : List Event) (b : Bool)
    (h : isPackageUsedByOtherPackages env A D t = Res.val (b, t')) :
    t' = t ++ [Event.PackagesList] := by
  simp only [isPackageUsedByOtherPackages, Go.bind_def] at h
  rw [Go.bind_of_val _ _ t _ _ (call_apply _ _ t)] at h
  cases hl : env.Client.PackagesList t with
  | error e =>
    rw [hl] at h
    simp only [Go.pure_apply, Res.val.injEq, Prod.mk.injEq] at h
    exact h.2.symm
  | ok l =>
    rw [hl] at h
    simp only [] at h
    rw [liftRes_eq_val] at h
    exact h.2

theorem getPackage_history (env : Env) (n : String) (t t' : List Event)
    (r : Except GoError DeploymentPackage) (h : getPackage env n t = Res.val (r, t')) :
    ∃ c, t' = t ++ List.replicate c (Event.PackagesGet n) := by
  simp only [getPackage, Go.bind_def, retry] at h
  rw [Go.bind_eq_val] at h
  obtain ⟨r0, t1, h1, h2⟩ := h
  obtain ⟨c, hc⟩ := retryLoop_grows _ _ _ _ _ _ h1
  refine ⟨c, ?_⟩
  cases r0 with
  | error e =>
    simp only [Go.pure_apply, Res.val.injEq, Prod.mk.injEq] at h2
    rw [← h2.2, hc]
  | ok p =>
    simp only [Go.pure_apply, Res.val.injEq, Prod.mk.injEq] at h2
    rw [← h2.2, hc]

theorem collector_history {α : Type} (x : Go α) (good : α → Prop)
    (hx : Obeys (fun _ _ e => e.isPackagesGet = false) False x good)
    (t t' : List Event) (a : α) (hrun : x t = Res.val (a, t')) :
    ∃ new, t' = t ++ new ∧ ∀ n, Event.PackagesGet n ∉ new := by
  obtain ⟨new, hnew, hall⟩ := obeys_events _ x good hx t t' a hrun
  refine ⟨new, hnew, fun n hn => ?_⟩
  have := hall _ hn
  simp [Event.isPackagesGet] at this

/-! ## One asset set per visited dependency entry -/

theorem setProjectDependenciesInner_shape (env : Env) (A : String) (ds : List JVal)
    (acc : List DeploymentProject) (t t' : List Event) (deps : List DeploymentProject)
    (err : Option GoError)
    (hrun : setProjectDependenciesInner env A ds acc t = Res.val ((deps, err), t')) :
    ∃ (ns : List String) (new : List DeploymentProject) (evs : List Event),
      deps = acc ++ new ∧ List.Forall₂ (DependencyAssets env) ns new ∧
      ns.Sublist (entryNames ds) ∧ t' = t ++ evs ∧
      ∀ n, Event.PackagesGet n ∈ evs → n ∈ entryNames ds := by
  induction ds generalizing acc t with
  | nil =>
    simp only [setProjectDependenciesInner, Go.pure_apply, Res.val.injEq, Prod.mk.injEq] at hrun
    exact ⟨[], [], [], by simp [hrun.1.1], List.Forall₂.nil, List.Sublist.refl _,
      by simp [hrun.2], by simp⟩
  | cons dep rest ih =>
    simp only [setProjectDependenciesInner, Go.bind_def] at hrun
    rw [Go.bind_eq_val] at hrun
    obtain ⟨key, t1, hkey, hrun⟩ := hrun
    rw [liftRes_eq_val] at hkey
    obtain ⟨hkey, ht1⟩ := hkey
    rw [ht1] at hrun
    have hnames : entryNames (dep :: rest) = filterPackageName key :: entryNames rest := by
      simp [entryNames, hkey]
    rw [hnames]
    rw [Go.bind_eq_val] at hrun
    obtain ⟨used, t2, hused, hrun⟩ := hrun
    have ht2 := isPackageUsedByOtherPackages_history env A _ _ _ _ hused
    subst ht2
    cases used with
    | true =>
      simp only [if_true] at hrun
      obtain ⟨ns, new, evs, h1, h2, h3, h4, h5⟩ := ih acc _ hrun
      refine ⟨ns, new, Event.PackagesList :: evs, h1, h2, List.Sublist.cons _ h3,
        by simp [h4], ?_⟩
      intro n hn
      simp only [List.mem_cons, reduceCtorEq, false_or] at hn
      exact List.mem_cons_of_mem _ (h5 n hn)
    | false =>
      simp only [Bool.false_eq_true, if_false] at hrun
      rw [Go.bind_eq_val] at hrun
      obtain ⟨r, t3, hr, hrun⟩ := hrun
      obtain ⟨c, ht3⟩ := getPackage_history env _ _ _ _ hr
      subst ht3
      have hget : ∀ n, Event.PackagesGet n ∈
          List.replicate c (Event.PackagesGet (filterPackageName key)) →
          n ∈ filterPackageName key :: entryNames rest := by
        intro n hn
        have := (List.mem_replicate.mp hn).2
        simp only [Event.PackagesGet.injEq] at this
        rw [this]
        exact List.mem_cons_self _ _
      have hstop : ∀ (e5 : List Event), (∀ n, Event.PackagesGet n ∉ e5) →
          ∃ (ns : List String) (new : List DeploymentProject) (evs : List Event),
            acc = acc ++ new ∧ List.Forall₂ (DependencyAssets env) ns new ∧
            ns.Sublist (filterPackageName key :: entryNames rest) ∧
            t ++ [Event.PackagesList] ++
                List.replicate c (Event.PackagesGet (filterPackageName key)) ++ e5 =
              t ++ evs ∧
            ∀ n, Event.PackagesGet n ∈ evs →
              n ∈ filterPackageName key :: entryNames rest := by
        intro e5 he5
        refine ⟨[], [], Event.PackagesList ::
          (List.replicate c (Event.PackagesGet (filterPackageName key)) ++ e5),
          by simp, List.Forall₂.nil, List.nil_sublist _, by simp, ?_⟩
        intro n hn
        simp only [List.mem_cons, reduceCtorEq, false_or, List.mem_append] at hn
        rcases hn with hn | hn
        · exact hget n hn
        · exact absurd hn (he5 n)
      cases r with
      | error e =>
        simp only [Go.pure_apply, Res.val.injEq, Prod.mk.injEq] at hrun
        obtain ⟨⟨hd, -⟩, ht⟩ := hrun
        subst hd
        have := hstop [] (by simp)
        simp only [List.append_nil] at this
        rw [← ht]
        exact this
      | ok p =>
        obtain ⟨h0, pk, hpk, hp⟩ := getPackage_ok env _ _ _ _ hr
        subst hp
        simp only [] at hrun
        rw [Go.bind_eq_val] at hrun
        obtain ⟨P, t4, hP, hrun⟩ := hrun
        rw [liftRes_eq_val] at hP
        obtain ⟨hP, ht4⟩ := hP
        subst ht4
        rw [Go.bind_eq_val] at hrun
        obtain ⟨⟨as, e1⟩, t5, has, hrun⟩ := hrun
        obtain ⟨e5, ht5, he5⟩ := collector_history _ _
          (getPackageActionsAndSequences_scoped (noPackagesGetPolicy env) _ P) _ _ _ has
        subst ht5
        cases e1 with
        | some e =>
          simp only [Go.pure_apply, Res.val.injEq, Prod.mk.injEq] at hrun
          obtain ⟨⟨hd, -⟩, ht⟩ := hrun
          subst hd
          rw [← ht]
          exact hstop e5 he5
        | none =>
          simp only [] at hrun
          rw [Go.bind_eq_val] at hrun
          obtain ⟨packages1, t6, hp1, hrun⟩ := hrun
          rw [setActionsAndSequences_fresh, liftRes_val] at hp1
          simp only [Res.val.injEq, Prod.mk.injEq] at hp1
          obtain ⟨hp1, ht6⟩ := hp1
          subst ht6
          rw [Go.bind_eq_val] at hrun
          obtain ⟨⟨tr, e2⟩, t7, htr, hrun⟩ := hrun
          obtain ⟨e7, ht7, he7⟩ := collector_history _ _
            (getProjectTriggers_scoped (noPackagesGetPolicy env) P) _ _ _ htr
          subst ht7
          cases e2 with
          | some e =>
            simp only [Go.pure_apply, Res.val.injEq, Prod.mk.injEq] at hrun
            obtain ⟨⟨hd, -⟩, ht⟩ := hrun
            subst hd
            rw [← ht, List.append_assoc _ e5 e7]
            apply hstop
            intro n hn
            rcases List.mem_append.mp hn with h | h
            · exact he5 n h
            · exact he7 n h
          | none =>
            simp only [] at hrun
            rw [Go.bind_eq_val] at hrun
            obtain ⟨⟨rl, e3⟩, t8, hrl, hrun⟩ := hrun
            obtain ⟨e8, ht8, he8⟩ := collector_history _ _
              (getProjectRules_scoped (noPackagesGetPolicy env) P) _ _ _ hrl
            subst ht8
            cases e3 with
            | some e =>
              simp only [Go.pure_apply, Res.val.injEq, Prod.mk.injEq] at hrun
              obtain ⟨⟨hd, -⟩, ht⟩ := hrun
              subst hd
              rw [← ht, List.append_assoc _ e7 e8, List.append_assoc _ e5 (e7 ++ e8)]
              apply hstop
              intro n hn
              rcases List.mem_append.mp hn with h | h
              · exact he5 n h
              · rcases List.mem_append.mp h with h | h
                · exact he7 n h
                · exact he8 n h
            | none =>
              simp only [] at hrun
              obtain ⟨ns, new, evs, h1, h2, h3, h4, h5⟩ := ih _ _ hrun
              have hda : DependencyAssets env (filterPackageName key)
                  ⟨packages1, tr, rl⟩ := by
                refine ⟨h0, pk, P, as.1, as.2, hpk, hP, ?_, ⟨_, _, has⟩, ⟨_, _, htr⟩,
                  ⟨_, _, hrl⟩⟩
                rw [← hp1]
                rfl
              refine ⟨filterPackageName key :: ns, ⟨packages1, tr, rl⟩ :: new,
                Event.PackagesList ::
                  (List.replicate c (Event.PackagesGet (filterPackageName key)) ++
                    (e5 ++ (e7 ++ (e8 ++ evs)))),
                by simp [h1], List.Forall₂.cons hda h2, List.Sublist.cons₂ _ h3,
                by simp [h4], ?_⟩
              intro n hn
              simp only [List.mem_cons, reduceCtorEq, false_or, List.mem_append] at hn
              rcases hn with hn | hn | hn | hn | hn
              · exact hget n hn
              · exact absurd hn (he5 n)
              · exact absurd hn (he7 n)
              · exact absurd hn (he8 n)
              · exact List.mem_cons_of_mem _ (h5 n hn)

theorem assertMap_eq_val (a : JVal) (m : List (String × JVal))
    (h : assertMap a = Res.val m) : a = JVal.obj m := by
  cases a <;> simp [assertMap] at h
  rw [h]

theorem assertSlice_eq_val (a : JVal) (l : List JVal)
    (h : assertSlice a = Res.val l) : a = JVal.arr l := by
  cases a <;> simp [assertSlice] at h
  rw [h]

theorem forall₂_append {α β : Type} (R : α → β → Prop) (a1 a2 : List α) (b1 b2 : List β)
    (h1 : List.Forall₂ R a1 b1) (h2 : List.Forall₂ R a2 b2) :
    List.Forall₂ R (a1 ++ a2) (b1 ++ b2) := by
  induction h1 with
  | nil => exact h2
  | cons h _ ih => exact List.Forall₂.cons h ih

theorem setProjectDependenciesOuter_shape (env : Env) (A : String)
    (ps : List (String × DeploymentPackage)) (acc : List DeploymentProject)
    (t t' : List Event) (deps : List DeploymentProject) (err : Option GoError)
    (hrun : setProjectDependenciesOuter env A ps acc t = Res.val ((deps, err), t')) :
    ∃ (ns : List String) (new : List DeploymentProject) (evs : List Event),
      deps = acc ++ new ∧ List.Forall₂ (DependencyAssets env) ns new ∧
      ns.Sublist (projectDepNames ps) ∧ t' = t ++ evs ∧
      ∀ n, Event.PackagesGet n ∈ evs → n ∈ projectDepNames ps := by
  induction ps generalizing acc t with
  | nil =>
    simp only [setProjectDependenciesOuter, Go.pure_apply, Res.val.injEq, Prod.mk.injEq] at hrun
    exact ⟨[], [], [], by simp [hrun.1.1], List.Forall₂.nil, List.Sublist.refl _,
      by simp [hrun.2], by simp⟩
  | cons kp rest ih =>
    obtain ⟨k, pkg⟩ := kp
    simp only [setProjectDependenciesOuter] at hrun
    cases ha : GetValue pkg.Package.Annotations MANAGED
    case null =>
      rw [ha] at hrun
      obtain ⟨ns, new, evs, h1, h2, h3, h4, h5⟩ := ih acc t hrun
      refine ⟨ns, new, evs, h1, h2, ?_, h4, ?_⟩
      · simp only [projectDepNames]
        exact h3.trans (List.sublist_append_right _ _)
      · intro n hn
        simp only [projectDepNames]
        exact List.mem_append_right _ (h5 n hn)
    all_goals
      rw [ha] at hrun
      simp only [Go.bind_def] at hrun
      rw [Go.bind_eq_val] at hrun
      obtain ⟨ta, t1, hta, hrun⟩ := hrun
      rw [liftRes_eq_val] at hta
      obtain ⟨hta, ht1⟩ := hta
      rw [ht1] at hrun
      have hobj := assertMap_eq_val _ _ hta
      rw [hobj] at ha
      rw [Go.bind_eq_val] at hrun
      obtain ⟨l, t2, hl, hrun⟩ := hrun
      rw [liftRes_eq_val] at hl
      obtain ⟨hl, ht2⟩ := hl
      rw [ht2] at hrun
      have harr := assertSlice_eq_val _ _ hl
      have hnames : projectDepNames ((k, pkg) :: rest) =
          entryNames l ++ projectDepNames rest := by
        simp [projectDepNames, packageDepNames, ha, harr]
      rw [hnames]
      rw [Go.bind_eq_val] at hrun
      obtain ⟨⟨deps1, e1⟩, t3, hinner, hrun⟩ := hrun
      obtain ⟨ns1, new1, evs1, g1, g2, g3, g4, g5⟩ :=
        setProjectDependenciesInner_shape env A l acc t t3 deps1 e1 hinner
      cases e1 with
      | some e =>
        simp only [Go.pure_apply, Res.val.injEq, Prod.mk.injEq] at hrun
        obtain ⟨⟨hd, -⟩, ht⟩ := hrun
        refine ⟨ns1, new1, evs1, by rw [← hd, g1], g2,
          g3.trans (List.sublist_append_left _ _), by rw [← ht, g4], ?_⟩
        intro n hn
        exact List.mem_append_left _ (g5 n hn)
      | none =>
        simp only [] at hrun
        obtain ⟨ns, new, evs, h1, h2, h3, h4, h5⟩ := ih deps1 t3 hrun
        refine ⟨ns1 ++ ns, new1 ++ new, evs1 ++ evs, by simp [h1, g1],
          forall₂_append _ _ _ _ _ g2 h2, List.Sublist.append g3 h3, by simp [h4, g4], ?_⟩
        intro n hn
        rcases List.mem_append.mp hn with hn | hn
        · exact List.mem_append_left _ (g5 n hn)
        · exact List.mem_append_right _ (h5 n hn)

theorem SetProjectDependencies_shape (env : Env) (A : String) (d : DeploymentProject)
    (t t' : List Event) (deps : List DeploymentProject) (err : Option GoError)
    (hrun : SetProjectDependencies env A d t = Res.val ((deps, err), t')) :
    ∃ (ns : List String) (evs : List Event),
      List.Forall₂ (DependencyAssets env) ns deps ∧
      ns.Sublist (projectDepNames (env.rangePackages d.Packages)) ∧ t' = t ++ evs ∧
      ∀ n, Event.PackagesGet n ∈ evs →
        n ∈ projectDepNames (env.rangePackages d.Packages) := by
  obtain ⟨ns, new, evs, h1, h2, h3, h4, h5⟩ :=
    setProjectDependenciesOuter_shape env A _ [] t t' deps err hrun
  simp only [List.nil_append] at h1
  rw [h1]
  exact ⟨ns, evs, h2, h3, h4, h5⟩

/-! ## What the trigger and rule collectors return -/

theorem retry_ok_answer {α : Type} (k : Nat) (ev : Event)
    (answer : List Event → Except WskError α) (t t' : List Event) (a : α)
    (h : retry k (call ev answer) t = Res.val (Except.ok a, t')) :
    ∃ h0, answer h0 = Except.ok a := by
  unfold retry at h
  obtain ⟨h0, h1, hop⟩ := retryLoop_ok _ _ _ _ _ h
  simp only [call_apply, Res.val.injEq, Prod.mk.injEq] at hop
  exact ⟨h0, hop.1⟩

theorem getProjectTriggersLoop_inv (env : Env) (P : String) (l : List Trigger)
    (acc acc' : List (String × Trigger)) (err : Option GoError) (t t' : List Event)
    (hrun : getProjectTriggersLoop env P l acc t = Res.val ((acc', err), t')) :
    (∀ k, k ∈ acc'.map Prod.fst → k ∈ acc.map Prod.fst ∨ ManagedTriggerName P l k) ∧
    (err = none → ∀ k, (k ∈ acc.map Prod.fst ∨ ManagedTriggerName P l k) →
      k ∈ acc'.map Prod.fst) ∧
    (∀ kv ∈ acc', kv ∈ acc ∨ ∃ h0, env.Client.TriggersGet h0 kv.1 = Except.ok kv.2) := by
  induction l generalizing acc t with
  | nil =>
    simp only [getProjectTriggersLoop, Go.pure_apply, Res.val.injEq, Prod.mk.injEq] at hrun
    obtain ⟨⟨h1, -⟩, -⟩ := hrun
    subst h1
    refine ⟨fun k hk => Or.inl hk, fun _ k hk => ?_, fun kv hkv => Or.inl hkv⟩
    rcases hk with hk | ⟨x, hx, -⟩
    · exact hk
    · simp at hx
  | cons x rest ih =>
    simp only [getProjectTriggersLoop, Go.bind_def] at hrun
    rw [Go.bind_eq_val] at hrun
    obtain ⟨m, t0, hm, hrun⟩ := hrun
    rw [liftRes_eq_val] at hm
    obtain ⟨hm, -⟩ := hm
    have hcons : ∀ k, ManagedTriggerName P (x :: rest) k ↔
        ((x.Name = k ∧ m = true) ∨ ManagedTriggerName P rest k) := by
      intro k
      unfold ManagedTriggerName
      constructor
      · rintro ⟨a, ha, hn, hma⟩
        rcases List.mem_cons.mp ha with rfl | ha
        · rw [hm] at hma
          simp only [Res.val.injEq] at hma
          exact Or.inl ⟨hn, hma⟩
        · exact Or.inr ⟨a, ha, hn, hma⟩
      · rintro (⟨hn, hmt⟩ | ⟨a, ha, hn, hma⟩)
        · exact ⟨x, List.mem_cons_self _ _, hn, by rw [hm, hmt]⟩
        · exact ⟨a, List.mem_cons_of_mem _ ha, hn, hma⟩
    cases m with
    | false =>
      obtain ⟨i1, i2, i3⟩ := ih acc t0 hrun
      refine ⟨fun k hk => ?_, fun he k hk => ?_, i3⟩
      · rcases i1 k hk with h | h
        · exact Or.inl h
        · exact Or.inr ((hcons k).mpr (Or.inr h))
      · apply i2 he k
        rcases hk with h | h
        · exact Or.inl h
        · rcases (hcons k).mp h with ⟨-, hf⟩ | h
          · simp at hf
          · exact Or.inr h
    | true =>
      simp only [if_true] at hrun
      rw [Go.bind_eq_val] at hrun
      obtain ⟨r, t1, hr, hrun⟩ := hrun
      cases r with
      | error e =>
        simp only [Go.pure_apply, Res.val.injEq, Prod.mk.injEq] at hrun
        obtain ⟨⟨h1, h3⟩, -⟩ := hrun
        subst h1
        refine ⟨fun k hk => Or.inl hk, fun he => ?_, fun kv hkv => Or.inl hkv⟩
        rw [← h3] at he
        simp at he
      | ok a =>
        obtain ⟨h0, hans⟩ := retry_ok_answer _ _ _ _ _ _ hr
        obtain ⟨i1, i2, i3⟩ := ih _ t1 hrun
        refine ⟨fun k hk => ?_, fun he k hk => ?_, fun kv hkv => ?_⟩
        · rcases i1 k hk with h | h
          · rcases (mem_keys_mapSet _ _ _ _).mp h with h | h
            · exact Or.inl h
            · exact Or.inr ((hcons k).mpr (Or.inl ⟨h.symm, rfl⟩))
          · exact Or.inr ((hcons k).mpr (Or.inr h))
        · apply i2 he k
          rcases hk with h | h
          · exact Or.inl ((mem_keys_mapSet _ _ _ _).mpr (Or.inl h))
          · rcases (hcons k).mp h with ⟨hn, -⟩ | h
            · exact Or.inl ((mem_keys_mapSet _ _ _ _).mpr (Or.inr hn.symm))
            · exact Or.inr h
        · rcases i3 kv hkv with h | h
          · rcases mem_mapSet _ _ _ _ h with h | h
            · rw [h]
              exact Or.inr ⟨h0, hans⟩
            · exact Or.inl h
          · exact Or.inr h

theorem getProjectTriggers_returns (env : Env) (P : String) (ts : List (String × Trigger))
    (t t' : List Event) (hrun : getProjectTriggers env P t = Res.val ((ts, none), t')) :
    (∃ e, env.Client.TriggersList t = Except.error e ∧ ts = []) ∨
    (∃ l, env.Client.TriggersList t = Except.ok l ∧
      (∀ k, k ∈ ts.map Prod.fst ↔ ManagedTriggerName P l k) ∧
      ∀ kv ∈ ts, ∃ h0, env.Client.TriggersGet h0 kv.1 = Except.ok kv.2) := by
  simp only [getProjectTriggers, Go.bind_def] at hrun
  rw [Go.bind_of_val _ _ t _ _ (call_apply _ _ t)] at hrun
  cases hl : env.Client.TriggersList t with
  | error e =>
    rw [hl] at hrun
    simp only [Go.pure_apply, Res.val.injEq, Prod.mk.injEq] at hrun
    exact Or.inl ⟨e, rfl, hrun.1.1.symm⟩
  | ok l =>
    rw [hl] at hrun
    obtain ⟨i1, i2, i3⟩ := getProjectTriggersLoop_inv env P l [] ts none _ t' hrun
    refine Or.inr ⟨l, rfl, fun k => ⟨fun hk => ?_, fun hk => i2 rfl k (Or.inr hk)⟩,
      fun kv hkv => ?_⟩
    · rcases i1 k hk with h | h
      · simp at h
      · exact h
    · rcases i3 kv hkv with h | h
      · simp at h
      · exact h

theorem getProjectRulesLoop_inv (env : Env) (P : String) (l : List Rule)
    (acc acc' : List (String × Rule)) (err : Option GoError) (t t' : List Event)
    (hrun : getProjectRulesLoop env P l acc t = Res.val ((acc', err), t')) :
    (∀ k, k ∈ acc'.map Prod.fst → k ∈ acc.map Prod.fst ∨ ManagedRuleName P l k) ∧
    (err = none → ∀ k, (k ∈ acc.map Prod.fst ∨ ManagedRuleName P l k) →
      k ∈ acc'.map Prod.fst) ∧
    (∀ kv ∈ acc', kv ∈ acc ∨ ∃ h0, env.Client.RulesGet h0 kv.1 = Except.ok kv.2) := by
  induction l generalizing acc t with
  | nil =>
    simp only [getProjectRulesLoop, Go.pure_apply, Res.val.injEq, Prod.mk.injEq] at hrun
    obtain ⟨⟨h1, -⟩, -⟩ := hrun
    subst h1
    refine ⟨fun k hk => Or.inl hk, fun _ k hk => ?_, fun kv hkv => Or.inl hkv⟩
    rcases hk with hk | ⟨x, hx, -⟩
    · exact hk
    · simp at hx
  | cons x rest ih =>
    simp only [getProjectRulesLoop, Go.bind_def] at hrun
    rw [Go.bind_eq_val] at hrun
    obtain ⟨m, t0, hm, hrun⟩ := hrun
    rw [liftRes_eq_val] at hm
    obtain ⟨hm, -⟩ := hm
    have hcons : ∀ k, ManagedRuleName P (x :: rest) k ↔
        ((x.Name = k ∧ m = true) ∨ ManagedRuleName P rest k) := by
      intro k
      unfold ManagedRuleName
      constructor
      · rintro ⟨a, ha, hn, hma⟩
        rcases List.mem_cons.mp ha with rfl | ha
        · rw [hm] at hma
          simp only [Res.val.injEq] at hma
          exact Or.inl ⟨hn, hma⟩
        · exact Or.inr ⟨a, ha, hn, hma⟩
      · rintro (⟨hn, hmt⟩ | ⟨a, ha, hn, hma⟩)
        · exact ⟨x, List.mem_cons_self _ _, hn, by rw [hm, hmt]⟩
        · exact ⟨a, List.mem_cons_of_mem _ ha, hn, hma⟩
    cases m with
    | false =>
      obtain ⟨i1, i2, i3⟩ := ih acc t0 hrun
      refine ⟨fun k hk => ?_, fun he k hk => ?_, i3⟩
      · rcases i1 k hk with h | h
        · exact Or.inl h
        · exact Or.inr ((hcons k).mpr (Or.inr h))
      · apply i2 he k
        rcases hk with h | h
        · exact Or.inl h
        · rcases (hcons k).mp h with ⟨-, hf⟩ | h
          · simp at hf
          · exact Or.inr h
    | true =>
      simp only [if_true] at hrun
      rw [Go.bind_eq_val] at hrun
      obtain ⟨r, t1, hr, hrun⟩ := hrun
      cases r with
      | error e =>
        simp only [Go.pure_apply, Res.val.injEq, Prod.mk.injEq] at hrun
        obtain ⟨⟨h1, h3⟩, -⟩ := hrun
        subst h1
        refine ⟨fun k hk => Or.inl hk, fun he => ?_, fun kv hkv => Or.inl hkv⟩
        rw [← h3] at he
        simp at he
      | ok a =>
        obtain ⟨h0, hans⟩ := retry_ok_answer _ _ _ _ _ _ hr
        obtain ⟨i1, i2, i3⟩ := ih _ t1 hrun
        refine ⟨fun k hk => ?_, fun he k hk => ?_, fun kv hkv => ?_⟩
        · rcases i1 k hk with h | h
          · rcases (mem_keys_mapSet _ _ _ _).mp h with h | h
            · exact Or.inl h
            · exact Or.inr ((hcons k).mpr (Or.inl ⟨h.symm, rfl⟩))
          · exact Or.inr ((hcons k).mpr (Or.inr h))
        · apply i2 he k
          rcases hk with h | h
          · exact Or.inl ((mem_keys_mapSet _ _ _ _).mpr (Or.inl h))
          · rcases (hcons k).mp h with ⟨hn, -⟩ | h
            · exact Or.inl ((mem_keys_mapSet _ _ _ _).mpr (Or.inr hn.symm))
            · exact Or.inr h
        · rcases i3 kv hkv with h | h
          · rcases mem_mapSet _ _ _ _ h with h | h
            · rw [h]
              exact Or.inr ⟨h0, hans⟩
            · exact Or.inl h
          · exact Or.inr h

theorem getProjectRules_returns (env : Env) (P : String) (rs : List (String × Rule))
    (t t' : List Event) (hrun : getProjectRules env P t = Res.val ((rs, none), t')) :
    (∃ e, env.Client.RulesList t = Except.error e ∧ rs = []) ∨
    (∃ l, env.Client.RulesList t = Except.ok l ∧
      (∀ k, k ∈ rs.map Prod.fst ↔ ManagedRuleName P l k) ∧
      ∀ kv ∈ rs, ∃ h0, env.Client.RulesGet h0 kv.1 = Except.ok kv.2) := by
  simp only [getProjectRules, Go.bind_def] at hrun
  rw [Go.bind_of_val _ _ t _ _ (call_apply _ _ t)] at hrun
  cases hl : env.Client.RulesList t with
  | error e =>
    rw [hl] at hrun
    simp only [Go.pure_apply, Res.val.injEq, Prod.mk.injEq] at hrun
    exact Or.inl ⟨e, rfl, hrun.1.1.symm⟩
  | ok l =>
    rw [hl] at hrun
    obtain ⟨i1, i2, i3⟩ := getProjectRulesLoop_inv env P l [] rs none _ t' hrun
    refine Or.inr ⟨l, rfl, fun k => ⟨fun hk => ?_, fun hk => i2 rfl k (Or.inr hk)⟩,
      fun kv hkv => ?_⟩
    · rcases i1 k hk with h | h
      · simp at h
      · exact h
    · rcases i3 kv hkv with h | h
      · simp at h
      · exact h

theorem getPackageActionsAndSequences_returns (env : Env) (pn P : String)
    (la ls : List (String × ActionRecord)) (t t' : List Event)
    (hrun : getPackageActionsAndSequences env pn P t = Res.val (((la, ls), none), t')) :
    ∃ l, env.Client.ActionsList t pn = Except.ok l ∧
      ∀ k, (k ∈ la.map Prod.fst ∨ k ∈ ls.map Prod.fst) ↔ ManagedActionName P l k := by
  simp only [getPackageActionsAndSequences, Go.bind_def] at hrun
  rw [Go.bind_of_val _ _ t _ _ (call_apply _ _ t)] at hrun
  cases hl : env.Client.ActionsList t pn with
  | error e =>
    rw [hl] at hrun
    simp [Go.pure_apply] at hrun
  | ok l =>
    rw [hl] at hrun
    obtain ⟨-, -, i3, i4, -⟩ :=
      getPackageActionsAndSequencesLoop_inv env pn P l [] [] la ls none _ t' hrun
    refine ⟨l, rfl, fun k => ⟨fun hk => ?_, fun hk => i4 rfl k (Or.inr hk)⟩⟩
    rcases i3 k hk with h | h
    · simp at h
    · exact h

/-! ## The dependency walk -/

theorem forall₂_imp {α β : Type} (R S : α → β → Prop) (a : List α) (b : List β)
    (h : List.Forall₂ R a b) (hRS : ∀ x y, R x y → S x y) : List.Forall₂ S a b := by
  induction h with
  | nil => exact List.Forall₂.nil
  | cons h _ ih => exact List.Forall₂.cons (hRS _ _ h) ih

theorem forall₂_right {α β : Type} (R : α → β → Prop) (a : List α) (b : List β)
    (h : List.Forall₂ R a b) : ∀ y ∈ b, ∃ x ∈ a, R x y := by
  induction h with
  | nil => simp
  | cons h _ ih =>
    intro y hy
    rcases List.mem_cons.mp hy with rfl | hy
    · exact ⟨_, List.mem_cons_self _ _, h⟩
    · obtain ⟨x, hx, hr⟩ := ih y hy
      exact ⟨x, List.mem_cons_of_mem _ hx, hr⟩

theorem DependencyAssets.holdsFetched (env : Env) (n : String) (dp : DeploymentProject)
    (h : DependencyAssets env n dp) : HoldsFetched env n dp := by
  obtain ⟨h0, pk, P, as, ss, hpk, -, hpkgs, -⟩ := h
  exact ⟨h0, pk, as, ss, hpk, hpkgs⟩

/-- C17: the asset sets returned by `SetProjectDependencies` correspond, in
order, to some of the dependency entries of the packages of the current
project: each holds exactly one package, the one fetched for the name its
entry resolves to; there are no more asset sets than such entries, and every
package Get issued asks for a name that one of these entries resolves to.
The dependency list of a fetched dependency package is never walked. -/
theorem C17_dependency_walk_is_one_level_deep (env : Env) (A : String)
    (d : DeploymentProject) (t t' : List Event) (deps : List DeploymentProject)
    (err : Option GoError)
    (hrun : SetProjectDependencies env A d t = Res.val ((deps, err), t')) :
    (∀ dp ∈ deps, dp.Packages.length = 1) ∧
    deps.length ≤ (projectDepNames (env.rangePackages d.Packages)).length ∧
    ∃ (ns : List String) (evs : List Event),
      ns.Sublist (projectDepNames (env.rangePackages d.Packages)) ∧
      List.Forall₂ (HoldsFetched env) ns deps ∧
      t' = t ++ evs ∧
      ∀ n, Event.PackagesGet n ∈ evs →
        n ∈ projectDepNames (env.rangePackages d.Packages) := by
  obtain ⟨ns, evs, h1, h2, h3, h4⟩ := SetProjectDependencies_shape env A d t t' deps err hrun
  have hf : List.Forall₂ (HoldsFetched env) ns deps :=
    forall₂_imp _ _ _ _ h1 (DependencyAssets.holdsFetched env)
  refine ⟨fun dp hdp => ?_, ?_, ns, evs, h2, hf, h3, h4⟩
  · obtain ⟨n, -, h0, pk, as, ss, -, hp⟩ := forall₂_right _ _ _ hf dp hdp
    rw [hp]
    rfl
  · rw [← hf.length_eq]
    exact h2.length_le

/-- C17 on the remote where `lib-pkg`, the dependency of `ext-pkg`, itself
depends on `base-pkg`: one asset set, for `lib-pkg`, and no Get of
`base-pkg`. -/
theorem C17_dependency_walk_is_one_level_deep_witness :
    SetProjectDependencies (envOf (packagesOnly [extPkg, deepLibPkg, basePkg])) "EXT"
        extDeployment [] =
      Res.val (([deepLibAssets], none),
        [Event.PackagesList, Event.PackagesGet "lib-pkg", Event.ActionsList "lib-pkg",
          Event.TriggersList, Event.RulesList]) ∧
    ((∀ dp ∈ [deepLibAssets], dp.Packages.length = 1) ∧
    [deepLibAssets].length ≤
      (projectDepNames ((envOf (packagesOnly [extPkg, deepLibPkg, basePkg])).rangePackages
        extDeployment.Packages)).length ∧
    ∃ (ns : List String) (evs : List Event),
      ns.Sublist
        (projectDepNames ((envOf (packagesOnly [extPkg, deepLibPkg, basePkg])).rangePackages
          extDeployment.Packages)) ∧
      List.Forall₂ (HoldsFetched (envOf (packagesOnly [extPkg, deepLibPkg, basePkg]))) ns
        [deepLibAssets] ∧
      [Event.PackagesList, Event.PackagesGet "lib-pkg", Event.ActionsList "lib-pkg",
          Event.TriggersList, Event.RulesList] = [] ++ evs ∧
      ∀ n, Event.PackagesGet n ∈ evs →
        n ∈ projectDepNames
          ((envOf (packagesOnly [extPkg, deepLibPkg, basePkg])).rangePackages
            extDeployment.Packages)) :=
  ⟨rfl,
   C17_dependency_walk_is_one_level_deep
    (envOf (packagesOnly [extPkg, deepLibPkg, basePkg])) "EXT" extDeployment []
    [Event.PackagesList, Event.PackagesGet "lib-pkg", Event.ActionsList "lib-pkg",
      Event.TriggersList, Event.RulesList]
    [deepLibAssets] none rfl⟩

/-- C19: every asset set returned by `SetProjectDependencies(A)` holds one
fetched dependency package and was collected under the project name `P` read
from that package's own ownership annotation: the keys of its action and
sequence maps are the names of the actions listed under the package that pass
`isManagedEntity` for `P`, and its triggers and rules are the fetched
triggers and rules whose names are those of the listed ones that pass
`isManagedEntity` for `P` (none when the listing fails). -/
theorem C19_dependency_assets_collected_under_own_project (env : Env) (A : String)
    (d : DeploymentProject) (t t' : List Event) (deps : List DeploymentProject)
    (err : Option GoError)
    (hrun : SetProjectDependencies env A d t = Res.val ((deps, err), t')) :
    ∀ dp ∈ deps,
      ∃ (n : String) (h0 : List Event) (pk : Package) (P : String)
          (as ss : List (String × ActionRecord)),
        env.Client.PackagesGet h0 n = Except.ok pk ∧
        ownProjectName (GetValue pk.Annotations MANAGED) = Res.val P ∧
        dp.Packages = [(pk.Name, ⟨pk, as, ss⟩)] ∧
        (∃ h1 l, env.Client.ActionsList h1 pk.Name = Except.ok l ∧
          ∀ k, (k ∈ as.map Prod.fst ∨ k ∈ ss.map Prod.fst) ↔ ManagedActionName P l k) ∧
        (∃ h2, (∃ e, env.Client.TriggersList h2 = Except.error e ∧ dp.Triggers = []) ∨
          (∃ l, env.Client.TriggersList h2 = Except.ok l ∧
            (∀ k, k ∈ dp.Triggers.map Prod.fst ↔ ManagedTriggerName P l k) ∧
            ∀ kv ∈ dp.Triggers, ∃ h, env.Client.TriggersGet h kv.1 = Except.ok kv.2)) ∧
        (∃ h3, (∃ e, env.Client.RulesList h3 = Except.error e ∧ dp.Rules = []) ∨
          (∃ l, env.Client.RulesList h3 = Except.ok l ∧
            (∀ k, k ∈ dp.Rules.map Prod.fst ↔ ManagedRuleName P l k) ∧
            ∀ kv ∈ dp.Rules, ∃ h, env.Client.RulesGet h kv.1 = Except.ok kv.2)) := by
  obtain ⟨ns, evs, h1, -, -, -⟩ := SetProjectDependencies_shape env A d t t' deps err hrun
  intro dp hdp
  obtain ⟨n, -, h0, pk, P, as, ss, hpk, hP, hpkgs, ⟨ha, ta, hact⟩, ⟨ht, tt, htr⟩,
    ⟨hr, tr, hrl⟩⟩ := forall₂_right _ _ _ h1 dp hdp
  obtain ⟨l, hl, hkeys⟩ := getPackageActionsAndSequences_returns env pk.Name P as ss ha ta hact
  exact ⟨n, h0, pk, P, as, ss, hpk, hP, hpkgs, ⟨ha, l, hl, hkeys⟩,
    ⟨ht, getProjectTriggers_returns env P dp.Triggers ht tt htr⟩,
    ⟨hr, getProjectRules_returns env P dp.Rules hr tr hrl⟩⟩

/-- C19 on the remote that holds the actions, triggers and rules of project
`LIB` and a trigger of project `EXT`: the asset set of `lib-pkg`, resolved for
project `EXT`, is collected under `LIB`. -/
theorem C19_dependency_assets_collected_under_own_project_witness :
    SetProjectDependencies (envOf libRemote) "EXT" extDeployment [] =
      Res.val (([libFullAssets], none), libFullDiscovery) ∧
    ∃ (n : String) (h0 : List Event) (pk : Package) (P : String)
        (as ss : List (String × ActionRecord)),
      (envOf libRemote).Client.PackagesGet h0 n = Except.ok pk ∧
      ownProjectName (GetValue pk.Annotations MANAGED) = Res.val P ∧
      libFullAssets.Packages = [(pk.Name, ⟨pk, as, ss⟩)] ∧
      (∃ h1 l, (envOf libRemote).Client.ActionsList h1 pk.Name = Except.ok l ∧
        ∀ k, (k ∈ as.map Prod.fst ∨ k ∈ ss.map Prod.fst) ↔ ManagedActionName P l k) ∧
      (∃ h2, (∃ e, (envOf libRemote).Client.TriggersList h2 = Except.error e ∧
          libFullAssets.Triggers = []) ∨
        (∃ l, (envOf libRemote).Client.TriggersList h2 = Except.ok l ∧
          (∀ k, k ∈ libFullAssets.Triggers.map Prod.fst ↔ ManagedTriggerName P l k) ∧
          ∀ kv ∈ libFullAssets.Triggers,
            ∃ h, (envOf libRemote).Client.TriggersGet h kv.1 = Except.ok kv.2)) ∧
      (∃ h3, (∃ e, (envOf libRemote).Client.RulesList h3 = Except.error e ∧
          libFullAssets.Rules = []) ∨
        (∃ l, (envOf libRemote).Client.RulesList h3 = Except.ok l ∧
          (∀ k, k ∈ libFullAssets.Rules.map Prod.fst ↔ ManagedRuleName P l k) ∧
          ∀ kv ∈ libFullAssets.Rules,
            ∃ h, (envOf libRemote).Client.RulesGet h kv.1 = Except.ok kv.2)) :=
  ⟨rfl,
   C19_dependency_assets_collected_under_own_project (envOf libRemote) "EXT" extDeployment
    [] libFullDiscovery [libFullAssets] none rfl libFullAssets (List.mem_singleton.mpr rfl)⟩

/-! ## One asset set per removable dependency entry -/

theorem setProjectDependenciesInner_names (env : Env) (A : String) (pkgs : List Package)
    (hlist : ∀ h, env.Client.PackagesList h = Except.ok pkgs)
    (hget : ∀ h n p, env.Client.PackagesGet h n = Except.ok p → p.Name = n)
    (ds : List JVal) (acc : List DeploymentProject) (t t' : List Event)
    (deps : List DeploymentProject)
    (hrun : setProjectDependenciesInner env A ds acc t = Res.val ((deps, none), t')) :
    deps.map heldNames =
      acc.map heldNames ++ ((entryNames ds).filter (notInUse A pkgs)).map (fun n => [n]) := by
  induction ds generalizing acc t with
  | nil =>
    simp only [setProjectDependenciesInner, Go.pure_apply, Res.val.injEq, Prod.mk.injEq] at hrun
    simp [← hrun.1.1, entryNames]
  | cons dep rest ih =>
    simp only [setProjectDependenciesInner, Go.bind_def] at hrun
    rw [Go.bind_eq_val] at hrun
    obtain ⟨key, t1, hkey, hrun⟩ := hrun
    rw [liftRes_eq_val] at hkey
    obtain ⟨hkey, -⟩ := hkey
    have hnames : entryNames (dep :: rest) = filterPackageName key :: entryNames rest := by
      simp [entryNames, hkey]
    rw [hnames]
    rw [Go.bind_eq_val] at hrun
    obtain ⟨used, t2, hused, hrun⟩ := hrun
    rw [isPackageUsedByOtherPackages_ok env A _ t1 pkgs (hlist t1), liftRes_eq_val] at hused
    obtain ⟨hused, -⟩ := hused
    cases used with
    | true =>
      simp only [if_true] at hrun
      have hno : notInUse A pkgs (filterPackageName key) = false := by
        simp [notInUse, hused]
      rw [List.filter_cons_of_neg (by simp [hno])]
      exact ih acc t2 hrun
    | false =>
      simp only [Bool.false_eq_true, if_false] at hrun
      have hyes : notInUse A pkgs (filterPackageName key) = true := by
        simp [notInUse, hused]
      rw [List.filter_cons_of_pos hyes]
      rw [Go.bind_eq_val] at hrun
      obtain ⟨r, t3, hr, hrun⟩ := hrun
      cases r with
      | error e => simp [Go.pure_apply] at hrun
      | ok p =>
        obtain ⟨h0, pk, hpk, hp⟩ := getPackage_ok env _ _ _ _ hr
        have hname : p.Package.Name = filterPackageName key := by
          rw [hp]
          exact hget h0 _ pk hpk
        simp only [] at hrun
        rw [Go.bind_eq_val] at hrun
        obtain ⟨P, t4, -, hrun⟩ := hrun
        rw [Go.bind_eq_val] at hrun
        obtain ⟨⟨as, e1⟩, t5, -, hrun⟩ := hrun
        cases e1 with
        | some e => simp [Go.pure_apply] at hrun
        | none =>
          simp only [] at hrun
          rw [Go.bind_eq_val] at hrun
          obtain ⟨packages1, t6, hp1, hrun⟩ := hrun
          rw [setActionsAndSequences_fresh, liftRes_val] at hp1
          simp only [Res.val.injEq, Prod.mk.injEq] at hp1
          rw [Go.bind_eq_val] at hrun
          obtain ⟨⟨tr, e2⟩, t7, -, hrun⟩ := hrun
          cases e2 with
          | some e => simp [Go.pure_apply] at hrun
          | none =>
            simp only [] at hrun
            rw [Go.bind_eq_val] at hrun
            obtain ⟨⟨rl, e3⟩, t8, -, hrun⟩ := hrun
            cases e3 with
            | some e => simp [Go.pure_apply] at hrun
            | none =>
              simp only [] at hrun
              rw [ih _ t8 hrun]
              simp [heldNames, ← hp1.1, hname]

theorem setProjectDependenciesOuter_names (env : Env) (A : String) (pkgs : List Package)
    (hlist : ∀ h, env.Client.PackagesList h = Except.ok pkgs)
    (hget : ∀ h n p, env.Client.PackagesGet h n = Except.ok p → p.Name = n)
    (ps : List (String × DeploymentPackage)) (acc : List DeploymentProject)
    (t t' : List Event) (deps : List DeploymentProject)
    (hrun : setProjectDependenciesOuter env A ps acc t = Res.val ((deps, none), t')) :
    deps.map heldNames =
      acc.map heldNames ++
        ((projectDepNames ps).filter (notInUse A pkgs)).map (fun n => [n]) := by
  induction ps generalizing acc t with
  | nil =>
    simp only [setProjectDependenciesOuter, Go.pure_apply, Res.val.injEq, Prod.mk.injEq] at hrun
    simp [← hrun.1.1, projectDepNames]
  | cons kp rest ih =>
    obtain ⟨k, pkg⟩ := kp
    simp only [setProjectDependenciesOuter] at hrun
    cases ha : GetValue pkg.Package.Annotations MANAGED
    case null =>
      rw [ha] at hrun
      rw [ih acc t hrun]
      simp [projectDepNames, packageDepNames, ha]
    all_goals
      rw [ha] at hrun
      simp only [Go.bind_def] at hrun
      rw [Go.bind_eq_val] at hrun
      obtain ⟨ta, t1, hta, hrun⟩ := hrun
      rw [liftRes_eq_val] at hta
      obtain ⟨hta, -⟩ := hta
      have hobj := assertMap_eq_val _ _ hta
      rw [hobj] at ha
      rw [Go.bind_eq_val] at hrun
      obtain ⟨l, t2, hl, hrun⟩ := hrun
      rw [liftRes_eq_val] at hl
      obtain ⟨hl, -⟩ := hl
      have harr := assertSlice_eq_val _ _ hl
      have hnames : projectDepNames ((k, pkg) :: rest) =
          entryNames l ++ projectDepNames rest := by
        simp [projectDepNames, packageDepNames, ha, harr]
      rw [hnames]
      rw [Go.bind_eq_val] at hrun
      obtain ⟨⟨deps1, e1⟩, t3, hinner, hrun⟩ := hrun
      cases e1 with
      | some e => simp [Go.pure_apply] at hrun
      | none =>
        simp only [] at hrun
        rw [ih deps1 t3 hrun,
          setProjectDependenciesInner_names env A pkgs hlist hget l acc t2 t3 deps1 hinner]
        simp

/-- C18, as stated, fails: when the dependency list of `ext-pkg` names
`lib-pkg` twice, and when two packages of project `EXT` both depend on
`lib-pkg`, `SetProjectDependencies` returns two asset sets that both hold
`lib-pkg`. -/
theorem C18_counterexample_dependency_held_twice :
    SetProjectDependencies (envOf (packagesOnly [twicePkg, libPkg])) "EXT"
        ⟨[("ext-pkg", NewDeploymentPackage twicePkg)], [], []⟩ [] =
      Res.val (([libAssets, libAssets], none), libResolution ++ libResolution) ∧
    SetProjectDependencies (envOf (packagesOnly [extPkg, ext2Pkg, libPkg])) "EXT"
        ⟨[("ext-pkg", NewDeploymentPackage extPkg),
          ("ext2-pkg", NewDeploymentPackage ext2Pkg)], [], []⟩ [] =
      Res.val (([libAssets, libAssets], none), libResolution ++ libResolution) ∧
    heldNames libAssets = ["lib-pkg"] :=
  ⟨rfl, rfl, rfl⟩

/-- C18, amended: `SetProjectDependencies` returns one asset set per
dependency entry that is safe to remove, not per dependency package. When
every package listing answers the same list, a package Get answers with the
package asked for and the call returns no error, the packages held by the
returned asset sets are, in visiting order, the names that the dependency
entries of the project's packages resolve to and for which the still-in-use
check answers false, each as often as it is named; with well-formed listed
annotations the check answers false exactly for the names no package of
another project refers to. -/
theorem C18_one_asset_set_per_removable_entry (env : Env) (A : String)
    (pkgs : List Package) (d : DeploymentProject) (t t' : List Event)
    (deps : List DeploymentProject)
    (hlist : ∀ h, env.Client.PackagesList h = Except.ok pkgs)
    (hget : ∀ h n p, env.Client.PackagesGet h n = Except.ok p → p.Name = n)
    (hrun : SetProjectDependencies env A d t = Res.val ((deps, none), t')) :
    deps.map heldNames =
      ((projectDepNames (env.rangePackages d.Packages)).filter (notInUse A pkgs)).map
        (fun n => [n]) ∧
    ((∀ pkg ∈ pkgs, WellFormedAnnotation (GetValue pkg.Annotations MANAGED)) →
      ∀ n, notInUse A pkgs n = true ↔ ¬ ReferencedByOtherProject A n pkgs) := by
  constructor
  · have := setProjectDependenciesOuter_names env A pkgs hlist hget
      (env.rangePackages d.Packages) [] t t' deps hrun
    simpa using this
  · intro hwf n
    obtain ⟨b, hb, hiff⟩ := usedByOtherLoop_spec A n pkgs hwf
    simp only [notInUse, hb, Res.val.injEq, decide_eq_true_eq]
    rw [← hiff]
    cases b <;> simp

/-- C18, amended, for the dependency list that names `lib-pkg` twice. -/
theorem C18_one_asset_set_per_removable_entry_witness :
    [libAssets, libAssets].map heldNames =
      ((projectDepNames ((envOf (packagesOnly [twicePkg, libPkg])).rangePackages
          [("ext-pkg", NewDeploymentPackage twicePkg)])).filter
        (notInUse "EXT" [twicePkg, libPkg])).map (fun n => [n]) ∧
    ((∀ pkg ∈ [twicePkg, libPkg],
        WellFormedAnnotation (GetValue pkg.Annotations MANAGED)) →
      ∀ n, notInUse "EXT" [twicePkg, libPkg] n = true ↔
        ¬ ReferencedByOtherProject "EXT" n [twicePkg, libPkg]) :=
  C18_one_asset_set_per_removable_entry (envOf (packagesOnly [twicePkg, libPkg])) "EXT"
    [twicePkg, libPkg] ⟨[("ext-pkg", NewDeploymentPackage twicePkg)], [], []⟩ []
    (libResolution ++ libResolution) [libAssets, libAssets] (fun _ => rfl)
    (fun _ n p h => findPackage_name _ n p h) rfl

end ProjectReader
